import Mathlib

set_option maxRecDepth 100000

/-!
# bspatch: applying a BSDIFF40 patch

A shallow embedding of `src/bspatch.c` and theorems about it.

Conventions of the embedding.
* `off_t` is a signed 64-bit integer.  Values are mathematical integers (`Int`); every
  arithmetic operation of the source that could leave the 64-bit range is written with
  `wrap_off_t`, so that a wrapped result would be visible.
* `u_char` is `Fin 256`; `+=` on a `u_char` is addition modulo 256, written out.
* `errx(1, "Corrupt patch")` is an explicit outcome, as is an access outside a buffer.
* The decompressed contents of the three sub-streams are given; libbzip2 is a reader over them.
* The loop is run with fuel; the fuel given is shown to suffice.
-/

namespace Bspatch

/-! ## Machine types and limits -/

/-- A `u_char`: one byte. -/
abbrev UChar := Fin 256

/-- Width of `off_t` in bits (`sizeof (off_t) * CHAR_BIT`). -/
def OFF_BITS : Nat := 64

/-- The macro `TYPE_MAXIMUM(t)` for a signed type `t` of `bits` bits:
`(((t) 1 << (bits - 2)) - 1) * 2 + 1`. -/
def TYPE_MAXIMUM (bits : Nat) : Int := ((2 : Int) ^ (bits - 2) - 1) * 2 + 1

/-- The macro `TYPE_MINIMUM(t)` for a signed type: `~ TYPE_MAXIMUM (t)`, and `~x = -x - 1`. -/
def TYPE_MINIMUM (bits : Nat) : Int := -(TYPE_MAXIMUM bits) - 1

/-- The limit `OFF_MAX`, as `TYPE_MAXIMUM(off_t)`. -/
def OFF_MAX : Int := TYPE_MAXIMUM OFF_BITS

/-- The limit `OFF_MIN`, as `TYPE_MINIMUM(off_t)`. -/
def OFF_MIN : Int := TYPE_MINIMUM OFF_BITS

/-- The constant `HEADER_SIZE`. -/
def HEADER_SIZE : Int := 32

/-- Modelled from the spec: `INT_MAX` of `limits.h`, the 32-bit signed maximum that the spec
names as the sanity ceiling. -/
def INT_MAX : Int := 2147483647

/-- The value a signed 64-bit variable holds after being assigned the mathematical integer `x`
(two's-complement wrap-around); the identity on `[OFF_MIN, OFF_MAX]`. -/
def wrap_off_t (x : Int) : Int := (x + 2 ^ 63) % 2 ^ 64 - 2 ^ 63

/-- Whether `x` is a value of type `off_t`. -/
def IsOff (x : Int) : Prop := OFF_MIN ≤ x ∧ x ≤ OFF_MAX

instance (x : Int) : Decidable (IsOff x) := by unfold IsOff; infer_instance

/-- The result of a signed operation on `off_t` whose exact value is `x`; `none` when the value
does not fit (signed overflow). -/
def exact_off_t (x : Int) : Option Int := if IsOff x then some x else none

/-! ## `add_off_t` -/

/-- The function `add_off_t`, the portable branch (`#else`).  `none` is `errx(1, "Corrupt patch")`.
The two subtractions and the addition are the machine operations. -/
def add_off_t (a b : Int) : Option Int :=
  if (b > 0 ∧ a > wrap_off_t (OFF_MAX - b)) ∨ (b < 0 ∧ a < wrap_off_t (OFF_MIN - b)) then
    none
  else
    some (wrap_off_t (a + b))

/-- The builtin `__builtin_add_overflow(a, b, &result)` on `off_t`: stores the wrapped sum and reports
whether it differs from the exact sum. -/
def builtin_add_overflow (a b : Int) : Bool × Int :=
  (decide (wrap_off_t (a + b) ≠ a + b), wrap_off_t (a + b))

/-- The function `add_off_t`, the branch compiled when `__builtin_add_overflow` is available. -/
def add_off_t_builtin (a b : Int) : Option Int :=
  let r := builtin_add_overflow a b
  if r.1 then none else some r.2

/-! ## `offtin` -/

/-- The function `offtin`: `buf[i]` are the bytes of the buffer, `y` is an `off_t`. -/
def offtin (buf : List UChar) : Int :=
  let b (i : Nat) : Nat := (buf.getD i 0).val
  let y : Int := ((b 7 &&& 0x7F : Nat) : Int)
  let y := wrap_off_t (y * 256); let y := wrap_off_t (y + b 6)
  let y := wrap_off_t (y * 256); let y := wrap_off_t (y + b 5)
  let y := wrap_off_t (y * 256); let y := wrap_off_t (y + b 4)
  let y := wrap_off_t (y * 256); let y := wrap_off_t (y + b 3)
  let y := wrap_off_t (y * 256); let y := wrap_off_t (y + b 2)
  let y := wrap_off_t (y * 256); let y := wrap_off_t (y + b 1)
  let y := wrap_off_t (y * 256); let y := wrap_off_t (y + b 0)
  if (b 7 &&& 0x80) ≠ 0 then wrap_off_t (-y) else y

/-- The computation of `offtin` with every signed operation checked: `none` as soon as a
product, a sum or the negation leaves the range of `off_t`. -/
def offtin_checked (buf : List UChar) : Option Int :=
  let b (i : Nat) : Nat := (buf.getD i 0).val
  let step (y : Int) (i : Nat) : Option Int :=
    (exact_off_t (y * 256)).bind fun y1 => exact_off_t (y1 + b i)
  (step ((b 7 &&& 0x7F : Nat) : Int) 6).bind fun y =>
  (step y 5).bind fun y =>
  (step y 4).bind fun y =>
  (step y 3).bind fun y =>
  (step y 2).bind fun y =>
  (step y 1).bind fun y =>
  (step y 0).bind fun y =>
  if (b 7 &&& 0x80) ≠ 0 then exact_off_t (-y) else some y

/-! ## The decompression reader -/

/-- Status that a read reports through its `bzerror` argument. -/
inductive BzStatus
  | BZ_OK
  | BZ_STREAM_END
  | BZ_PARAM_ERROR
  | BZ_DATA_ERROR
deriving DecidableEq

/-- Modelled from the spec: the decompression reader of libbzip2 (`BZFILE`), an external
collaborator whose contract is given in section 6: a forward-only cursor over the decompressed
bytes.  `data` are the bytes the reader can still deliver; `damaged` tells that the compressed
input behind them is malformed or truncated, so that a read asking for more reports an error
status instead of the end of the stream. -/
structure BzStream where
  data : List UChar
  damaged : Bool
deriving DecidableEq

/-- What one call of `BZ2_bzRead` yields: the returned count, the bytes stored in the caller's
buffer, the status and the reader afterwards. -/
structure BzRead where
  lenread : Int
  bytes : List UChar
  bzerr : BzStatus
  rest : BzStream
deriving DecidableEq

/-- Modelled from the spec: `BZ2_bzRead(&bzerr, b, buf, len)`: reads `len` bytes, fewer only at
the end of the stream, and reports OK, end of stream or an error. -/
def BZ2_bzRead (b : BzStream) (len : Int) : BzRead :=
  if len < 0 then ⟨0, [], .BZ_PARAM_ERROR, b⟩
  else if len = 0 then ⟨0, [], .BZ_OK, b⟩
  else
    let bytes := b.data.take len.toNat
    let rest : BzStream := ⟨b.data.drop len.toNat, b.damaged⟩
    if (bytes.length : Int) < len then
      ⟨bytes.length, bytes, if b.damaged then .BZ_DATA_ERROR else .BZ_STREAM_END, rest⟩
    else
      ⟨len, bytes, .BZ_OK, rest⟩

/-- The test applied after every read:
`(lenread < len) || ((bzerr != BZ_OK) && (bzerr != BZ_STREAM_END))`. -/
def readFailed (r : BzRead) (len : Int) : Bool :=
  decide (r.lenread < len) || (r.bzerr != .BZ_OK && r.bzerr != .BZ_STREAM_END)

/-! ## Buffers -/

/-- Reading `buf[i]`; `none` when `i` lies outside the buffer. -/
def getByte (buf : List UChar) (i : Int) : Option UChar :=
  if 0 ≤ i then buf.get? i.toNat else none

/-- Storing `bytes` at `buf[pos], buf[pos+1], ...`; `none` when the region does not lie inside
the buffer. -/
def storeBytes (buf : List UChar) (pos : Int) (bytes : List UChar) : Option (List UChar) :=
  if 0 ≤ pos ∧ pos + bytes.length ≤ buf.length then
    some (buf.take pos.toNat ++ bytes ++ buf.drop (pos.toNat + bytes.length))
  else none

/-- The `u_char` addition of `new[..] += old[..]`: modulo 256. -/
def addByte (a b : UChar) : UChar := ⟨(a.val + b.val) % 256, Nat.mod_lt _ (by decide)⟩

/-! ## The reconstruction loop -/

/-- The variables of `main` that the loop changes: the two positions, the contents of the mapped
destination `new`, and the three readers. -/
structure LoopState where
  oldpos : Int
  newpos : Int
  new : List UChar
  cpf : BzStream
  dpf : BzStream
  epf : BzStream
deriving DecidableEq

/-- The control triple `ctrl[0], ctrl[1], ctrl[2]`. -/
structure Ctrl where
  c0 : Int
  c1 : Int
  c2 : Int
deriving DecidableEq

/-- How a piece of the loop ends: it goes on with a value, or `errx(1, "Corrupt patch")` is
called in the state given, or a buffer is accessed outside its bounds in the state given. -/
inductive Res (α : Type)
  | next (a : α)
  | corrupt (s : LoopState)
  | outOfBounds (s : LoopState)
deriving DecidableEq

/-- Sequencing of two pieces. -/
def Res.bind {α β : Type} (r : Res α) (f : α → Res β) : Res β :=
  match r with
  | .next a => f a
  | .corrupt s => .corrupt s
  | .outOfBounds s => .outOfBounds s

/-- One pass of the `for (i = 0; i <= 2; i++)` body: read 8 bytes of control data, decode. -/
def readCtrlOne (s : LoopState) : Res (Int × LoopState) :=
  let r := BZ2_bzRead s.cpf 8
  let s1 := { s with cpf := r.rest }
  if readFailed r 8 then .corrupt s1 else .next (offtin r.bytes, s1)

/-- Lines 254-260: the three control reads. -/
def readCtrl (s : LoopState) : Res (Ctrl × LoopState) :=
  (readCtrlOne s).bind fun p0 =>
  (readCtrlOne p0.2).bind fun p1 =>
  (readCtrlOne p1.2).bind fun p2 =>
  .next (⟨p0.1, p1.1, p2.1⟩, p2.2)

/-- The condition of the first sanity check (lines 263-264). -/
def sanityFails (ctrl : Ctrl) : Bool :=
  decide (ctrl.c0 < 0) || decide (ctrl.c0 > INT_MAX) ||
  decide (ctrl.c1 < 0) || decide (ctrl.c1 > INT_MAX)

/-- Lines 263-265. -/
def sanityCheck (ctrl : Ctrl) (s : LoopState) : Res LoopState :=
  if sanityFails ctrl then .corrupt s else .next s

/-- The check `if (add_off_t(newpos, len) > newsize) errx(1, "Corrupt patch")`
(lines 268-269 with `len = ctrl[0]`, lines 287-288 with `len = ctrl[1]`). -/
def checkFits (newsize : Int) (len : Int) (s : LoopState) : Res LoopState :=
  match add_off_t s.newpos len with
  | none => .corrupt s
  | some v => if v > newsize then .corrupt s else .next s

/-- Lines 272-275: read `ctrl[0]` bytes of the diff stream into `new + newpos`. -/
def readDiff (ctrl : Ctrl) (s : LoopState) : Res LoopState :=
  let r := BZ2_bzRead s.dpf ctrl.c0
  match storeBytes s.new s.newpos r.bytes with
  | none => .outOfBounds s
  | some new1 =>
    let s1 := { s with new := new1, dpf := r.rest }
    if readFailed r ctrl.c0 then .corrupt s1 else .next s1

/-- Lines 278-280, the loop `for (i = 0; i < ctrl[0]; i++)`, with `k` passes still to run from
index `i` on: `if (add_off_t(oldpos, i) < oldsize) new[newpos + i] += old[oldpos + i];`.
`oldsize` is the length of `old`. -/
def addOldFrom (old : List UChar) : Nat → Int → LoopState → Res LoopState
  | 0, _, s => .next s
  | k + 1, i, s =>
    match add_off_t s.oldpos i with
    | none => .corrupt s
    | some a =>
      if a < (old.length : Int) then
        match getByte old (wrap_off_t (s.oldpos + i)),
              getByte s.new (wrap_off_t (s.newpos + i)) with
        | some o, some n =>
          match storeBytes s.new (wrap_off_t (s.newpos + i)) [addByte n o] with
          | some new1 => addOldFrom old k (wrap_off_t (i + 1)) { s with new := new1 }
          | none => .outOfBounds s
        | _, _ => .outOfBounds s
      else addOldFrom old k (wrap_off_t (i + 1)) s

/-- Lines 278-280: the loop runs `ctrl[0]` times from `i = 0`. -/
def addOld (old : List UChar) (ctrl : Ctrl) (s : LoopState) : Res LoopState :=
  addOldFrom old ctrl.c0.toNat 0 s

/-- Lines 283-284: `newpos = add_off_t(newpos, ctrl[0]); oldpos = add_off_t(oldpos, ctrl[0]);`. -/
def advanceAdd (ctrl : Ctrl) (s : LoopState) : Res LoopState :=
  match add_off_t s.newpos ctrl.c0 with
  | none => .corrupt s
  | some np =>
    let s1 := { s with newpos := np }
    match add_off_t s1.oldpos ctrl.c0 with
    | none => .corrupt s1
    | some op => .next { s1 with oldpos := op }

/-- Lines 291-294: read `ctrl[1]` bytes of the extra stream into `new + newpos`. -/
def readExtra (ctrl : Ctrl) (s : LoopState) : Res LoopState :=
  let r := BZ2_bzRead s.epf ctrl.c1
  match storeBytes s.new s.newpos r.bytes with
  | none => .outOfBounds s
  | some new1 =>
    let s1 := { s with new := new1, epf := r.rest }
    if readFailed r ctrl.c1 then .corrupt s1 else .next s1

/-- Lines 297-298: `newpos = add_off_t(newpos, ctrl[1]); oldpos = add_off_t(oldpos, ctrl[2]);`. -/
def advanceCopy (ctrl : Ctrl) (s : LoopState) : Res LoopState :=
  match add_off_t s.newpos ctrl.c1 with
  | none => .corrupt s
  | some np =>
    let s1 := { s with newpos := np }
    match add_off_t s1.oldpos ctrl.c2 with
    | none => .corrupt s1
    | some op => .next { s1 with oldpos := op }

/-- Lines 271-284: the add region of one triple. -/
def addStage (old : List UChar) (ctrl : Ctrl) (s : LoopState) : Res LoopState :=
  ((readDiff ctrl s).bind (addOld old ctrl)).bind (advanceAdd ctrl)

/-- Lines 286-298: the copy region of one triple. -/
def copyStage (newsize : Int) (ctrl : Ctrl) (s : LoopState) : Res LoopState :=
  ((checkFits newsize ctrl.c1 s).bind (readExtra ctrl)).bind (advanceCopy ctrl)

/-- Lines 262-298: what the loop body does once the triple has been read. -/
def applyCtrl (old : List UChar) (newsize : Int) (ctrl : Ctrl) (s : LoopState) : Res LoopState :=
  (((sanityCheck ctrl s).bind (checkFits newsize ctrl.c0)).bind (addStage old ctrl)).bind
    (copyStage newsize ctrl)

/-- The body of `while (newpos < newsize)`, lines 253-298. -/
def iteration (old : List UChar) (newsize : Int) (s : LoopState) : Res LoopState :=
  (readCtrl s).bind fun p => applyCtrl old newsize p.1 p.2

/-- How the loop ends. -/
inductive LoopEnd
  | done (s : LoopState)
  | corrupt (s : LoopState)
  | outOfBounds (s : LoopState)
  | outOfFuel
deriving DecidableEq

/-- The loop `while (newpos < newsize) { ... }` run for at most `fuel` passes. -/
def loopFuel (old : List UChar) (newsize : Int) : Nat → LoopState → LoopEnd
  | 0, _ => .outOfFuel
  | fuel + 1, s =>
    if s.newpos < newsize then
      match iteration old newsize s with
      | .next s1 => loopFuel old newsize fuel s1
      | .corrupt s1 => .corrupt s1
      | .outOfBounds s1 => .outOfBounds s1
    else .done s

/-- The loop of lines 252-299.  Every pass that goes on has taken 24 bytes from the control
reader, so the number of passes is bounded by the control bytes left (`loop_fuel_enough`). -/
def loop (old : List UChar) (newsize : Int) (s : LoopState) : LoopEnd :=
  loopFuel old newsize (s.cpf.data.length / 24 + 1) s

/-- Lines 250-251 and the mapping of line 245: positions 0, the destination mapped at its final
size (a file extended by `lseek` and a one-byte `write` reads as zeros), readers at their
starts. -/
def initState (newsize : Int) (cpf dpf epf : BzStream) : LoopState :=
  { oldpos := 0, newpos := 0, new := List.replicate newsize.toNat 0,
    cpf := cpf, dpf := dpf, epf := epf }

/-! ## The header -/

/-- The tag `"BSDIFF40"` compared by `memcmp`. -/
def MAGIC : List UChar := [66, 83, 68, 73, 70, 70, 52, 48]

/-- The condition of lines 205-207, evaluated left to right with the short-circuit of `||`:
`bzctrllen < 0 || bzctrllen > OFF_MAX - HEADER_SIZE || bzdatalen < 0 ||
 bzctrllen + HEADER_SIZE > OFF_MAX - bzdatalen || newsize < 0 || newsize > SSIZE_MAX`.
`some true`: the patch is rejected; `none`: a subexpression overflowed.  `SSIZE_MAX` comes from
`limits.h` and is a parameter. -/
def headerRejected (SSIZE_MAX bzctrllen bzdatalen newsize : Int) : Option Bool :=
  if bzctrllen < 0 then some true else
  match exact_off_t (OFF_MAX - HEADER_SIZE) with
  | none => none
  | some m =>
    if bzctrllen > m then some true else
    if bzdatalen < 0 then some true else
    match exact_off_t (bzctrllen + HEADER_SIZE), exact_off_t (OFF_MAX - bzdatalen) with
    | some l, some r =>
      if l > r then some true else
      if newsize < 0 then some true else
      some (decide (newsize > SSIZE_MAX))
    | _, _ => none

/-- The three lengths of an accepted header. -/
structure Header where
  bzctrllen : Int
  bzdatalen : Int
  newsize : Int
deriving DecidableEq

/-- Lines 190-208 on the contents of the patch file: read 32 bytes, compare the magic, decode
and check the lengths.  `none` is `errx(1, "Corrupt patch")`; an overflow inside the condition
counts as a rejection here and is shown not to occur. -/
def readHeader (SSIZE_MAX : Int) (patch : List UChar) : Option Header :=
  let header := patch.take 32
  if header.length < 32 then none
  else if header.take 8 ≠ MAGIC then none
  else
    let bzctrllen := offtin (header.drop 8)
    let bzdatalen := offtin (header.drop 16)
    let newsize := offtin (header.drop 24)
    match headerRejected SSIZE_MAX bzctrllen bzdatalen newsize with
    | some false => some ⟨bzctrllen, bzdatalen, newsize⟩
    | _ => none

/-- Lines 213-223: the offsets at which the three readers are opened: `offset = HEADER_SIZE`,
`offset = add_off_t(offset, bzctrllen)`, `offset = add_off_t(offset, bzdatalen)`. -/
def streamOffsets (h : Header) : Option (Int × Int × Int) :=
  let offset0 := HEADER_SIZE
  match add_off_t offset0 h.bzctrllen with
  | none => none
  | some offset1 =>
    match add_off_t offset1 h.bzdatalen with
    | none => none
    | some offset2 => some (offset0, offset1, offset2)

/-! ## The process -/

/-- How the process ends.  `outOfFuel` is the loop of the model running out of fuel, which
does not happen (`loop_fuel_enough`). -/
inductive Exit
  | success
  | usage
  | corruptPatch
  | ioError
  | outOfBounds
  | outOfFuel
deriving DecidableEq

/-- The exit status: `return (0)`, or `exit(1)` from `usage`, `err` and `errx`.  An access
outside a buffer has no defined status. -/
def Exit.code : Exit → Option Nat
  | .success => some 0
  | .usage => some 1
  | .corruptPatch => some 1
  | .ioError => some 1
  | .outOfBounds => none
  | .outOfFuel => none

/-- The process-wide state that decides what is left on disk: the statics `newfile` (whether it
is non-NULL) and `dirfd` (whether it differs from -1), whether `exit_cleanup` is registered with
`atexit`, and the destination file (`none`: absent). -/
structure Proc where
  newfileSet : Bool
  dirfdSet : Bool
  registered : Bool
  dest : Option (List UChar)
deriving DecidableEq

/-- The handler `exit_cleanup`:
`if (dirfd != -1 && newfile != NULL) unlinkat(dirfd, newfile, 0)`. -/
def exit_cleanup (p : Proc) : Proc :=
  if p.dirfdSet && p.newfileSet then { p with dest := none } else p

/-- A finished run: how it ended and the destination left on disk. -/
structure Run where
  exit : Exit
  artifact : Option (List UChar)
deriving DecidableEq

/-- Process exit through `exit` or the return from `main`: the handlers registered with `atexit`
run. -/
def exitWith (p : Proc) (e : Exit) : Run :=
  ⟨e, if p.registered then (exit_cleanup p).dest else p.dest⟩

/-- Whether `mmap` of `len` bytes fails on account of its argument: POSIX makes `mmap` fail
with `EINVAL` when `len` is 0. -/
def mmapFails (len : Int) : Bool := decide (len = 0)

/-- Lines 214-314, with the three readers opened at the offsets `o0`, `o1`, `o2` of the patch
file.  `codec` stands for libbzip2 opened on the container at an offset: it maps the bytes of
the patch file from that offset on to the reader.  The destination is mapped `MAP_SHARED`, so
the file holds what the buffer `new` holds.  After an access outside a buffer the behaviour of
the process is undefined: the run of the model ends there, with the destination as it stands
at that moment and no claim that `exit_cleanup` runs. -/
def runAt (codec : List UChar → BzStream) (p : Proc) (oldfile patch : List UChar)
    (h : Header) (o0 o1 o2 : Int) : Run :=
  let cpf := codec (patch.drop o0.toNat)
  let dpf := codec (patch.drop o1.toNat)
  let epf := codec (patch.drop o2.toNat)
  let oldsize : Int := oldfile.length
  if mmapFails oldsize then exitWith p .ioError
  else
    let p1 : Proc :=
      if h.newsize > 0 then { p with dest := some (List.replicate h.newsize.toNat 0) } else p
    if mmapFails h.newsize then exitWith p1 .ioError
    else
      match loop oldfile h.newsize (initState h.newsize cpf dpf epf) with
      | .done s => exitWith { p1 with dest := some s.new, newfileSet := false } .success
      | .corrupt s => exitWith { p1 with dest := some s.new } .corruptPatch
      | .outOfBounds s => ⟨.outOfBounds, some s.new⟩
      | .outOfFuel => ⟨.outOfFuel, p1.dest⟩

/-- Lines 210-314, for an accepted header. -/
def runPatch (codec : List UChar → BzStream) (p : Proc) (oldfile patch : List UChar)
    (h : Header) : Run :=
  match streamOffsets h with
  | none => exitWith p .corruptPatch
  | some (o0, o1, o2) => runAt codec p oldfile patch h o0 o1 o2

/-- The program `main`, on the runs where the calls to the operating system on the three files
named on the command line succeed (these files exist and can be opened, read and closed).
`argc` is the argument count, `dest0` what the destination path holds beforehand, `oldfile` and
`patch` the contents of the base file and of the patch file. -/
def main (SSIZE_MAX : Int) (codec : List UChar → BzStream) (argc : Nat)
    (dest0 : Option (List UChar)) (oldfile patch : List UChar) : Run :=
  let p0 : Proc := ⟨false, false, false, dest0⟩
  if argc ≠ 4 then exitWith p0 .usage
  else
    -- lines 162-174: dirfd and newfile are set, the destination is created or truncated,
    -- exit_cleanup is registered
    let p : Proc := ⟨true, true, true, some []⟩
    match readHeader SSIZE_MAX patch with
    | none => exitWith p .corruptPatch
    | some h => runPatch codec p oldfile patch h

/-- A codec that stores the bytes as they are: the reader opened at an offset delivers the bytes
of the container from that offset on.  It serves to write down concrete patch files. -/
def storedCodec (bytes : List UChar) : BzStream := ⟨bytes, false⟩

/-! ## The target that a patch describes -/

/-- One byte of an add region: the diff byte `d` plus the base byte, modulo 256, when there is
a base byte; the raw diff byte when there is none. -/
def combine (d : UChar) (b : Option UChar) : UChar :=
  match b with
  | some b => addByte d b
  | none => d

/-- The add region described by the diff bytes `ds` at the base position `bpos`: each diff byte
plus the base byte at the running base position, modulo 256; where that position falls outside
the base buffer, the raw diff byte (section 4.4, step 4). -/
def addRegion (B : List UChar) : Int → List UChar → List UChar
  | _, [] => []
  | bpos, d :: ds => combine d (getByte B bpos) :: addRegion B (bpos + 1) ds

/-- The target described by a sequence of control triples together with the decompressed diff
and extra bytes, from the base position `bpos` on: the concatenation, over the triples in
order, of the add region followed by `copy_len` extra bytes.  `none` when a length is negative
or a stream holds too few bytes. -/
def specTarget (B : List UChar) : Int → List Ctrl → List UChar → List UChar →
    Option (List UChar)
  | _, [], _, _ => some []
  | bpos, t :: ts, diff, extra =>
    if 0 ≤ t.c0 ∧ 0 ≤ t.c1 ∧ t.c0 ≤ diff.length ∧ t.c1 ≤ extra.length then
      (specTarget B (bpos + t.c0 + t.c2) ts (diff.drop t.c0.toNat) (extra.drop t.c1.toNat)).map
        fun rest => addRegion B bpos (diff.take t.c0.toNat) ++ extra.take t.c1.toNat ++ rest
    else none

/-- The decompressed control stream `c` starts with the encodings of the triples `ts`: groups of
24 bytes, each three 8-byte sign-magnitude integers (section 6). -/
def Encodes : List UChar → List Ctrl → Prop
  | _, [] => True
  | c, t :: ts =>
    24 ≤ c.length ∧ offtin (c.take 8) = t.c0 ∧ offtin ((c.drop 8).take 8) = t.c1 ∧
      offtin ((c.drop 16).take 8) = t.c2 ∧ Encodes (c.drop 24) ts

instance (c : List UChar) (ts : List Ctrl) : Decidable (Encodes c ts) := by
  induction ts generalizing c with
  | nil => exact isTrue trivial
  | cons t ts ih => unfold Encodes; infer_instance

/-- The triples of `ts` that are applied while bytes of the target remain to be produced (`rem`
of them at the start, the base position being `bpos`) stay within what the loop takes: both
lengths lie in `[0, INT_MAX]`, a non-empty add region starts at a base position that is not
negative, and the base position stays an `off_t` through both of its advances.  Nothing is
asked of the triples left over once the target is complete. -/
def Admissible : Int → Int → List Ctrl → Prop
  | _, _, [] => True
  | bpos, rem, t :: ts =>
    rem ≤ 0 ∨
      (0 ≤ t.c0 ∧ t.c0 ≤ INT_MAX ∧ 0 ≤ t.c1 ∧ t.c1 ≤ INT_MAX ∧ (0 < t.c0 → 0 ≤ bpos) ∧
        bpos + t.c0 ≤ OFF_MAX ∧ OFF_MIN ≤ bpos + t.c0 + t.c2 ∧ bpos + t.c0 + t.c2 ≤ OFF_MAX ∧
        Admissible (bpos + t.c0 + t.c2) (rem - t.c0 - t.c1) ts)

instance (bpos rem : Int) (ts : List Ctrl) : Decidable (Admissible bpos rem ts) := by
  induction ts generalizing bpos rem with
  | nil => exact isTrue trivial
  | cons t ts ih => unfold Admissible; infer_instance

/-- The magnitude that eight bytes encode: little-endian, the high bit of the last byte left
out. -/
def magnitude (b0 b1 b2 b3 b4 b5 b6 b7 : UChar) : Int :=
  b0.val + b1.val * 256 + b2.val * 256 ^ 2 + b3.val * 256 ^ 3 + b4.val * 256 ^ 4 +
    b5.val * 256 ^ 5 + b6.val * 256 ^ 6 + (b7.val % 128 : Nat) * 256 ^ 7

/-! ## The passes of the loop -/

/-- The state at the head of the loop after `n` further passes from `s`, each of them entered
with `newpos < newsize` and gone through to its end; `none` when the loop has no such state
(it had ended before, or one of the passes failed). -/
def afterPasses (old : List UChar) (newsize : Int) : Nat → LoopState → Option LoopState
  | 0, s => some s
  | n + 1, s =>
    if s.newpos < newsize then
      match iteration old newsize s with
      | .next s1 => afterPasses old newsize n s1
      | .corrupt _ => none
      | .outOfBounds _ => none
    else none

/-- The state in which a piece of the loop ends, whichever way it ends. -/
def Res.final : Res LoopState → LoopState
  | .next s => s
  | .corrupt s => s
  | .outOfBounds s => s

/-- The facts about a state at the head of the loop that every pass keeps. -/
def WellFormed (newsize : Int) (s : LoopState) : Prop :=
  0 ≤ s.newpos ∧ s.newpos ≤ newsize ∧ IsOff s.oldpos ∧ (s.new.length : Int) = newsize

/-- The buffers `a` and `b` have the same length and hold the same bytes at every index
outside `[lo, hi)`. -/
def SameOutside (lo hi : Int) (a b : List UChar) : Prop :=
  a.length = b.length ∧ ∀ j : Nat, ((j : Int) < lo ∨ hi ≤ (j : Int)) → a.get? j = b.get? j

/-! ## Limits as numerals -/

theorem OFF_MAX_eq : OFF_MAX = 9223372036854775807 := by
  simp [OFF_MAX, TYPE_MAXIMUM, OFF_BITS]

theorem OFF_MIN_eq : OFF_MIN = -9223372036854775808 := by
  simp [OFF_MIN, TYPE_MINIMUM, TYPE_MAXIMUM, OFF_BITS]

theorem wrap_off_t_of_isOff {x : Int} (h : IsOff x) : wrap_off_t x = x := by
  unfold IsOff at h
  rw [OFF_MAX_eq, OFF_MIN_eq] at h
  unfold wrap_off_t
  norm_num
  omega

theorem wrap_off_t_eq_iff (x : Int) : wrap_off_t x = x ↔ IsOff x := by
  unfold IsOff
  rw [OFF_MAX_eq, OFF_MIN_eq]
  unfold wrap_off_t
  norm_num
  omega

theorem wrap_off_t_isOff (x : Int) : IsOff (wrap_off_t x) := by
  unfold IsOff
  rw [OFF_MAX_eq, OFF_MIN_eq]
  unfold wrap_off_t
  norm_num
  omega

theorem wrap_id {x : Int} (h1 : -9223372036854775808 ≤ x) (h2 : x ≤ 9223372036854775807) :
    wrap_off_t x = x := by
  apply wrap_off_t_of_isOff
  unfold IsOff
  rw [OFF_MAX_eq, OFF_MIN_eq]
  exact ⟨h1, h2⟩

theorem exact_id {x : Int} (h1 : -9223372036854775808 ≤ x) (h2 : x ≤ 9223372036854775807) :
    exact_off_t x = some x := by
  simp [exact_off_t, IsOff, OFF_MAX_eq, OFF_MIN_eq, h1, h2]

/-! ## `add_off_t` is exact -/

theorem add_off_t_spec (a b : Int) (ha : IsOff a) (hb : IsOff b) :
    add_off_t a b = if IsOff (a + b) then some (a + b) else none := by
  simp only [IsOff, OFF_MAX_eq, OFF_MIN_eq, add_off_t, wrap_off_t] at *
  norm_num
  split_ifs <;> first | rfl | omega | (simp; omega)

theorem add_off_t_builtin_spec (a b : Int) :
    add_off_t_builtin a b = if IsOff (a + b) then some (a + b) else none := by
  unfold add_off_t_builtin builtin_add_overflow
  by_cases h : IsOff (a + b)
  · simp [h, wrap_off_t_of_isOff h]
  · have : wrap_off_t (a + b) ≠ a + b := fun e => h ((wrap_off_t_eq_iff _).1 e)
    simp [h, this]

/-! ## `offtin` is sign-magnitude -/

theorem low7_eq (b : UChar) : b.val &&& 0x7F = b.val % 128 := by
  have := Nat.and_pow_two_sub_one_eq_mod b.val 7
  simpa using this

theorem high_bit_iff (b : UChar) : (b.val &&& 0x80) ≠ 0 ↔ 128 ≤ b.val := by
  revert b; decide

theorem offtin_eq (b0 b1 b2 b3 b4 b5 b6 b7 : UChar) :
    offtin [b0, b1, b2, b3, b4, b5, b6, b7] =
      (if 128 ≤ b7.val then -1 else 1) * magnitude b0 b1 b2 b3 b4 b5 b6 b7 := by
  have h0 := b0.isLt; have h1 := b1.isLt; have h2 := b2.isLt; have h3 := b3.isLt
  have h4 := b4.isLt; have h5 := b5.isLt; have h6 := b6.isLt
  have h7 : b7.val % 128 < 128 := Nat.mod_lt _ (by decide)
  simp only [offtin, magnitude, List.getD_cons_zero, List.getD_cons_succ, low7_eq, high_bit_iff]
  generalize b7.val % 128 = m at h7
  generalize b0.val = a0 at h0
  generalize b1.val = a1 at h1
  generalize b2.val = a2 at h2
  generalize b3.val = a3 at h3
  generalize b4.val = a4 at h4
  generalize b5.val = a5 at h5
  generalize b6.val = a6 at h6
  rw [wrap_id (x := (m : Int) * 256) (by omega) (by omega)]
  rw [wrap_id (x := (m : Int) * 256 + a6) (by omega) (by omega)]
  rw [wrap_id (x := ((m : Int) * 256 + a6) * 256) (by omega) (by omega)]
  rw [wrap_id (x := ((m : Int) * 256 + a6) * 256 + a5) (by omega) (by omega)]
  rw [wrap_id (x := (((m : Int) * 256 + a6) * 256 + a5) * 256) (by omega) (by omega)]
  rw [wrap_id (x := (((m : Int) * 256 + a6) * 256 + a5) * 256 + a4) (by omega) (by omega)]
  rw [wrap_id (x := ((((m : Int) * 256 + a6) * 256 + a5) * 256 + a4) * 256)
    (by omega) (by omega)]
  rw [wrap_id (x := ((((m : Int) * 256 + a6) * 256 + a5) * 256 + a4) * 256 + a3)
    (by omega) (by omega)]
  rw [wrap_id (x := (((((m : Int) * 256 + a6) * 256 + a5) * 256 + a4) * 256 + a3) * 256)
    (by omega) (by omega)]
  rw [wrap_id (x := (((((m : Int) * 256 + a6) * 256 + a5) * 256 + a4) * 256 + a3) * 256 + a2)
    (by omega) (by omega)]
  rw [wrap_id
    (x := ((((((m : Int) * 256 + a6) * 256 + a5) * 256 + a4) * 256 + a3) * 256 + a2) * 256)
    (by omega) (by omega)]
  rw [wrap_id
    (x := ((((((m : Int) * 256 + a6) * 256 + a5) * 256 + a4) * 256 + a3) * 256 + a2) * 256 + a1)
    (by omega) (by omega)]
  rw [wrap_id
    (x := (((((((m : Int) * 256 + a6) * 256 + a5) * 256 + a4) * 256 + a3) * 256 + a2) * 256
      + a1) * 256)
    (by omega) (by omega)]
  rw [wrap_id
    (x := (((((((m : Int) * 256 + a6) * 256 + a5) * 256 + a4) * 256 + a3) * 256 + a2) * 256
      + a1) * 256 + a0)
    (by omega) (by omega)]
  split_ifs
  · rw [wrap_id (by omega) (by omega)]; norm_num; omega
  · norm_num; omega

theorem checked_step (y : Int) (a : Nat) (hy0 : 0 ≤ y) (hy : y ≤ 36028797018963967)
    (ha : a < 256) :
    ((exact_off_t (y * 256)).bind fun y1 => exact_off_t (y1 + a)) = some (y * 256 + a) := by
  rw [exact_id (by omega) (by omega), Option.some_bind, exact_id (by omega) (by omega)]

theorem offtin_checked_eq (b0 b1 b2 b3 b4 b5 b6 b7 : UChar) :
    offtin_checked [b0, b1, b2, b3, b4, b5, b6, b7] =
      some ((if 128 ≤ b7.val then -1 else 1) * magnitude b0 b1 b2 b3 b4 b5 b6 b7) := by
  have h0 := b0.isLt; have h1 := b1.isLt; have h2 := b2.isLt; have h3 := b3.isLt
  have h4 := b4.isLt; have h5 := b5.isLt; have h6 := b6.isLt
  have h7 : b7.val % 128 < 128 := Nat.mod_lt _ (by decide)
  simp only [offtin_checked, magnitude, List.getD_cons_zero, List.getD_cons_succ, low7_eq,
    high_bit_iff]
  generalize b7.val % 128 = m at h7
  generalize b0.val = a0 at h0
  generalize b1.val = a1 at h1
  generalize b2.val = a2 at h2
  generalize b3.val = a3 at h3
  generalize b4.val = a4 at h4
  generalize b5.val = a5 at h5
  generalize b6.val = a6 at h6
  rw [checked_step _ _ (by omega) (by omega) h6, Option.some_bind]
  rw [checked_step _ _ (by omega) (by omega) h5, Option.some_bind]
  rw [checked_step _ _ (by omega) (by omega) h4, Option.some_bind]
  rw [checked_step _ _ (by omega) (by omega) h3, Option.some_bind]
  rw [checked_step _ _ (by omega) (by omega) h2, Option.some_bind]
  rw [checked_step _ _ (by omega) (by omega) h1, Option.some_bind]
  rw [checked_step _ _ (by omega) (by omega) h0, Option.some_bind]
  split_ifs
  · rw [exact_id (by omega) (by omega)]; congr 1; norm_num; omega
  · congr 1; norm_num; omega

theorem magnitude_bounds (b0 b1 b2 b3 b4 b5 b6 b7 : UChar) :
    0 ≤ magnitude b0 b1 b2 b3 b4 b5 b6 b7 ∧
      magnitude b0 b1 b2 b3 b4 b5 b6 b7 ≤ 2 ^ 63 - 1 := by
  have h0 := b0.isLt; have h1 := b1.isLt; have h2 := b2.isLt; have h3 := b3.isLt
  have h4 := b4.isLt; have h5 := b5.isLt; have h6 := b6.isLt
  have h7 : b7.val % 128 < 128 := Nat.mod_lt _ (by decide)
  unfold magnitude
  norm_num
  omega

theorem offtin_getD (buf : List UChar) :
    offtin buf = offtin [buf.getD 0 0, buf.getD 1 0, buf.getD 2 0, buf.getD 3 0, buf.getD 4 0,
      buf.getD 5 0, buf.getD 6 0, buf.getD 7 0] := rfl

theorem offtin_range (buf : List UChar) :
    -(2 ^ 63 - 1) ≤ offtin buf ∧ offtin buf ≤ 2 ^ 63 - 1 := by
  rw [offtin_getD, offtin_eq]
  have h := magnitude_bounds (buf.getD 0 0) (buf.getD 1 0) (buf.getD 2 0) (buf.getD 3 0)
    (buf.getD 4 0) (buf.getD 5 0) (buf.getD 6 0) (buf.getD 7 0)
  split_ifs <;> constructor <;> linarith [h.1, h.2]

theorem offtin_isOff (buf : List UChar) : IsOff (offtin buf) := by
  have h := offtin_range buf
  unfold IsOff
  rw [OFF_MAX_eq, OFF_MIN_eq]
  norm_num at h
  omega

theorem headerRejected_eq (S c d t : Int) (hc : IsOff c) (hd : IsOff d) :
    headerRejected S c d t =
      some (decide (c < 0 ∨ d < 0 ∨ t < 0 ∨ c + 32 > OFF_MAX ∨ c + d + 32 > OFF_MAX ∨ t > S)) := by
  simp only [IsOff, OFF_MAX_eq, OFF_MIN_eq, headerRejected, exact_off_t, HEADER_SIZE] at *
  norm_num
  split_ifs
  · simp_all
  · have : 9223372036854775807 < c + 32 := by omega
    simp_all
  · simp_all
  · simp_all
  · simp only [decide_eq_true_eq]
    split_ifs with h
    · have : 9223372036854775807 < c + d + 32 := by omega
      simp_all
    · have e1 : ¬ c < 0 := by omega
      have e2 : ¬ d < 0 := by omega
      have e3 : ¬ t < 0 := by omega
      have e4 : ¬ 9223372036854775807 < c + 32 := by omega
      have e5 : ¬ 9223372036854775807 < c + d + 32 := by omega
      simp [e1, e2, e3, e4, e5]
  · omega
  · omega

theorem readHeader_append (S : Int) (header rest : List UChar) (hlen : header.length = 32)
    (hmagic : header.take 8 = MAGIC) :
    readHeader S (header ++ rest) =
      if offtin (header.drop 8) < 0 ∨ offtin (header.drop 16) < 0 ∨ offtin (header.drop 24) < 0 ∨
          offtin (header.drop 8) + 32 > OFF_MAX ∨
          offtin (header.drop 8) + offtin (header.drop 16) + 32 > OFF_MAX ∨
          offtin (header.drop 24) > S then none
      else some ⟨offtin (header.drop 8), offtin (header.drop 16), offtin (header.drop 24)⟩ := by
  have ht : (header ++ rest).take 32 = header := by
    rw [← hlen]; exact List.take_left' rfl
  unfold readHeader
  simp only [ht, hlen, hmagic, lt_irrefl, if_false, ne_eq, not_true_eq_false]
  rw [headerRejected_eq _ _ _ _ (offtin_isOff _) (offtin_isOff _)]
  split_ifs with h
  · simp [h]
  · simp [h]

theorem readHeader_some {S : Int} {patch : List UChar} {h : Header}
    (hacc : readHeader S patch = some h) :
    0 ≤ h.bzctrllen ∧ 0 ≤ h.bzdatalen ∧ 0 ≤ h.newsize ∧ h.bzctrllen + 32 ≤ OFF_MAX ∧
      h.bzctrllen + h.bzdatalen + 32 ≤ OFF_MAX ∧ h.newsize ≤ S ∧ h.newsize ≤ OFF_MAX := by
  unfold readHeader at hacc
  simp only at hacc
  split_ifs at hacc with h1 h2
  rw [headerRejected_eq _ _ _ _ (offtin_isOff _) (offtin_isOff _)] at hacc
  split at hacc
  · rename_i heq
    have hh := Option.some.inj hacc
    have hb := of_decide_eq_false (Option.some.inj heq)
    have ho := (offtin_isOff (List.drop 24 (List.take 32 patch))).2
    subst hh
    simp only
    omega
  · cases hacc

/-! ## Readers and buffers -/

theorem bzRead_full (b : BzStream) (n : Nat) (h : n ≤ b.data.length) :
    BZ2_bzRead b n = ⟨n, b.data.take n, .BZ_OK, ⟨b.data.drop n, b.damaged⟩⟩ := by
  unfold BZ2_bzRead
  have h0 : ¬ ((n : Int) < 0) := by omega
  simp only [h0, if_false]
  by_cases hn : n = 0
  · subst hn; simp
  · have : ¬ ((n : Int) = 0) := by omega
    simp only [this, if_false, Int.toNat_ofNat, List.length_take]
    have : ¬ (((min n b.data.length : Nat) : Int) < (n : Int)) := by omega
    simp only [this, if_false]

theorem readFailed_iff (b : BzStream) (len : Int) :
    readFailed (BZ2_bzRead b len) len = true ↔ len < 0 ∨ (b.data.length : Int) < len := by
  unfold readFailed BZ2_bzRead
  by_cases h0 : len < 0
  · simp [h0]
  · by_cases h1 : len = 0
    · subst h1; simp
    · simp only [h0, h1, if_false, List.length_take]
      have hmin : ((min len.toNat b.data.length : Nat) : Int) < len ↔ (b.data.length : Int) < len := by
        omega
      by_cases h2 : (b.data.length : Int) < len
      · simp [hmin, h2]
      · simp [hmin, h2]

theorem storeBytes_mid (P X Q bytes : List UChar) (pos : Int) (hP : (P.length : Int) = pos)
    (hX : X.length = bytes.length) :
    storeBytes (P ++ X ++ Q) pos bytes = some (P ++ bytes ++ Q) := by
  unfold storeBytes
  have hpos : pos.toNat = P.length := by omega
  have hc : 0 ≤ pos ∧ pos + (bytes.length : Int) ≤ ((P ++ X ++ Q).length : Int) := by
    simp only [List.length_append]; push_cast; omega
  rw [if_pos hc, hpos]
  congr 2
  · simp [List.append_assoc]
  · rw [← hX, List.append_assoc]
    have : P.length + X.length = (P ++ X).length := by simp
    rw [← List.append_assoc, this, List.drop_left]

theorem getByte_mid (P Q : List UChar) (x : UChar) (pos : Int) (hP : (P.length : Int) = pos) :
    getByte (P ++ x :: Q) pos = some x := by
  unfold getByte
  have hpos : pos.toNat = P.length := by omega
  have : 0 ≤ pos := by omega
  rw [if_pos this, hpos, List.get?_eq_getElem?, List.getElem?_append_right (le_refl _)]
  simp

theorem readCtrlOne_ok (s : LoopState) (h : 8 ≤ s.cpf.data.length) :
    readCtrlOne s = .next (offtin (s.cpf.data.take 8),
      { s with cpf := ⟨s.cpf.data.drop 8, s.cpf.damaged⟩ }) := by
  unfold readCtrlOne
  have hf : readFailed (BZ2_bzRead s.cpf 8) 8 = false := by
    rw [Bool.eq_false_iff, ne_eq, readFailed_iff]; omega
  simp only [hf]
  have := bzRead_full s.cpf 8 h
  simp only [Nat.cast_ofNat] at this
  rw [this]
  simp

theorem readCtrl_ok (s : LoopState) (h : 24 ≤ s.cpf.data.length) :
    readCtrl s = .next (⟨offtin (s.cpf.data.take 8), offtin ((s.cpf.data.drop 8).take 8),
        offtin ((s.cpf.data.drop 16).take 8)⟩,
      { s with cpf := ⟨s.cpf.data.drop 24, s.cpf.damaged⟩ }) := by
  unfold readCtrl
  rw [readCtrlOne_ok s (by omega)]
  simp only [Res.bind]
  rw [readCtrlOne_ok _ (by simp; omega)]
  simp only [Res.bind]
  rw [readCtrlOne_ok _ (by simp; omega)]
  simp [Res.bind, List.drop_drop]

theorem readCtrlOne_short (s : LoopState) (h : s.cpf.data.length < 8) :
    readCtrlOne s = .corrupt { s with cpf := (BZ2_bzRead s.cpf 8).rest } := by
  have hf : readFailed (BZ2_bzRead s.cpf 8) 8 = true := by
    rw [readFailed_iff]; omega
  simp [readCtrlOne, hf]

theorem readCtrl_short (s : LoopState) (h : s.cpf.data.length < 24) :
    ∃ st, readCtrl s = .corrupt st := by
  unfold readCtrl
  by_cases h0 : 8 ≤ s.cpf.data.length
  · rw [readCtrlOne_ok s h0]
    simp only [Res.bind]
    by_cases h1 : 16 ≤ s.cpf.data.length
    · rw [readCtrlOne_ok _ (by simp; omega)]
      simp only [Res.bind]
      rw [readCtrlOne_short _ (by simp; omega)]
      exact ⟨_, rfl⟩
    · rw [readCtrlOne_short _ (by simp; omega)]
      exact ⟨_, rfl⟩
  · rw [readCtrlOne_short _ (by omega)]
    exact ⟨_, rfl⟩

/-! ## The pieces of one pass -/

theorem isOff_iff (x : Int) : IsOff x ↔ -9223372036854775808 ≤ x ∧ x ≤ 9223372036854775807 := by
  unfold IsOff; rw [OFF_MAX_eq, OFF_MIN_eq]

theorem add_off_t_ok {a b : Int} (ha : IsOff a) (hb : IsOff b) (h : IsOff (a + b)) :
    add_off_t a b = some (a + b) := by
  rw [add_off_t_spec a b ha hb, if_pos h]

theorem add_off_t_none {a b : Int} (ha : IsOff a) (hb : IsOff b) (h : ¬ IsOff (a + b)) :
    add_off_t a b = none := by
  rw [add_off_t_spec a b ha hb, if_neg h]

theorem checkFits_ok (newsize len : Int) (s : LoopState) (h0 : 0 ≤ s.newpos) (h1 : 0 ≤ len)
    (h2 : s.newpos + len ≤ newsize) (h3 : newsize ≤ OFF_MAX) :
    checkFits newsize len s = .next s := by
  unfold checkFits
  rw [OFF_MAX_eq] at h3
  rw [add_off_t_ok ((isOff_iff _).2 (by omega)) ((isOff_iff _).2 (by omega))
    ((isOff_iff _).2 (by omega))]
  simp only
  rw [if_neg (by omega)]

theorem checkFits_fail (newsize len : Int) (s : LoopState) (h0 : IsOff s.newpos) (h1 : IsOff len)
    (h2 : newsize < s.newpos + len) :
    checkFits newsize len s = .corrupt s := by
  unfold checkFits
  rw [add_off_t_spec _ _ h0 h1]
  split_ifs with h
  · simp only
    rw [if_pos (by omega)]
  · rfl

theorem readDiff_ok (ctrl : Ctrl) (s : LoopState) (P X Q : List UChar) (n : Nat)
    (hc : ctrl.c0 = n) (hnew : s.new = P ++ X ++ Q) (hP : (P.length : Int) = s.newpos)
    (hX : X.length = n) (hd : n ≤ s.dpf.data.length) :
    readDiff ctrl s = .next { s with new := P ++ s.dpf.data.take n ++ Q,
                                     dpf := ⟨s.dpf.data.drop n, s.dpf.damaged⟩ } := by
  unfold readDiff
  have hf : readFailed (BZ2_bzRead s.dpf n) n = false := by
    rw [Bool.eq_false_iff, ne_eq, readFailed_iff]; omega
  rw [hc]
  simp only [hf]
  rw [bzRead_full s.dpf n hd]
  simp only
  rw [hnew, storeBytes_mid P X Q _ _ hP (by simp; omega)]
  simp

theorem readExtra_ok (ctrl : Ctrl) (s : LoopState) (P X Q : List UChar) (n : Nat)
    (hc : ctrl.c1 = n) (hnew : s.new = P ++ X ++ Q) (hP : (P.length : Int) = s.newpos)
    (hX : X.length = n) (hd : n ≤ s.epf.data.length) :
    readExtra ctrl s = .next { s with new := P ++ s.epf.data.take n ++ Q,
                                      epf := ⟨s.epf.data.drop n, s.epf.damaged⟩ } := by
  unfold readExtra
  have hf : readFailed (BZ2_bzRead s.epf n) n = false := by
    rw [Bool.eq_false_iff, ne_eq, readFailed_iff]; omega
  rw [hc]
  simp only [hf]
  rw [bzRead_full s.epf n hd]
  simp only
  rw [hnew, storeBytes_mid P X Q _ _ hP (by simp; omega)]
  simp

theorem getByte_none_of_le (B : List UChar) (i : Int) (h : (B.length : Int) ≤ i) :
    getByte B i = none := by
  unfold getByte
  have : 0 ≤ i := by omega
  rw [if_pos this, List.get?_eq_none]
  omega

theorem getByte_some_of_lt (B : List UChar) (i : Int) (h0 : 0 ≤ i) (h : i < (B.length : Int)) :
    ∃ b, getByte B i = some b := by
  unfold getByte
  rw [if_pos h0]
  have : i.toNat < B.length := by omega
  exact ⟨B.get ⟨i.toNat, this⟩, List.get?_eq_get this⟩

theorem addOldFrom_ok (B : List UChar) (k : Nat) :
    ∀ (i : Nat) (s : LoopState) (P ds Q : List UChar), s.new = P ++ ds ++ Q →
      (P.length : Int) = s.newpos + i → ds.length = k → IsOff s.oldpos →
      (0 < k → 0 ≤ s.oldpos + i) → s.oldpos + i + k ≤ OFF_MAX → s.newpos + i + k ≤ OFF_MAX →
      0 ≤ s.newpos →
      addOldFrom B k i s = .next { s with new := P ++ addRegion B (s.oldpos + i) ds ++ Q } := by
  induction k with
  | zero =>
    intro i s P ds Q hnew _ hds _ _ _ _ _
    have : ds = [] := List.length_eq_zero.1 hds
    subst this
    cases s
    simp_all [addOldFrom, addRegion]
  | succ k ih =>
    intro i s P ds Q hnew hP hds ho hlo hhi hn hn0
    obtain ⟨d, ds', rfl⟩ : ∃ d ds', ds = d :: ds' := by
      cases ds with
      | nil => simp at hds
      | cons d ds' => exact ⟨d, ds', rfl⟩
    have hlo' := hlo (Nat.succ_pos k)
    rw [OFF_MAX_eq] at hhi hn
    have ho' := (isOff_iff _).1 ho
    push_cast at hhi hn
    simp only [List.length_cons, Nat.succ.injEq] at hds
    unfold addOldFrom
    rw [add_off_t_ok ho ((isOff_iff _).2 (by omega)) ((isOff_iff _).2 (by omega))]
    simp only
    rw [wrap_id (x := s.oldpos + i) (by omega) (by omega),
      wrap_id (x := s.newpos + i) (by omega) (by omega),
      wrap_id (x := (i : Int) + 1) (by omega) (by omega)]
    have hg : getByte s.new (s.newpos + i) = some d := by
      rw [hnew, List.append_assoc, List.cons_append]
      exact getByte_mid P _ d _ hP
    have hi1 : ((i : Int) + 1) = ((i + 1 : Nat) : Int) := by push_cast; rfl
    by_cases hlt : s.oldpos + i < (B.length : Int)
    · obtain ⟨b, hb⟩ := getByte_some_of_lt B _ hlo' hlt
      rw [if_pos hlt, hb, hg]
      simp only
      have hst : storeBytes s.new (s.newpos + i) [addByte d b] =
          some (P ++ [addByte d b] ++ (ds' ++ Q)) := by
        rw [hnew]
        have : P ++ d :: ds' ++ Q = P ++ [d] ++ (ds' ++ Q) := by simp
        rw [this]
        exact storeBytes_mid P [d] (ds' ++ Q) _ _ hP rfl
      rw [hst]
      simp only
      rw [hi1, ih (i + 1) { s with new := P ++ [addByte d b] ++ (ds' ++ Q) }
        (P ++ [addByte d b]) ds' Q (by simp) (by simp; omega) hds ho
        (by intro _; simp only; push_cast; omega)
        (by rw [OFF_MAX_eq]; simp only; push_cast; omega)
        (by rw [OFF_MAX_eq]; simp only; push_cast; omega) hn0]
      simp only [addRegion, hb, combine]
      congr 2
      push_cast
      simp [add_assoc]
    · rw [if_neg hlt]
      have hb : getByte B (s.oldpos + i) = none := getByte_none_of_le B _ (by omega)
      rw [hi1, ih (i + 1) s (P ++ [d]) ds' Q (by rw [hnew]; simp) (by simp; omega) hds ho
        (by intro _; push_cast; omega) (by rw [OFF_MAX_eq]; push_cast; omega)
        (by rw [OFF_MAX_eq]; push_cast; omega) hn0]
      simp only [addRegion, hb, combine]
      congr 2
      push_cast
      simp [add_assoc]

theorem advanceAdd_ok (ctrl : Ctrl) (s : LoopState) (h0 : IsOff s.newpos) (h1 : IsOff s.oldpos)
    (hc : IsOff ctrl.c0) (h2 : IsOff (s.newpos + ctrl.c0)) (h3 : IsOff (s.oldpos + ctrl.c0)) :
    advanceAdd ctrl s =
      .next { s with newpos := s.newpos + ctrl.c0, oldpos := s.oldpos + ctrl.c0 } := by
  unfold advanceAdd
  rw [add_off_t_ok h0 hc h2]
  simp only
  rw [add_off_t_ok h1 hc h3]

theorem advanceCopy_ok (ctrl : Ctrl) (s : LoopState) (h0 : IsOff s.newpos) (h1 : IsOff s.oldpos)
    (hc1 : IsOff ctrl.c1) (hc2 : IsOff ctrl.c2) (h2 : IsOff (s.newpos + ctrl.c1))
    (h3 : IsOff (s.oldpos + ctrl.c2)) :
    advanceCopy ctrl s =
      .next { s with newpos := s.newpos + ctrl.c1, oldpos := s.oldpos + ctrl.c2 } := by
  unfold advanceCopy
  rw [add_off_t_ok h0 hc1 h2]
  simp only
  rw [add_off_t_ok h1 hc2 h3]

theorem sanityFails_iff (ctrl : Ctrl) :
    sanityFails ctrl = true ↔ ctrl.c0 < 0 ∨ ctrl.c0 > INT_MAX ∨ ctrl.c1 < 0 ∨ ctrl.c1 > INT_MAX := by
  simp [sanityFails, or_assoc]

@[simp] theorem Res.bind_next {α β : Type} (a : α) (f : α → Res β) :
    (Res.next a).bind f = f a := rfl

@[simp] theorem Res.bind_corrupt {α β : Type} (s : LoopState) (f : α → Res β) :
    (Res.corrupt s : Res α).bind f = .corrupt s := rfl

@[simp] theorem Res.bind_outOfBounds {α β : Type} (s : LoopState) (f : α → Res β) :
    (Res.outOfBounds s : Res α).bind f = .outOfBounds s := rfl

theorem addRegion_length (B : List UChar) (ds : List UChar) :
    ∀ bpos, (addRegion B bpos ds).length = ds.length := by
  induction ds with
  | nil => intro bpos; rfl
  | cons d ds ih => intro bpos; simp [addRegion, ih]

theorem applyCtrl_ok (B : List UChar) (newsize : Int) (s : LoopState) (t : Ctrl)
    (P X Y Q : List UChar) (n m : Nat)
    (hc0 : t.c0 = n) (hc1 : t.c1 = m) (hn : (n : Int) ≤ INT_MAX) (hm : (m : Int) ≤ INT_MAX)
    (hc2 : IsOff t.c2)
    (hnew : s.new = P ++ X ++ Y ++ Q) (hP : (P.length : Int) = s.newpos) (hX : X.length = n)
    (hY : Y.length = m) (hfit : s.newpos + n + m ≤ newsize) (hsize : newsize ≤ OFF_MAX)
    (hd : n ≤ s.dpf.data.length) (he : m ≤ s.epf.data.length)
    (ho : IsOff s.oldpos) (hneg : 0 < n → 0 ≤ s.oldpos) (hon : s.oldpos + n ≤ OFF_MAX)
    (hseek : IsOff (s.oldpos + n + t.c2)) :
    applyCtrl B newsize t s = .next
      { oldpos := s.oldpos + n + t.c2, newpos := s.newpos + n + m,
        new := P ++ addRegion B s.oldpos (s.dpf.data.take n) ++ s.epf.data.take m ++ Q,
        cpf := s.cpf,
        dpf := ⟨s.dpf.data.drop n, s.dpf.damaged⟩,
        epf := ⟨s.epf.data.drop m, s.epf.damaged⟩ } := by
  have hP0 : 0 ≤ s.newpos := by omega
  have hsz := hsize
  have hon' := hon
  have ho' := (isOff_iff _).1 ho
  have hsk := (isOff_iff _).1 hseek
  have hc2' := (isOff_iff _).1 hc2
  rw [OFF_MAX_eq] at hsz hon'
  have hn' : (n : Int) ≤ 2147483647 := hn
  have hm' : (m : Int) ≤ 2147483647 := hm
  unfold applyCtrl
  have hs : sanityCheck t s = .next s := by
    have : sanityFails t = false := by
      rw [Bool.eq_false_iff, ne_eq, sanityFails_iff, hc0, hc1]; omega
    simp [sanityCheck, this]
  rw [hs, Res.bind_next, checkFits_ok newsize t.c0 s hP0 (by omega) (by omega) hsize,
    Res.bind_next]
  unfold addStage
  rw [readDiff_ok t s P X (Y ++ Q) n hc0 (by rw [hnew]; simp) hP hX hd, Res.bind_next]
  unfold addOld
  rw [hc0, Int.toNat_ofNat]
  have hadd := addOldFrom_ok B n 0
    { s with new := P ++ s.dpf.data.take n ++ (Y ++ Q),
             dpf := ⟨s.dpf.data.drop n, s.dpf.damaged⟩ }
    P (s.dpf.data.take n) (Y ++ Q) rfl (by simpa using hP) (by simp; omega) ho
    (by intro h; simpa using hneg h) (by simpa using hon)
    (by simp only; rw [OFF_MAX_eq]; push_cast; omega) hP0
  simp only [Nat.cast_zero, add_zero] at hadd
  rw [hadd, Res.bind_next]
  rw [advanceAdd_ok t, Res.bind_next]
  unfold copyStage
  rw [checkFits_ok newsize t.c1, Res.bind_next]
  rw [readExtra_ok t _ (P ++ addRegion B s.oldpos (s.dpf.data.take n)) Y Q m hc1, Res.bind_next]
  rw [advanceCopy_ok t]
  · simp only [hc0, hc1]
  all_goals first | assumption | (simp only [List.append_assoc]; done) | (simp only [isOff_iff, hc0, hc1]; omega) | (simp only [hc0, hc1, List.length_append, addRegion_length, List.length_take]; push_cast; omega)

/-! ## The loop on an admissible patch -/

theorem iteration_eq_applyCtrl (B : List UChar) (newsize : Int) (s : LoopState)
    (h : 24 ≤ s.cpf.data.length) :
    iteration B newsize s =
      applyCtrl B newsize
        ⟨offtin (s.cpf.data.take 8), offtin ((s.cpf.data.drop 8).take 8),
          offtin ((s.cpf.data.drop 16).take 8)⟩
        { s with cpf := ⟨s.cpf.data.drop 24, s.cpf.damaged⟩ } := by
  unfold iteration
  rw [readCtrl_ok s h, Res.bind_next]

theorem encodes_cons {c : List UChar} {t : Ctrl} {ts : List Ctrl} (h : Encodes c (t :: ts)) :
    24 ≤ c.length ∧
      t = ⟨offtin (c.take 8), offtin ((c.drop 8).take 8), offtin ((c.drop 16).take 8)⟩ ∧
      Encodes (c.drop 24) ts := by
  unfold Encodes at h
  obtain ⟨h1, h2, h3, h4, h5⟩ := h
  refine ⟨h1, ?_, h5⟩
  cases t
  simp_all

theorem loopFuel_done (B : List UChar) (newsize : Int) (f : Nat) (s : LoopState)
    (h : ¬ s.newpos < newsize) : loopFuel B newsize (f + 1) s = .done s := by
  show (if s.newpos < newsize then _ else _) = _
  rw [if_neg h]

theorem loopFuel_step (B : List UChar) (newsize : Int) (f : Nat) (s s1 : LoopState)
    (h : s.newpos < newsize) (hit : iteration B newsize s = .next s1) :
    loopFuel B newsize (f + 1) s = loopFuel B newsize f s1 := by
  show (if s.newpos < newsize then _ else _) = _
  rw [if_pos h, hit]

theorem loopFuel_corrupt (B : List UChar) (newsize : Int) (f : Nat) (s s1 : LoopState)
    (h : s.newpos < newsize) (hit : iteration B newsize s = .corrupt s1) :
    loopFuel B newsize (f + 1) s = .corrupt s1 := by
  show (if s.newpos < newsize then _ else _) = _
  rw [if_pos h, hit]

theorem loopFuel_outOfBounds (B : List UChar) (newsize : Int) (f : Nat) (s s1 : LoopState)
    (h : s.newpos < newsize) (hit : iteration B newsize s = .outOfBounds s1) :
    loopFuel B newsize (f + 1) s = .outOfBounds s1 := by
  show (if s.newpos < newsize then _ else _) = _
  rw [if_pos h, hit]

theorem loopFuel_roundtrip (B : List UChar) (newsize : Int) (hsize : newsize ≤ OFF_MAX) :
    ∀ (ts : List Ctrl) (fuel : Nat) (s : LoopState) (T P R : List UChar),
      ts.length < fuel → Encodes s.cpf.data ts →
      Admissible s.oldpos (newsize - s.newpos) ts →
      specTarget B s.oldpos ts s.dpf.data s.epf.data = some T → IsOff s.oldpos →
      s.new = P ++ R → (P.length : Int) = s.newpos → R.length = T.length →
      newsize = s.newpos + T.length →
      ∃ s1, loopFuel B newsize fuel s = .done s1 ∧ s1.new = P ++ T := by
  intro ts
  induction ts with
  | nil =>
    intro fuel s T P R hf _ _ hT _ hnew hP hR hN
    obtain ⟨f, rfl⟩ : ∃ f, fuel = f + 1 := ⟨fuel - 1, by simp at hf; omega⟩
    simp only [specTarget, Option.some.injEq] at hT
    subst hT
    simp only [List.length_nil, Nat.cast_zero, add_zero] at hN hR
    have hR' : R = [] := List.length_eq_zero.1 hR
    exact ⟨s, loopFuel_done B newsize f s (by omega), by rw [hnew, hR']⟩
  | cons t ts ih =>
    intro fuel s T P R hf henc hadm hT ho hnew hP hR hN
    obtain ⟨f, rfl⟩ : ∃ f, fuel = f + 1 := ⟨fuel - 1, by simp at hf; omega⟩
    by_cases hlt : s.newpos < newsize
    · obtain ⟨h24, ht, henc'⟩ := encodes_cons henc
      unfold Admissible at hadm
      obtain hrem | ⟨a0, a1, a2, a3, a4, a5, a6, a7, hadm'⟩ := hadm
      · omega
      unfold specTarget at hT
      split_ifs at hT with hc
      obtain ⟨_, _, hd, he⟩ := hc
      obtain ⟨T2, hT2, hTeq⟩ := Option.map_eq_some.1 hT
      have hn : t.c0 = (t.c0.toNat : Int) := (Int.toNat_of_nonneg a0).symm
      have hm : t.c1 = (t.c1.toNat : Int) := (Int.toNat_of_nonneg a2).symm
      have hd' : t.c0.toNat ≤ s.dpf.data.length := by omega
      have he' : t.c1.toNat ≤ s.epf.data.length := by omega
      have hlenT : T.length = t.c0.toNat + t.c1.toNat + T2.length := by
        rw [← hTeq]
        simp [addRegion_length, List.length_take, Nat.min_eq_left hd', Nat.min_eq_left he',
          Nat.add_assoc]
      have hc2 : IsOff t.c2 := by rw [ht]; exact offtin_isOff _
      have hR3 : R = R.take t.c0.toNat ++ (R.drop t.c0.toNat).take t.c1.toNat ++
          (R.drop t.c0.toNat).drop t.c1.toNat := by
        rw [List.append_assoc, List.take_append_drop, List.take_append_drop]
      have hit := applyCtrl_ok B newsize { s with cpf := ⟨s.cpf.data.drop 24, s.cpf.damaged⟩ } t
        P (R.take t.c0.toNat) ((R.drop t.c0.toNat).take t.c1.toNat)
        ((R.drop t.c0.toNat).drop t.c1.toNat) t.c0.toNat t.c1.toNat hn hm
        (by rw [← hn]; exact a1) (by rw [← hm]; exact a3) hc2
        (by simp only; rw [hnew]; rw [List.append_assoc, List.append_assoc, ← List.append_assoc
              (List.take _ R), ← hR3])
        hP (by rw [List.length_take]; omega) (by rw [List.length_take, List.length_drop]; omega)
        (by simp only; omega) hsize hd' he' ho
        (by intro h; exact a4 (by omega)) (by simp only; omega)
        (by simp only; rw [isOff_iff, ← hn, ← OFF_MIN_eq, ← OFF_MAX_eq]; exact ⟨a6, a7⟩)
      have hie := iteration_eq_applyCtrl B newsize s h24
      rw [← ht] at hie
      rw [← hie] at hit
      rw [loopFuel_step B newsize f s _ hlt hit]
      have hf' : ts.length < f := by simp at hf; omega
      obtain ⟨s1, hs1, hnew1⟩ := ih f
        { oldpos := s.oldpos + t.c0.toNat + t.c2, newpos := s.newpos + t.c0.toNat + t.c1.toNat,
          new := P ++ addRegion B s.oldpos (s.dpf.data.take t.c0.toNat) ++
            s.epf.data.take t.c1.toNat ++ (R.drop t.c0.toNat).drop t.c1.toNat,
          cpf := ⟨s.cpf.data.drop 24, s.cpf.damaged⟩,
          dpf := ⟨s.dpf.data.drop t.c0.toNat, s.dpf.damaged⟩,
          epf := ⟨s.epf.data.drop t.c1.toNat, s.epf.damaged⟩ } T2
        (P ++ addRegion B s.oldpos (s.dpf.data.take t.c0.toNat) ++ s.epf.data.take t.c1.toNat)
        ((R.drop t.c0.toNat).drop t.c1.toNat) hf' henc'
        (by
          have hr : newsize - (s.newpos + (t.c0.toNat : Int) + (t.c1.toNat : Int)) =
              newsize - s.newpos - t.c0 - t.c1 := by omega
          simp only
          rw [hr, ← hn]
          exact hadm')
        (by simp only; rw [← hn]; exact hT2)
        (by simp only; rw [← hn]; exact ⟨a6, a7⟩) rfl
        (by simp only [List.length_append, addRegion_length, List.length_take,
              Nat.min_eq_left hd', Nat.min_eq_left he']; push_cast; omega)
        (by simp only [List.length_drop]; omega)
        (by simp only; omega)
      refine ⟨s1, hs1, ?_⟩
      rw [hnew1, ← hTeq]
      simp [List.append_assoc]
    · have hT0 : T.length = 0 := by omega
      have hT' : T = [] := List.length_eq_zero.1 hT0
      have hR' : R = [] := List.length_eq_zero.1 (by omega)
      exact ⟨s, loopFuel_done B newsize f s hlt, by rw [hnew, hR', hT']⟩

theorem encodes_length {ts : List Ctrl} : ∀ {c : List UChar}, Encodes c ts →
    24 * ts.length ≤ c.length := by
  induction ts with
  | nil => intro c _; simp
  | cons t ts ih =>
    intro c h
    obtain ⟨h24, _, h'⟩ := encodes_cons h
    have := ih h'
    simp only [List.length_drop, List.length_cons] at this ⊢
    omega

/-! ## What a pass that goes on has done -/

theorem Res.bind_eq_next {α β : Type} {r : Res α} {f : α → Res β} {b : β}
    (h : r.bind f = .next b) : ∃ a, r = .next a ∧ f a = .next b := by
  cases r with
  | next a => exact ⟨a, rfl, h⟩
  | corrupt s => cases h
  | outOfBounds s => cases h

theorem sanityCheck_next {t : Ctrl} {s s2 : LoopState} (h : sanityCheck t s = .next s2) :
    s2 = s ∧ 0 ≤ t.c0 ∧ t.c0 ≤ INT_MAX ∧ 0 ≤ t.c1 ∧ t.c1 ≤ INT_MAX := by
  unfold sanityCheck at h
  split_ifs at h with hs
  have hs' : ¬ (t.c0 < 0 ∨ t.c0 > INT_MAX ∨ t.c1 < 0 ∨ t.c1 > INT_MAX) := by
    rw [← sanityFails_iff]; exact hs
  injection h with h
  refine ⟨h.symm, ?_⟩
  omega

theorem checkFits_next {newsize len : Int} {s s2 : LoopState} (h0 : IsOff s.newpos)
    (h1 : IsOff len) (h : checkFits newsize len s = .next s2) :
    s2 = s ∧ IsOff (s.newpos + len) ∧ s.newpos + len ≤ newsize := by
  unfold checkFits at h
  rw [add_off_t_spec _ _ h0 h1] at h
  split_ifs at h with hi
  simp only at h
  split_ifs at h with hv
  injection h with h
  exact ⟨h.symm, hi, by omega⟩

theorem storeBytes_some {buf bytes new1 : List UChar} {pos : Int}
    (h : storeBytes buf pos bytes = some new1) :
    0 ≤ pos ∧ pos + bytes.length ≤ buf.length ∧ new1.length = buf.length ∧
      new1 = buf.take pos.toNat ++ bytes ++ buf.drop (pos.toNat + bytes.length) := by
  unfold storeBytes at h
  split_ifs at h with hc
  injection h with h
  refine ⟨hc.1, hc.2, ?_, h.symm⟩
  rw [← h]
  simp only [List.length_append, List.length_take, List.length_drop]
  omega

theorem readDiff_next {t : Ctrl} {s s2 : LoopState} (ht : 0 ≤ t.c0)
    (h : readDiff t s = .next s2) :
    0 ≤ s.newpos ∧ s.newpos + t.c0 ≤ s.new.length ∧ t.c0 ≤ s.dpf.data.length ∧
      s2 = { s with new := s.new.take s.newpos.toNat ++ s.dpf.data.take t.c0.toNat ++
                      s.new.drop (s.newpos.toNat + t.c0.toNat),
                    dpf := ⟨s.dpf.data.drop t.c0.toNat, s.dpf.damaged⟩ } := by
  unfold readDiff at h
  simp only at h
  split at h
  · cases h
  · rename_i new1 hst
    split_ifs at h with hf
    have hf' : ¬ (t.c0 < 0 ∨ (s.dpf.data.length : Int) < t.c0) := by
      rw [← readFailed_iff]; exact hf
    have hle : t.c0.toNat ≤ s.dpf.data.length := by omega
    have hr := bzRead_full s.dpf t.c0.toNat hle
    rw [Int.toNat_of_nonneg ht] at hr
    rw [hr] at hst h
    obtain ⟨a, b, _, d⟩ := storeBytes_some hst
    simp only [List.length_take, Nat.min_eq_left hle] at b d
    injection h with h
    refine ⟨a, by omega, by omega, ?_⟩
    rw [← h, d]

theorem readExtra_next {t : Ctrl} {s s2 : LoopState} (ht : 0 ≤ t.c1)
    (h : readExtra t s = .next s2) :
    0 ≤ s.newpos ∧ s.newpos + t.c1 ≤ s.new.length ∧ t.c1 ≤ s.epf.data.length ∧
      s2 = { s with new := s.new.take s.newpos.toNat ++ s.epf.data.take t.c1.toNat ++
                      s.new.drop (s.newpos.toNat + t.c1.toNat),
                    epf := ⟨s.epf.data.drop t.c1.toNat, s.epf.damaged⟩ } := by
  unfold readExtra at h
  simp only at h
  split at h
  · cases h
  · rename_i new1 hst
    split_ifs at h with hf
    have hf' : ¬ (t.c1 < 0 ∨ (s.epf.data.length : Int) < t.c1) := by
      rw [← readFailed_iff]; exact hf
    have hle : t.c1.toNat ≤ s.epf.data.length := by omega
    have hr := bzRead_full s.epf t.c1.toNat hle
    rw [Int.toNat_of_nonneg ht] at hr
    rw [hr] at hst h
    obtain ⟨a, b, _, d⟩ := storeBytes_some hst
    simp only [List.length_take, Nat.min_eq_left hle] at b d
    injection h with h
    refine ⟨a, by omega, by omega, ?_⟩
    rw [← h, d]

theorem advanceAdd_next {t : Ctrl} {s s2 : LoopState} (h0 : IsOff s.newpos)
    (h1 : IsOff s.oldpos) (hc : IsOff t.c0) (h : advanceAdd t s = .next s2) :
    IsOff (s.newpos + t.c0) ∧ IsOff (s.oldpos + t.c0) ∧
      s2 = { s with newpos := s.newpos + t.c0, oldpos := s.oldpos + t.c0 } := by
  unfold advanceAdd at h
  rw [add_off_t_spec _ _ h0 hc] at h
  split_ifs at h with hi
  simp only at h
  rw [add_off_t_spec _ _ h1 hc] at h
  split_ifs at h with hj
  simp only at h
  injection h with h
  exact ⟨hi, hj, h.symm⟩

theorem advanceCopy_next {t : Ctrl} {s s2 : LoopState} (h0 : IsOff s.newpos)
    (h1 : IsOff s.oldpos) (hc1 : IsOff t.c1) (hc2 : IsOff t.c2)
    (h : advanceCopy t s = .next s2) :
    IsOff (s.newpos + t.c1) ∧ IsOff (s.oldpos + t.c2) ∧
      s2 = { s with newpos := s.newpos + t.c1, oldpos := s.oldpos + t.c2 } := by
  unfold advanceCopy at h
  rw [add_off_t_spec _ _ h0 hc1] at h
  split_ifs at h with hi
  simp only at h
  rw [add_off_t_spec _ _ h1 hc2] at h
  split_ifs at h with hj
  simp only at h
  injection h with h
  exact ⟨hi, hj, h.symm⟩

theorem addOldFrom_frame (B : List UChar) (k : Nat) :
    ∀ (i : Int) (s s2 : LoopState), addOldFrom B k i s = .next s2 →
      s2.oldpos = s.oldpos ∧ s2.newpos = s.newpos ∧ s2.cpf = s.cpf ∧ s2.dpf = s.dpf ∧
        s2.epf = s.epf ∧ s2.new.length = s.new.length := by
  induction k with
  | zero =>
    intro i s s2 h
    unfold addOldFrom at h
    injection h with h
    subst h
    simp
  | succ k ih =>
    intro i s s2 h
    unfold addOldFrom at h
    split at h
    · cases h
    · split_ifs at h with hlt
      · split at h
        · rename_i o n _ _
          split at h
          · rename_i new1 hst
            have := ih _ _ _ h
            have hl := (storeBytes_some hst).2.2.1
            simp only at this
            obtain ⟨a, b, c, d, e, f⟩ := this
            exact ⟨a, b, c, d, e, by rw [f, hl]⟩
          · cases h
        · cases h
      · exact ih _ _ _ h

theorem applyCtrl_next {B : List UChar} {newsize : Int} {t : Ctrl} {s s2 : LoopState}
    (h0 : IsOff s.newpos) (h1 : IsOff s.oldpos) (hc0 : IsOff t.c0) (hc1 : IsOff t.c1)
    (hc2 : IsOff t.c2) (h : applyCtrl B newsize t s = .next s2) :
    0 ≤ t.c0 ∧ t.c0 ≤ INT_MAX ∧ 0 ≤ t.c1 ∧ t.c1 ≤ INT_MAX ∧ 0 ≤ s.newpos ∧
    s.newpos + t.c0 + t.c1 ≤ newsize ∧ s.newpos + t.c0 + t.c1 ≤ s.new.length ∧
    t.c0 ≤ s.dpf.data.length ∧ t.c1 ≤ s.epf.data.length ∧
    IsOff (s.oldpos + t.c0) ∧ IsOff (s.oldpos + t.c0 + t.c2) ∧
    IsOff (s.newpos + t.c0 + t.c1) ∧
    ∃ sA, addOld B t
        ({ s with new := s.new.take s.newpos.toNat ++ s.dpf.data.take t.c0.toNat ++
                      s.new.drop (s.newpos.toNat + t.c0.toNat),
                  dpf := ⟨s.dpf.data.drop t.c0.toNat, s.dpf.damaged⟩ } : LoopState) =
        .next sA ∧
      sA.new.length = s.new.length ∧
      s2 = { oldpos := s.oldpos + t.c0 + t.c2, newpos := s.newpos + t.c0 + t.c1,
             new := sA.new.take (s.newpos + t.c0).toNat ++ s.epf.data.take t.c1.toNat ++
                      sA.new.drop ((s.newpos + t.c0).toNat + t.c1.toNat),
             cpf := s.cpf,
             dpf := ⟨s.dpf.data.drop t.c0.toNat, s.dpf.damaged⟩,
             epf := ⟨s.epf.data.drop t.c1.toNat, s.epf.damaged⟩ } := by
  unfold applyCtrl at h
  obtain ⟨s3, h, hcopy⟩ := Res.bind_eq_next h
  obtain ⟨sc, h, hadd⟩ := Res.bind_eq_next h
  obtain ⟨sb, hsan, hfit⟩ := Res.bind_eq_next h
  obtain ⟨e, a0, a1, a2, a3⟩ := sanityCheck_next hsan
  subst sb
  obtain ⟨e, f1, f2⟩ := checkFits_next h0 hc0 hfit
  subst sc
  unfold addStage at hadd
  obtain ⟨sA, h, hadv⟩ := Res.bind_eq_next hadd
  obtain ⟨sd, hrd, hao⟩ := Res.bind_eq_next h
  obtain ⟨d1, d2, d3, e⟩ := readDiff_next a0 hrd
  subst sd
  have hfr := addOldFrom_frame B _ _ _ _ hao
  simp only at hfr
  obtain ⟨g1, g2, g3, g4, g5, g6⟩ := hfr
  obtain ⟨v1, v2, e⟩ := advanceAdd_next (by rw [g2]; exact h0) (by rw [g1]; exact h1) hc0 hadv
  subst s3
  unfold copyStage at hcopy
  obtain ⟨se, h, hadv2⟩ := Res.bind_eq_next hcopy
  obtain ⟨sf, hfit2, hre⟩ := Res.bind_eq_next h
  obtain ⟨e, w1, w2⟩ := checkFits_next (by simp only; rw [g2]; exact f1) hc1 hfit2
  subst sf
  obtain ⟨e1, e2, e3, e⟩ := readExtra_next a2 hre
  subst se
  rw [g1] at v2
  obtain ⟨x1, x2, e⟩ := advanceCopy_next (by simp only; rw [g2]; exact f1)
    (by simp only; rw [g1]; exact v2) hc1 hc2 hadv2
  subst s2
  have hlenA : sA.new.length = s.new.length := by
    rw [g6]
    simp only [List.length_append, List.length_take, List.length_drop]
    omega
  simp only [g1, g2, g3, g5, g4] at *
  refine ⟨a0, a1, a2, a3, d1, w2, ?_, d3, e3, v2, x2, w1, sA, hao, hlenA, rfl⟩
  rw [← hlenA]; exact e2

theorem bzRead_bytes (b : BzStream) (len : Int) (h : 0 < len) :
    (BZ2_bzRead b len).bytes = b.data.take len.toNat ∧
      (BZ2_bzRead b len).rest = ⟨b.data.drop len.toNat, b.damaged⟩ ∧
      ((BZ2_bzRead b len).lenread < len ↔ (b.data.length : Int) < len) := by
  unfold BZ2_bzRead
  have h1 : ¬ len < 0 := by omega
  have h2 : ¬ len = 0 := by omega
  simp only [h1, h2, if_false, List.length_take]
  split_ifs with h3 <;> refine ⟨rfl, rfl, ?_⟩ <;> simp only <;> omega

theorem applyCtrl_insane (B : List UChar) (newsize : Int) (t : Ctrl) (s : LoopState)
    (h : t.c0 < 0 ∨ t.c0 > INT_MAX ∨ t.c1 < 0 ∨ t.c1 > INT_MAX) :
    applyCtrl B newsize t s = .corrupt s := by
  have hs : sanityFails t = true := (sanityFails_iff t).2 h
  simp [applyCtrl, sanityCheck, hs]

theorem addRegion_get (B : List UChar) :
    ∀ (ds : List UChar) (p : Int) (i : Nat) (d : UChar), ds.get? i = some d →
      (addRegion B p ds).get? i = some (combine d (getByte B (p + i))) := by
  intro ds
  induction ds with
  | nil => intro p i d h; simp at h
  | cons x xs ih =>
    intro p i d h
    cases i with
    | zero =>
      simp only [List.get?_cons_zero, Option.some.injEq] at h
      subst h
      simp [addRegion]
    | succ i =>
      simp only [List.get?_cons_succ] at h
      have := ih (p + 1) i d h
      simp only [addRegion, List.get?_cons_succ, this]
      congr 3
      push_cast
      ring

theorem get_mid (P X Q : List UChar) (i : Nat) (h : i < X.length) :
    (P ++ X ++ Q).get? (P.length + i) = X.get? i := by
  rw [List.append_assoc, List.get?_eq_getElem?, List.getElem?_append_right (by omega)]
  simp only [Nat.add_sub_cancel_left]
  rw [List.getElem?_append_left h, List.get?_eq_getElem?]

theorem iteration_next_len {B : List UChar} {newsize : Int} {s s2 : LoopState}
    (h : iteration B newsize s = .next s2) : 24 ≤ s.cpf.data.length := by
  by_contra hc
  obtain ⟨st, hst⟩ := readCtrl_short s (by omega)
  rw [iteration, hst, Res.bind_corrupt] at h
  cases h

theorem applyCtrl_add_overshoot (B : List UChar) (newsize : Int) (t : Ctrl) (s : LoopState)
    (h0 : IsOff s.newpos) (hc0 : IsOff t.c0) (h : newsize < s.newpos + t.c0) :
    applyCtrl B newsize t s = .corrupt s := by
  by_cases hs : t.c0 < 0 ∨ t.c0 > INT_MAX ∨ t.c1 < 0 ∨ t.c1 > INT_MAX
  · exact applyCtrl_insane B newsize t s hs
  · have hs' : sanityFails t = false := by
      rw [Bool.eq_false_iff, ne_eq, sanityFails_iff]; exact hs
    unfold applyCtrl
    have : sanityCheck t s = .next s := by simp [sanityCheck, hs']
    rw [this, Res.bind_next, checkFits_fail newsize t.c0 s h0 hc0 h]
    rfl

/-! ## The fuel of the loop suffices -/

theorem checkFits_cpf {newsize len : Int} {s s2 : LoopState}
    (h : checkFits newsize len s = .next s2) : s2 = s := by
  unfold checkFits at h
  split at h
  · cases h
  · split_ifs at h
    injection h with h
    exact h.symm

theorem readDiff_cpf {t : Ctrl} {s s2 : LoopState} (h : readDiff t s = .next s2) :
    s2.cpf = s.cpf := by
  unfold readDiff at h
  simp only at h
  split at h
  · cases h
  · split_ifs at h
    injection h with h
    rw [← h]

theorem readExtra_cpf {t : Ctrl} {s s2 : LoopState} (h : readExtra t s = .next s2) :
    s2.cpf = s.cpf := by
  unfold readExtra at h
  simp only at h
  split at h
  · cases h
  · split_ifs at h
    injection h with h
    rw [← h]

theorem advanceAdd_cpf {t : Ctrl} {s s2 : LoopState} (h : advanceAdd t s = .next s2) :
    s2.cpf = s.cpf := by
  unfold advanceAdd at h
  split at h
  · cases h
  · simp only at h
    split at h
    · cases h
    · injection h with h
      rw [← h]

theorem advanceCopy_cpf {t : Ctrl} {s s2 : LoopState} (h : advanceCopy t s = .next s2) :
    s2.cpf = s.cpf := by
  unfold advanceCopy at h
  split at h
  · cases h
  · simp only at h
    split at h
    · cases h
    · injection h with h
      rw [← h]

theorem applyCtrl_cpf {B : List UChar} {newsize : Int} {t : Ctrl} {s s2 : LoopState}
    (h : applyCtrl B newsize t s = .next s2) : s2.cpf = s.cpf := by
  unfold applyCtrl at h
  obtain ⟨s3, h, hcopy⟩ := Res.bind_eq_next h
  obtain ⟨sc, h, hadd⟩ := Res.bind_eq_next h
  obtain ⟨sb, hsan, hfit⟩ := Res.bind_eq_next h
  have e1 := (sanityCheck_next hsan).1
  have e2 := checkFits_cpf hfit
  unfold addStage at hadd
  obtain ⟨sA, h, hadv⟩ := Res.bind_eq_next hadd
  obtain ⟨sd, hrd, hao⟩ := Res.bind_eq_next h
  have e3 := readDiff_cpf hrd
  have e4 := (addOldFrom_frame B _ _ _ _ hao).2.2.1
  have e5 := advanceAdd_cpf hadv
  unfold copyStage at hcopy
  obtain ⟨se, h, hadv2⟩ := Res.bind_eq_next hcopy
  obtain ⟨sf, hfit2, hre⟩ := Res.bind_eq_next h
  have e6 := checkFits_cpf hfit2
  have e7 := readExtra_cpf hre
  have e8 := advanceCopy_cpf hadv2
  rw [e8, e7, e6, e5, e4, e3, e2, e1]

theorem iteration_cpf {B : List UChar} {newsize : Int} {s s2 : LoopState}
    (h : iteration B newsize s = .next s2) :
    s2.cpf.data.length + 24 = s.cpf.data.length := by
  have h24 := iteration_next_len h
  rw [iteration_eq_applyCtrl B newsize s h24] at h
  rw [applyCtrl_cpf h]
  simp only [List.length_drop]
  omega

theorem loopFuel_enough (B : List UChar) (newsize : Int) :
    ∀ (fuel : Nat) (s : LoopState), s.cpf.data.length / 24 < fuel →
      loopFuel B newsize fuel s ≠ .outOfFuel := by
  intro fuel
  induction fuel with
  | zero => intro s h; omega
  | succ f ih =>
    intro s h
    by_cases hlt : s.newpos < newsize
    · cases hit : iteration B newsize s with
      | next s1 =>
        rw [loopFuel_step B newsize f s s1 hlt hit]
        apply ih
        have := iteration_cpf hit
        omega
      | corrupt s1 =>
        rw [loopFuel_corrupt B newsize f s s1 hlt hit]
        exact fun h => by cases h
      | outOfBounds s1 =>
        rw [loopFuel_outOfBounds B newsize f s s1 hlt hit]
        exact fun h => by cases h
    · rw [loopFuel_done B newsize f s hlt]
      exact fun h => by cases h

theorem loop_fuel_enough (B : List UChar) (newsize : Int) (s : LoopState) :
    loop B newsize s ≠ .outOfFuel :=
  loopFuel_enough B newsize _ s (Nat.lt_succ_self _)

/-! ## The states at the head of the loop -/

theorem afterPasses_zero (B : List UChar) (newsize : Int) (s : LoopState) :
    afterPasses B newsize 0 s = some s := rfl

theorem afterPasses_succ (B : List UChar) (newsize : Int) (n : Nat) (s s1 : LoopState)
    (h : s.newpos < newsize) (hit : iteration B newsize s = .next s1) :
    afterPasses B newsize (n + 1) s = afterPasses B newsize n s1 := by
  show (if s.newpos < newsize then _ else _) = _
  rw [if_pos h, hit]

theorem afterPasses_succ_some {B : List UChar} {newsize : Int} {n : Nat} {s s2 : LoopState}
    (h : afterPasses B newsize (n + 1) s = some s2) :
    s.newpos < newsize ∧ ∃ s1, iteration B newsize s = .next s1 ∧
      afterPasses B newsize n s1 = some s2 := by
  have h' : (if s.newpos < newsize then
      (match iteration B newsize s with
        | .next s1 => afterPasses B newsize n s1
        | .corrupt _ => none
        | .outOfBounds _ => none) else none) = some s2 := h
  split_ifs at h' with hlt
  refine ⟨hlt, ?_⟩
  cases hit : iteration B newsize s with
  | next s1 => rw [hit] at h'; exact ⟨s1, rfl, h'⟩
  | corrupt s1 => rw [hit] at h'; cases h'
  | outOfBounds s1 => rw [hit] at h'; cases h'

theorem initState_wellFormed (newsize : Int) (cpf dpf epf : BzStream) (h : 0 ≤ newsize) :
    WellFormed newsize (initState newsize cpf dpf epf) := by
  refine ⟨le_refl _, h, ?_, ?_⟩
  · simp only [initState, isOff_iff]; omega
  · simp only [initState, List.length_replicate]; omega

theorem iteration_next_wellFormed {B : List UChar} {newsize : Int} {s s2 : LoopState}
    (hsize : newsize ≤ OFF_MAX) (hw : WellFormed newsize s)
    (h : iteration B newsize s = .next s2) :
    WellFormed newsize s2 ∧
      s2.newpos = s.newpos + offtin (s.cpf.data.take 8) + offtin ((s.cpf.data.drop 8).take 8) ∧
      0 ≤ offtin (s.cpf.data.take 8) ∧ 0 ≤ offtin ((s.cpf.data.drop 8).take 8) := by
  obtain ⟨w0, w1, w2, w3⟩ := hw
  have h24 := iteration_next_len h
  rw [iteration_eq_applyCtrl B newsize s h24] at h
  rw [OFF_MAX_eq] at hsize
  have hn : IsOff s.newpos := by rw [isOff_iff]; omega
  obtain ⟨a0, a1, a2, a3, a4, a5, a6, a7, a8, a9, a10, a11, sA, hA, hlenA, e⟩ :=
    applyCtrl_next (by exact hn) (by exact w2) (offtin_isOff _) (offtin_isOff _)
      (offtin_isOff _) h
  simp only at a0 a1 a2 a3 a4 a5 a6 a7 a8 a9 a10 a11 hlenA
  subst e
  refine ⟨⟨by simp only; omega, by simp only; omega, a10, ?_⟩, rfl, a0, a2⟩
  simp only [List.length_append, List.length_take, List.length_drop, hlenA]
  omega

theorem afterPasses_wellFormed (B : List UChar) (newsize : Int) (hsize : newsize ≤ OFF_MAX) :
    ∀ (n : Nat) (s s2 : LoopState), WellFormed newsize s →
      afterPasses B newsize n s = some s2 →
      WellFormed newsize s2 ∧ s.newpos ≤ s2.newpos ∧
        s2.cpf.data.length + 24 * n = s.cpf.data.length := by
  intro n
  induction n with
  | zero =>
    intro s s2 hw h
    rw [afterPasses_zero] at h
    injection h with h
    subst h
    exact ⟨hw, le_refl _, by omega⟩
  | succ n ih =>
    intro s s2 hw h
    obtain ⟨hlt, s1, hit, h1⟩ := afterPasses_succ_some h
    obtain ⟨hw1, e, c0, c1⟩ := iteration_next_wellFormed hsize hw hit
    obtain ⟨r1, r2, r3⟩ := ih s1 s2 hw1 h1
    have := iteration_cpf hit
    exact ⟨r1, by omega, by omega⟩

theorem afterPasses_snoc (B : List UChar) (newsize : Int) :
    ∀ (n : Nat) (s sp s2 : LoopState), afterPasses B newsize n s = some sp →
      sp.newpos < newsize → iteration B newsize sp = .next s2 →
      afterPasses B newsize (n + 1) s = some s2 := by
  intro n
  induction n with
  | zero =>
    intro s sp s2 h hlt hit
    rw [afterPasses_zero] at h
    injection h with h
    subst h
    rw [afterPasses_succ B newsize 0 s s2 hlt hit, afterPasses_zero]
  | succ n ih =>
    intro s sp s2 h hlt hit
    obtain ⟨hlt1, s1, hit1, h1⟩ := afterPasses_succ_some h
    rw [afterPasses_succ B newsize (n + 1) s s1 hlt1 hit1]
    exact ih s1 sp s2 h1 hlt hit

theorem afterPasses_last (B : List UChar) (newsize : Int) :
    ∀ (n : Nat) (s s2 : LoopState), afterPasses B newsize (n + 1) s = some s2 →
      ∃ sp, afterPasses B newsize n s = some sp ∧ sp.newpos < newsize ∧
        iteration B newsize sp = .next s2 := by
  intro n
  induction n with
  | zero =>
    intro s s2 h
    obtain ⟨hlt, s1, hit, h1⟩ := afterPasses_succ_some h
    rw [afterPasses_zero] at h1
    injection h1 with h1
    subst h1
    exact ⟨s, afterPasses_zero _ _ _, hlt, hit⟩
  | succ n ih =>
    intro s s2 h
    obtain ⟨hlt, s1, hit, h1⟩ := afterPasses_succ_some h
    obtain ⟨sp, hp, hlt2, hit2⟩ := ih s1 s2 h1
    exact ⟨sp, by rw [afterPasses_succ B newsize n s s1 hlt hit]; exact hp, hlt2, hit2⟩

theorem loopFuel_done_passes (B : List UChar) (newsize : Int) :
    ∀ (fuel : Nat) (s s2 : LoopState), loopFuel B newsize fuel s = .done s2 →
      ¬ s2.newpos < newsize ∧ ∃ n, n < fuel ∧ afterPasses B newsize n s = some s2 := by
  intro fuel
  induction fuel with
  | zero => intro s s2 h; cases h
  | succ f ih =>
    intro s s2 h
    by_cases hlt : s.newpos < newsize
    · cases hit : iteration B newsize s with
      | next s1 =>
        rw [loopFuel_step B newsize f s s1 hlt hit] at h
        obtain ⟨hd, n, hn, hp⟩ := ih s1 s2 h
        exact ⟨hd, n + 1, by omega, by rw [afterPasses_succ B newsize n s s1 hlt hit]; exact hp⟩
      | corrupt s1 =>
        rw [loopFuel_corrupt B newsize f s s1 hlt hit] at h
        cases h
      | outOfBounds s1 =>
        rw [loopFuel_outOfBounds B newsize f s s1 hlt hit] at h
        cases h
    · rw [loopFuel_done B newsize f s hlt] at h
      injection h with h
      subst h
      exact ⟨hlt, 0, by omega, afterPasses_zero _ _ _⟩

theorem loop_done_exact {B : List UChar} {newsize : Int} {cpf dpf epf : BzStream}
    {s : LoopState} (h0 : 0 ≤ newsize) (hsize : newsize ≤ OFF_MAX)
    (h : loop B newsize (initState newsize cpf dpf epf) = .done s) :
    WellFormed newsize s ∧ s.newpos = newsize ∧
      ∃ n, afterPasses B newsize n (initState newsize cpf dpf epf) = some s ∧
        (0 < newsize → 0 < n) := by
  obtain ⟨hd, n, _, hp⟩ := loopFuel_done_passes B newsize _ _ _ h
  obtain ⟨hw, _, _⟩ := afterPasses_wellFormed B newsize hsize n _ _
    (initState_wellFormed newsize cpf dpf epf h0) hp
  have he : s.newpos = newsize := by
    have := hw.2.1
    omega
  refine ⟨hw, he, n, hp, ?_⟩
  intro hpos
  rcases Nat.eq_zero_or_pos n with hz | hz
  · subst hz
    rw [afterPasses_zero] at hp
    injection hp with hp
    rw [← hp] at he
    simp only [initState] at he
    omega
  · exact hz

/-! ## The ways `main` ends -/

theorem exitWith_registered (d : Option (List UChar)) (e : Exit) :
    exitWith ⟨true, true, true, d⟩ e = ⟨e, none⟩ := rfl

theorem runAt_cases (codec : List UChar → BzStream) (oldfile patch : List UChar) (h : Header)
    (o0 o1 o2 : Int) (h0 : 0 ≤ h.newsize) :
    let init := initState h.newsize (codec (patch.drop o0.toNat)) (codec (patch.drop o1.toNat))
      (codec (patch.drop o2.toNat))
    let r := runAt codec ⟨true, true, true, some []⟩ oldfile patch h o0 o1 o2
    (r = ⟨.ioError, none⟩ ∧ (oldfile = [] ∨ h.newsize = 0)) ∨
    (∃ s, loop oldfile h.newsize init = .corrupt s ∧ r = ⟨.corruptPatch, none⟩) ∨
    (∃ s, loop oldfile h.newsize init = .outOfBounds s ∧ r = ⟨.outOfBounds, some s.new⟩) ∨
    (∃ s, loop oldfile h.newsize init = .done s ∧ oldfile ≠ [] ∧ 0 < h.newsize ∧
      r = ⟨.success, some s.new⟩) := by
  intro init r
  by_cases ho : oldfile = []
  · left
    refine ⟨?_, Or.inl ho⟩
    subst ho
    rfl
  · have hol : ¬ ((oldfile.length : Int) = 0) := by
      intro hc
      exact ho (List.length_eq_zero.1 (by omega))
    by_cases hn : h.newsize = 0
    · left
      refine ⟨?_, Or.inr hn⟩
      show runAt codec ⟨true, true, true, some []⟩ oldfile patch h o0 o1 o2 = _
      unfold runAt
      simp only [mmapFails, hol, hn, decide_False, decide_True, Bool.false_eq_true, if_false,
        if_true, gt_iff_lt, lt_self_iff_false]
      rfl
    · right
      have hpos : 0 < h.newsize := by omega
      have hr : r = match loop oldfile h.newsize init with
          | .done s => ⟨.success, some s.new⟩
          | .corrupt s => ⟨.corruptPatch, none⟩
          | .outOfBounds s => ⟨.outOfBounds, some s.new⟩
          | .outOfFuel => ⟨.outOfFuel, some (List.replicate h.newsize.toNat 0)⟩ := by
        show runAt codec ⟨true, true, true, some []⟩ oldfile patch h o0 o1 o2 = _
        unfold runAt
        simp only [mmapFails, hol, hn, decide_False, Bool.false_eq_true, if_false, gt_iff_lt,
          hpos, if_true]
        cases loop oldfile h.newsize init <;> rfl
      cases hl : loop oldfile h.newsize init with
      | done s => rw [hl] at hr; exact Or.inr (Or.inr ⟨s, rfl, ho, hpos, hr⟩)
      | corrupt s => rw [hl] at hr; exact Or.inl ⟨s, rfl, hr⟩
      | outOfBounds s => rw [hl] at hr; exact Or.inr (Or.inl ⟨s, rfl, hr⟩)
      | outOfFuel => exact absurd hl (loop_fuel_enough _ _ _)

theorem main_cases (S : Int) (codec : List UChar → BzStream) (dest0 : Option (List UChar))
    (oldfile patch : List UChar) :
    let r := main S codec 4 dest0 oldfile patch
    r = ⟨.corruptPatch, none⟩ ∨
    ∃ h o0 o1 o2, readHeader S patch = some h ∧ streamOffsets h = some (o0, o1, o2) ∧
      ((r = ⟨.ioError, none⟩ ∧ (oldfile = [] ∨ h.newsize = 0)) ∨
       (∃ s, loop oldfile h.newsize (initState h.newsize (codec (patch.drop o0.toNat))
          (codec (patch.drop o1.toNat)) (codec (patch.drop o2.toNat))) = .corrupt s ∧
          r = ⟨.corruptPatch, none⟩) ∨
       (∃ s, loop oldfile h.newsize (initState h.newsize (codec (patch.drop o0.toNat))
          (codec (patch.drop o1.toNat)) (codec (patch.drop o2.toNat))) = .outOfBounds s ∧
          r = ⟨.outOfBounds, some s.new⟩) ∨
       (∃ s, loop oldfile h.newsize (initState h.newsize (codec (patch.drop o0.toNat))
          (codec (patch.drop o1.toNat)) (codec (patch.drop o2.toNat))) = .done s ∧
          oldfile ≠ [] ∧ 0 < h.newsize ∧ r = ⟨.success, some s.new⟩)) := by
  intro r
  have hr : r = match readHeader S patch with
      | none => ⟨.corruptPatch, none⟩
      | some h => runPatch codec ⟨true, true, true, some []⟩ oldfile patch h := by
    show main S codec 4 dest0 oldfile patch = _
    unfold main
    simp only [ne_eq, not_true_eq_false, if_false]
    cases readHeader S patch <;> rfl
  cases hh : readHeader S patch with
  | none => rw [hh] at hr; exact Or.inl hr
  | some h =>
    rw [hh] at hr
    simp only at hr
    unfold runPatch at hr
    cases ho : streamOffsets h with
    | none => rw [ho] at hr; exact Or.inl hr
    | some o =>
      obtain ⟨o0, o1, o2⟩ := o
      rw [ho] at hr
      simp only at hr
      right
      refine ⟨h, o0, o1, o2, rfl, ho, ?_⟩
      rw [hr]
      exact runAt_cases codec oldfile patch h o0 o1 o2 (readHeader_some hh).2.2.1

theorem readCtrl_next {s s0 : LoopState} {t : Ctrl} (h : readCtrl s = .next (t, s0)) :
    24 ≤ s.cpf.data.length ∧
      t = ⟨offtin (s.cpf.data.take 8), offtin ((s.cpf.data.drop 8).take 8),
        offtin ((s.cpf.data.drop 16).take 8)⟩ ∧
      s0 = { s with cpf := ⟨s.cpf.data.drop 24, s.cpf.damaged⟩ } := by
  by_cases h24 : 24 ≤ s.cpf.data.length
  · rw [readCtrl_ok s h24] at h
    injection h with h
    injection h with h1 h2
    exact ⟨h24, h1.symm, h2.symm⟩
  · obtain ⟨st, hst⟩ := readCtrl_short s (by omega)
    rw [hst] at h
    cases h

theorem readCtrl_isOff {s s0 : LoopState} {t : Ctrl} (h : readCtrl s = .next (t, s0)) :
    IsOff t.c0 ∧ IsOff t.c1 ∧ IsOff t.c2 := by
  obtain ⟨_, e, _⟩ := readCtrl_next h
  subst e
  exact ⟨offtin_isOff _, offtin_isOff _, offtin_isOff _⟩

/-! ## What a pass writes -/

theorem SameOutside.refl (lo hi : Int) (a : List UChar) : SameOutside lo hi a a :=
  ⟨rfl, fun _ _ => rfl⟩

theorem SameOutside.trans {lo hi lo1 hi1 lo2 hi2 : Int} {a b c : List UChar}
    (h1 : SameOutside lo1 hi1 a b) (h2 : SameOutside lo2 hi2 b c)
    (l1 : lo ≤ lo1) (l2 : lo ≤ lo2) (u1 : hi1 ≤ hi) (u2 : hi2 ≤ hi) :
    SameOutside lo hi a c := by
  refine ⟨h1.1.trans h2.1, ?_⟩
  intro j hj
  rw [h1.2 j (by omega), h2.2 j (by omega)]

theorem SameOutside.mono {lo hi lo1 hi1 : Int} {a b : List UChar}
    (h1 : SameOutside lo1 hi1 a b) (l1 : lo ≤ lo1) (u1 : hi1 ≤ hi) :
    SameOutside lo hi a b :=
  ⟨h1.1, fun j hj => h1.2 j (by omega)⟩

theorem storeBytes_sameOutside {buf bytes new1 : List UChar} {pos : Int}
    (h : storeBytes buf pos bytes = some new1) :
    SameOutside pos (pos + bytes.length) new1 buf := by
  obtain ⟨h0, h1, hlen, e⟩ := storeBytes_some h
  refine ⟨hlen, ?_⟩
  intro j hj
  have hp : pos.toNat ≤ buf.length := by omega
  rw [e, List.get?_eq_getElem?, List.get?_eq_getElem?]
  rcases hj with hj | hj
  · have hjl : j < (buf.take pos.toNat).length := by
      rw [List.length_take]; omega
    rw [List.append_assoc, List.getElem?_append_left hjl, List.getElem?_take_of_lt (by omega)]
  · have hl : (buf.take pos.toNat ++ bytes).length = pos.toNat + bytes.length := by
      rw [List.length_append, List.length_take]; omega
    rw [List.getElem?_append_right (by omega), hl, List.getElem?_drop]
    congr 1
    omega
theorem bzRead_length_le (b : BzStream) (len : Int) (h : 0 ≤ len) :
    ((BZ2_bzRead b len).bytes.length : Int) ≤ len := by
  rcases lt_or_eq_of_le h with hpos | hzero
  · rw [(bzRead_bytes b len hpos).1, List.length_take]
    omega
  · subst hzero
    simp [BZ2_bzRead]

theorem sanityCheck_final (t : Ctrl) (s : LoopState) : (sanityCheck t s).final = s := by
  unfold sanityCheck
  split_ifs <;> rfl

theorem checkFits_final (newsize len : Int) (s : LoopState) :
    (checkFits newsize len s).final = s := by
  unfold checkFits
  split
  · rfl
  · split_ifs <;> rfl

theorem readDiff_final (t : Ctrl) (s : LoopState) (h : 0 ≤ t.c0) :
    SameOutside s.newpos (s.newpos + t.c0) (readDiff t s).final.new s.new := by
  unfold readDiff
  simp only
  split
  · exact SameOutside.refl _ _ _
  · rename_i new1 hst
    have hf := storeBytes_sameOutside hst
    have hl := bzRead_length_le s.dpf t.c0 h
    have hm : SameOutside s.newpos (s.newpos + t.c0) new1 s.new :=
      hf.mono (le_refl _) (by omega)
    split_ifs <;> exact hm

theorem readExtra_final (t : Ctrl) (s : LoopState) (h : 0 ≤ t.c1) :
    SameOutside s.newpos (s.newpos + t.c1) (readExtra t s).final.new s.new := by
  unfold readExtra
  simp only
  split
  · exact SameOutside.refl _ _ _
  · rename_i new1 hst
    have hf := storeBytes_sameOutside hst
    have hl := bzRead_length_le s.epf t.c1 h
    have hm : SameOutside s.newpos (s.newpos + t.c1) new1 s.new :=
      hf.mono (le_refl _) (by omega)
    split_ifs <;> exact hm

theorem advanceAdd_final (t : Ctrl) (s : LoopState) : (advanceAdd t s).final.new = s.new := by
  unfold advanceAdd
  split
  · rfl
  · simp only
    split <;> rfl

theorem advanceCopy_final (t : Ctrl) (s : LoopState) :
    (advanceCopy t s).final.new = s.new := by
  unfold advanceCopy
  split
  · rfl
  · simp only
    split <;> rfl

theorem addOldFrom_final (B : List UChar) (k : Nat) :
    ∀ (i : Int) (s : LoopState), 0 ≤ i → 0 ≤ s.newpos → s.newpos + i + k ≤ OFF_MAX →
      SameOutside (s.newpos + i) (s.newpos + i + k) (addOldFrom B k i s).final.new s.new := by
  induction k with
  | zero =>
    intro i s _ _ _
    exact SameOutside.refl _ _ _
  | succ k ih =>
    intro i s hi hn hmax
    rw [OFF_MAX_eq] at hmax
    have hw1 : wrap_off_t (i + 1) = i + 1 := wrap_id (by omega) (by omega)
    have hw2 : wrap_off_t (s.newpos + i) = s.newpos + i := wrap_id (by omega) (by omega)
    unfold addOldFrom
    rw [hw1, hw2]
    split
    · exact SameOutside.refl _ _ _
    · split_ifs with hlt
      · split
        · rename_i o n _ _
          split
          · rename_i new1 hst
            have h1 := storeBytes_sameOutside hst
            have h2 := ih (i + 1) ({ s with new := new1 } : LoopState) (by omega) hn
              (by rw [OFF_MAX_eq]; simp only; push_cast at hmax ⊢; omega)
            simp only [List.length_singleton, Nat.cast_one] at h1
            simp only at h2
            exact h2.trans h1 (by omega) (by omega) (by push_cast; omega) (by push_cast; omega)
          · exact SameOutside.refl _ _ _
        · exact SameOutside.refl _ _ _
      · have h2 := ih (i + 1) s (by omega) hn (by rw [OFF_MAX_eq]; push_cast at hmax ⊢; omega)
        exact h2.mono (by omega) (by push_cast; omega)

theorem Res.final_bind (r : Res LoopState) (f : LoopState → Res LoopState)
    (Q : LoopState → Prop) (h1 : Q r.final) (h2 : ∀ a, r = .next a → Q a → Q (f a).final) :
    Q (r.bind f).final := by
  cases r with
  | next a => exact h2 a rfl h1
  | corrupt s => exact h1
  | outOfBounds s => exact h1
theorem addStage_next {B : List UChar} {t : Ctrl} {s s2 : LoopState} (h0 : 0 ≤ t.c0)
    (hn : IsOff s.newpos) (ho : IsOff s.oldpos) (hc : IsOff t.c0)
    (h : addStage B t s = .next s2) :
    s2.newpos = s.newpos + t.c0 ∧ s2.oldpos = s.oldpos + t.c0 ∧ IsOff (s.oldpos + t.c0) ∧
      s2.new.length = s.new.length ∧ s2.cpf = s.cpf ∧ s2.epf = s.epf ∧
      s2.dpf = ⟨s.dpf.data.drop t.c0.toNat, s.dpf.damaged⟩ ∧ t.c0 ≤ s.dpf.data.length := by
  unfold addStage at h
  obtain ⟨sA, h, hadv⟩ := Res.bind_eq_next h
  obtain ⟨sd, hrd, hao⟩ := Res.bind_eq_next h
  obtain ⟨d1, d2, d3, e⟩ := readDiff_next h0 hrd
  subst sd
  obtain ⟨g1, g2, g3, g4, g5, g6⟩ := addOldFrom_frame B _ _ _ _ hao
  simp only at g1 g2 g3 g4 g5 g6
  obtain ⟨_, v2, e⟩ := advanceAdd_next (by rw [g2]; exact hn) (by rw [g1]; exact ho) hc hadv
  subst e
  rw [g1] at v2
  refine ⟨by simp only [g2], by simp only [g1], v2, ?_, by simp only [g3], by simp only [g5],
    by simp only [g4], d3⟩
  simp only [g6, List.length_append, List.length_take, List.length_drop]
  omega

theorem addStage_final (B : List UChar) (t : Ctrl) (s : LoopState) (h0 : 0 ≤ t.c0)
    (hn : 0 ≤ s.newpos) (hfit : s.newpos + t.c0 ≤ OFF_MAX) :
    SameOutside s.newpos (s.newpos + t.c0) (addStage B t s).final.new s.new := by
  unfold addStage
  apply Res.final_bind _ _ (fun st => SameOutside s.newpos (s.newpos + t.c0) st.new s.new)
  · apply Res.final_bind _ _ (fun st => SameOutside s.newpos (s.newpos + t.c0) st.new s.new)
    · exact readDiff_final t s h0
    · intro a ha hQ
      obtain ⟨_, _, _, e⟩ := readDiff_next h0 ha
      have hp : a.newpos = s.newpos := by rw [e]
      have := addOldFrom_final B t.c0.toNat 0 a (le_refl _) (by rw [hp]; exact hn)
        (by rw [hp, Int.toNat_of_nonneg h0]; omega)
      rw [hp, Int.toNat_of_nonneg h0] at this
      exact this.trans hQ (by omega) (by omega) (by omega) (by omega)
  · intro a _ hQ
    show SameOutside _ _ (advanceAdd t a).final.new s.new
    rw [advanceAdd_final]
    exact hQ

theorem copyStage_final (newsize : Int) (t : Ctrl) (s : LoopState) (h1 : 0 ≤ t.c1) :
    SameOutside s.newpos (s.newpos + t.c1) (copyStage newsize t s).final.new s.new := by
  unfold copyStage
  apply Res.final_bind _ _ (fun st => SameOutside s.newpos (s.newpos + t.c1) st.new s.new)
  · apply Res.final_bind _ _ (fun st => SameOutside s.newpos (s.newpos + t.c1) st.new s.new)
    · rw [checkFits_final]
      exact SameOutside.refl _ _ _
    · intro a ha _
      rw [checkFits_cpf ha]
      exact readExtra_final t s h1
  · intro a _ hQ
    show SameOutside _ _ (advanceCopy t a).final.new s.new
    rw [advanceCopy_final]
    exact hQ

theorem applyCtrl_final (B : List UChar) (newsize : Int) (t : Ctrl) (s : LoopState)
    (hsize : newsize ≤ OFF_MAX) (hw : WellFormed newsize s) (hc0 : IsOff t.c0) :
    SameOutside s.newpos (s.newpos + t.c0 + t.c1) (applyCtrl B newsize t s).final.new s.new := by
  obtain ⟨w0, w1, w2, w3⟩ := hw
  have hsz := hsize
  rw [OFF_MAX_eq] at hsz
  have hn : IsOff s.newpos := by rw [isOff_iff]; omega
  unfold applyCtrl
  apply Res.final_bind _ _
    (fun st => SameOutside s.newpos (s.newpos + t.c0 + t.c1) st.new s.new)
  · apply Res.final_bind _ _
      (fun st => SameOutside s.newpos (s.newpos + t.c0 + t.c1) st.new s.new)
    · apply Res.final_bind _ _
        (fun st => SameOutside s.newpos (s.newpos + t.c0 + t.c1) st.new s.new)
      · rw [sanityCheck_final]
        exact SameOutside.refl _ _ _
      · intro a _ hQ
        show SameOutside _ _ (checkFits newsize t.c0 a).final.new s.new
        rw [checkFits_final]
        exact hQ
    · intro a ha _
      obtain ⟨sb, hsan, hfit⟩ := Res.bind_eq_next ha
      obtain ⟨e, a0, _, a2, _⟩ := sanityCheck_next hsan
      subst sb
      obtain ⟨e, _, f2⟩ := checkFits_next hn hc0 hfit
      subst a
      exact (addStage_final B t s a0 w0 (by rw [OFF_MAX_eq]; omega)).mono (le_refl _)
        (by omega)
  · intro a ha hQ
    obtain ⟨sc, ha, hadd⟩ := Res.bind_eq_next ha
    obtain ⟨sb, hsan, hfit⟩ := Res.bind_eq_next ha
    obtain ⟨e, a0, _, a2, _⟩ := sanityCheck_next hsan
    subst sb
    obtain ⟨e, _, f2⟩ := checkFits_next hn hc0 hfit
    subst sc
    obtain ⟨p1, _⟩ := addStage_next a0 hn w2 hc0 hadd
    have := copyStage_final newsize t a a2
    rw [p1] at this
    exact this.trans hQ (by omega) (by omega) (by omega) (by omega)
theorem readCtrl_short_new (s : LoopState) (h : s.cpf.data.length < 24) :
    ∃ st, readCtrl s = .corrupt st ∧ st.new = s.new := by
  unfold readCtrl
  by_cases h0 : 8 ≤ s.cpf.data.length
  · rw [readCtrlOne_ok s h0]
    simp only [Res.bind]
    by_cases h1 : 16 ≤ s.cpf.data.length
    · rw [readCtrlOne_ok _ (by simp; omega)]
      simp only [Res.bind]
      rw [readCtrlOne_short _ (by simp; omega)]
      exact ⟨_, rfl, rfl⟩
    · rw [readCtrlOne_short _ (by simp; omega)]
      exact ⟨_, rfl, rfl⟩
  · rw [readCtrlOne_short _ (by omega)]
    exact ⟨_, rfl, rfl⟩

theorem iteration_final (B : List UChar) (newsize : Int) (s : LoopState)
    (hsize : newsize ≤ OFF_MAX) (hw : WellFormed newsize s) :
    (s.cpf.data.length < 24 → (iteration B newsize s).final.new = s.new) ∧
    SameOutside s.newpos
      (s.newpos + offtin (s.cpf.data.take 8) + offtin ((s.cpf.data.drop 8).take 8))
      (iteration B newsize s).final.new s.new := by
  by_cases h24 : 24 ≤ s.cpf.data.length
  · refine ⟨fun h => by omega, ?_⟩
    rw [iteration_eq_applyCtrl B newsize s h24]
    exact applyCtrl_final B newsize _ _ hsize hw (offtin_isOff _)
  · obtain ⟨st, hst, e⟩ := readCtrl_short_new s (by omega)
    have hi : iteration B newsize s = .corrupt st := by
      rw [iteration, hst, Res.bind_corrupt]
    rw [hi]
    refine ⟨fun _ => e, ?_⟩
    show SameOutside _ _ st.new s.new
    rw [e]
    exact SameOutside.refl _ _ _

theorem afterPasses_split (B : List UChar) (newsize : Int) (a : Nat) :
    ∀ (d : Nat) (s s2 : LoopState), afterPasses B newsize (a + d) s = some s2 →
      ∃ sa, afterPasses B newsize a s = some sa ∧ afterPasses B newsize d sa = some s2 := by
  induction a with
  | zero =>
    intro d s s2 h
    rw [Nat.zero_add] at h
    exact ⟨s, afterPasses_zero _ _ _, h⟩
  | succ a ih =>
    intro d s s2 h
    rw [show a + 1 + d = (a + d) + 1 by omega] at h
    obtain ⟨hlt, s1, hit, h1⟩ := afterPasses_succ_some h
    obtain ⟨sa, h2, h3⟩ := ih d s1 s2 h1
    exact ⟨sa, by rw [afterPasses_succ B newsize a s s1 hlt hit]; exact h2, h3⟩

theorem afterPasses_mono (B : List UChar) (newsize : Int) (hsize : newsize ≤ OFF_MAX)
    {a b : Nat} {s sa sb : LoopState} (hw : WellFormed newsize s) (hab : a ≤ b)
    (ha : afterPasses B newsize a s = some sa) (hb : afterPasses B newsize b s = some sb) :
    sa.newpos ≤ sb.newpos := by
  obtain ⟨d, rfl⟩ : ∃ d, b = a + d := ⟨b - a, by omega⟩
  obtain ⟨sa', h1, h2⟩ := afterPasses_split B newsize a d s sb hb
  rw [ha] at h1
  injection h1 with h1
  subst h1
  obtain ⟨hwa, _, _⟩ := afterPasses_wellFormed B newsize hsize a _ _ hw ha
  exact (afterPasses_wellFormed B newsize hsize d _ _ hwa h2).2.1

theorem afterPasses_below (B : List UChar) (newsize : Int) (hsize : newsize ≤ OFF_MAX) :
    ∀ (d : Nat) (s s2 : LoopState), WellFormed newsize s →
      afterPasses B newsize d s = some s2 →
      ∀ j : Nat, (j : Int) < s.newpos → s2.new.get? j = s.new.get? j := by
  intro d
  induction d with
  | zero =>
    intro s s2 _ h j _
    rw [afterPasses_zero] at h
    injection h with h
    rw [h]
  | succ d ih =>
    intro s s2 hw h j hj
    obtain ⟨hlt, s1, hit, h1⟩ := afterPasses_succ_some h
    obtain ⟨hw1, e, c0, c1⟩ := iteration_next_wellFormed hsize hw hit
    have hf := (iteration_final B newsize s hsize hw).2
    rw [hit] at hf
    rw [ih s1 s2 hw1 h1 j (by omega)]
    exact hf.2 j (Or.inl hj)

theorem afterPasses_cover (B : List UChar) (newsize : Int) :
    ∀ (n : Nat) (s s2 : LoopState), afterPasses B newsize n s = some s2 →
      ∀ j : Nat, s.newpos ≤ (j : Int) → (j : Int) < s2.newpos →
      ∃ k sk sk', k < n ∧ afterPasses B newsize k s = some sk ∧
        afterPasses B newsize (k + 1) s = some sk' ∧
        sk.newpos ≤ (j : Int) ∧ (j : Int) < sk'.newpos := by
  intro n
  induction n with
  | zero =>
    intro s s2 h j h1 h2
    rw [afterPasses_zero] at h
    injection h with h
    subst h
    omega
  | succ n ih =>
    intro s s2 h j h1 h2
    obtain ⟨sp, hp, _, _⟩ := afterPasses_last B newsize n s s2 h
    by_cases hj : (j : Int) < sp.newpos
    · obtain ⟨k, sk, sk', hk, r1, r2, r3, r4⟩ := ih s sp hp j h1 hj
      exact ⟨k, sk, sk', by omega, r1, r2, r3, r4⟩
    · exact ⟨n, sp, s2, by omega, hp, h, by omega, h2⟩

/-! ## Accepted triples and the number of passes -/

theorem accepted_triple_fits {B : List UChar} {newsize : Int} {cpf dpf epf : BzStream}
    {n : Nat} {s s2 s0 : LoopState} {ctrl : Ctrl} (h0 : 0 ≤ newsize)
    (hsize : newsize ≤ OFF_MAX)
    (hp : afterPasses B newsize n (initState newsize cpf dpf epf) = some s)
    (hrd : readCtrl s = .next (ctrl, s0)) (hit : iteration B newsize s = .next s2) :
    0 ≤ ctrl.c0 ∧ 0 ≤ ctrl.c1 ∧ s.newpos + ctrl.c0 + ctrl.c1 ≤ newsize ∧ 0 ≤ s.newpos := by
  obtain ⟨hw, _, _⟩ := afterPasses_wellFormed B newsize hsize n _ _
    (initState_wellFormed newsize cpf dpf epf h0) hp
  obtain ⟨hw2, e, c0, c1⟩ := iteration_next_wellFormed hsize hw hit
  obtain ⟨_, et, _⟩ := readCtrl_next hrd
  subst et
  simp only
  have := hw2.2.1
  have := hw.1
  omega

theorem afterPasses_cpf (B : List UChar) (newsize : Int) :
    ∀ (n : Nat) (s s2 : LoopState), afterPasses B newsize n s = some s2 →
      s2.cpf.data.length + 24 * n = s.cpf.data.length := by
  intro n
  induction n with
  | zero =>
    intro s s2 h
    rw [afterPasses_zero] at h
    injection h with h
    subst h
    omega
  | succ n ih =>
    intro s s2 h
    obtain ⟨_, s1, hit, h1⟩ := afterPasses_succ_some h
    have := ih s1 s2 h1
    have := iteration_cpf hit
    omega

theorem afterPasses_bound (B : List UChar) (newsize : Int) (n : Nat) (s s2 : LoopState)
    (h : afterPasses B newsize n s = some s2) : n ≤ s.cpf.data.length / 24 := by
  have := afterPasses_cpf B newsize n s s2 h
  omega

theorem loop_ends (B : List UChar) (newsize : Int) (s : LoopState) :
    ∃ st, loop B newsize s = .done st ∨ loop B newsize s = .corrupt st ∨
      loop B newsize s = .outOfBounds st := by
  cases h : loop B newsize s with
  | done st => exact ⟨st, Or.inl rfl⟩
  | corrupt st => exact ⟨st, Or.inr (Or.inl rfl)⟩
  | outOfBounds st => exact ⟨st, Or.inr (Or.inr rfl)⟩
  | outOfFuel => exact absurd h (loop_fuel_enough _ _ _)

/-! ## Runs of `main` and mappings of length zero -/

theorem streamOffsets_some {S : Int} {patch : List UChar} {h : Header}
    (hacc : readHeader S patch = some h) :
    streamOffsets h = some (32, 32 + h.bzctrllen, 32 + h.bzctrllen + h.bzdatalen) := by
  obtain ⟨a, b, _, c, d, _, _⟩ := readHeader_some hacc
  rw [OFF_MAX_eq] at c d
  unfold streamOffsets
  simp only [HEADER_SIZE]
  rw [add_off_t_ok (by rw [isOff_iff]; omega) (by rw [isOff_iff]; omega)
    (by rw [isOff_iff]; omega)]
  simp only
  rw [add_off_t_ok (by rw [isOff_iff]; omega) (by rw [isOff_iff]; omega)
    (by rw [isOff_iff]; omega)]

theorem loop_zero_target (B : List UChar) (cpf dpf epf : BzStream) :
    loop B 0 (initState 0 cpf dpf epf) = .done (initState 0 cpf dpf epf) :=
  loopFuel_done B 0 _ _ (by simp [initState])

theorem main_zero_target (S : Int) (codec : List UChar → BzStream)
    (dest0 : Option (List UChar)) (oldfile patch : List UChar) (h : Header)
    (hacc : readHeader S patch = some h) (hz : h.newsize = 0) :
    main S codec 4 dest0 oldfile patch = ⟨.ioError, none⟩ := by
  have hm : main S codec 4 dest0 oldfile patch =
      runPatch codec ⟨true, true, true, some []⟩ oldfile patch h := by
    unfold main
    simp only [ne_eq, not_true_eq_false, if_false, hacc]
  rw [hm]
  unfold runPatch
  rw [streamOffsets_some hacc]
  simp only
  rcases runAt_cases codec oldfile patch h 32 (32 + h.bzctrllen)
    (32 + h.bzctrllen + h.bzdatalen) (by omega) with ⟨r, _⟩ | ⟨s, hl, _⟩ | ⟨s, hl, _⟩ |
    ⟨_, _, _, hpos, _⟩
  · exact r
  · rw [hz, loop_zero_target] at hl
    cases hl
  · rw [hz, loop_zero_target] at hl
    cases hl
  · omega

theorem main_empty_base (S : Int) (codec : List UChar → BzStream)
    (dest0 : Option (List UChar)) (patch : List UChar) (h : Header)
    (hacc : readHeader S patch = some h) :
    main S codec 4 dest0 [] patch = ⟨.ioError, none⟩ := by
  have hm : main S codec 4 dest0 [] patch =
      runPatch codec ⟨true, true, true, some []⟩ [] patch h := by
    unfold main
    simp only [ne_eq, not_true_eq_false, if_false, hacc]
  rw [hm]
  unfold runPatch
  rw [streamOffsets_some hacc]
  rfl

theorem main_exit_all_or_nothing (S : Int) (codec : List UChar → BzStream) (argc : Nat)
    (dest0 : Option (List UChar)) (oldfile patch : List UChar) :
    (argc ≠ 4 → main S codec argc dest0 oldfile patch = ⟨.usage, dest0⟩) ∧
    ((main S codec 4 dest0 oldfile patch).exit.code ≠ none →
      ((main S codec 4 dest0 oldfile patch).exit ≠ .success ∧
        (main S codec 4 dest0 oldfile patch).artifact = none) ∨
      ((main S codec 4 dest0 oldfile patch).exit = .success ∧
        ∃ h o0 o1 o2 s, readHeader S patch = some h ∧
          streamOffsets h = some (o0, o1, o2) ∧
          loop oldfile h.newsize (initState h.newsize (codec (patch.drop o0.toNat))
            (codec (patch.drop o1.toNat)) (codec (patch.drop o2.toNat))) = .done s ∧
          s.newpos = h.newsize ∧ (s.new.length : Int) = h.newsize ∧
          (main S codec 4 dest0 oldfile patch).artifact = some s.new)) := by
  constructor
  · intro hargc
    unfold main
    rw [if_pos hargc]
    rfl
  · intro hexit
    rcases main_cases S codec dest0 oldfile patch with hr | ⟨h, o0, o1, o2, hh, ho, hr⟩
    · left
      rw [hr]
      exact ⟨fun h => (by cases h), rfl⟩
    · rcases hr with ⟨hr, _⟩ | ⟨_, _, hr⟩ | ⟨_, _, hr⟩ | ⟨s, hl, _, hpos, hr⟩
      · left
        rw [hr]
        exact ⟨fun h => (by cases h), rfl⟩
      · left
        rw [hr]
        exact ⟨fun h => (by cases h), rfl⟩
      · rw [hr] at hexit
        exact absurd rfl hexit
      · right
        obtain ⟨_, _, _, _, _, _, hsize⟩ := readHeader_some hh
        obtain ⟨hw, he, _⟩ := loop_done_exact (le_of_lt hpos) hsize hl
        rw [hr]
        exact ⟨rfl, h, o0, o1, o2, s, hh, ho, hl, he, hw.2.2.2, rfl⟩

/-! ## Base positions below zero and reads that come back short -/

theorem addOldFrom_below_zero (B : List UChar) (k : Nat) (i : Int) (s : LoopState)
    (ho : IsOff s.oldpos) (hi : IsOff i) (hmin : OFF_MIN ≤ s.oldpos + i)
    (hneg : s.oldpos + i < 0) :
    addOldFrom B (k + 1) i s = .outOfBounds s := by
  rw [OFF_MIN_eq] at hmin
  have hsum : IsOff (s.oldpos + i) := by rw [isOff_iff]; omega
  have hg : getByte B (s.oldpos + i) = none := by
    unfold getByte
    rw [if_neg (by omega)]
  unfold addOldFrom
  rw [add_off_t_ok ho hi hsum, wrap_off_t_of_isOff hsum, hg]
  simp only
  rw [if_pos (by omega)]

theorem readDiff_failed (t : Ctrl) (s : LoopState) (h0 : 0 ≤ s.newpos)
    (h1 : s.newpos ≤ s.new.length) (h2 : s.newpos + t.c0 ≤ s.new.length)
    (hf : readFailed (BZ2_bzRead s.dpf t.c0) t.c0 = true) :
    ∃ st, readDiff t s = .corrupt st := by
  have hl : ((BZ2_bzRead s.dpf t.c0).bytes.length : Int) ≤ max t.c0 0 := by
    rcases le_or_lt 0 t.c0 with hc | hc
    · have := bzRead_length_le s.dpf t.c0 hc
      omega
    · have : (BZ2_bzRead s.dpf t.c0).bytes = [] := by simp [BZ2_bzRead, hc]
      rw [this]
      simp
  have hst : ∃ new1, storeBytes s.new s.newpos (BZ2_bzRead s.dpf t.c0).bytes = some new1 := by
    unfold storeBytes
    rw [if_pos ⟨h0, by omega⟩]
    exact ⟨_, rfl⟩
  obtain ⟨new1, hst⟩ := hst
  unfold readDiff
  simp only [hst, hf, if_true]
  exact ⟨_, rfl⟩

theorem readExtra_failed (t : Ctrl) (s : LoopState) (h0 : 0 ≤ s.newpos)
    (h1 : s.newpos ≤ s.new.length) (h2 : s.newpos + t.c1 ≤ s.new.length)
    (hf : readFailed (BZ2_bzRead s.epf t.c1) t.c1 = true) :
    ∃ st, readExtra t s = .corrupt st := by
  have hl : ((BZ2_bzRead s.epf t.c1).bytes.length : Int) ≤ max t.c1 0 := by
    rcases le_or_lt 0 t.c1 with hc | hc
    · have := bzRead_length_le s.epf t.c1 hc
      omega
    · have : (BZ2_bzRead s.epf t.c1).bytes = [] := by simp [BZ2_bzRead, hc]
      rw [this]
      simp
  have hst : ∃ new1, storeBytes s.new s.newpos (BZ2_bzRead s.epf t.c1).bytes = some new1 := by
    unfold storeBytes
    rw [if_pos ⟨h0, by omega⟩]
    exact ⟨_, rfl⟩
  obtain ⟨new1, hst⟩ := hst
  unfold readExtra
  simp only [hst, hf, if_true]
  exact ⟨_, rfl⟩

theorem iteration_short_stream (B : List UChar) (newsize : Int) (s s2 : LoopState)
    (h0 : IsOff s.newpos) (h1 : IsOff s.oldpos)
    (hshort : (s.dpf.data.length : Int) < offtin (s.cpf.data.take 8) ∨
      (s.epf.data.length : Int) < offtin ((s.cpf.data.drop 8).take 8)) :
    iteration B newsize s ≠ .next s2 := by
  intro h
  have h24 := iteration_next_len h
  rw [iteration_eq_applyCtrl B newsize s h24] at h
  obtain ⟨_, _, _, _, _, _, _, a7, a8, _⟩ :=
    applyCtrl_next (by exact h0) (by exact h1) (offtin_isOff _) (offtin_isOff _)
      (offtin_isOff _) h
  simp only at a7 a8
  omega

theorem applyCtrl_diff_short (B : List UChar) (newsize : Int) (t : Ctrl) (s : LoopState)
    (hsize : newsize ≤ OFF_MAX) (hw : WellFormed newsize s) (hc0 : IsOff t.c0)
    (hshort : (s.dpf.data.length : Int) < t.c0) :
    ∃ st, applyCtrl B newsize t s = .corrupt st := by
  obtain ⟨w0, w1, _, w3⟩ := hw
  have hsz := hsize
  rw [OFF_MAX_eq] at hsz
  have hn : IsOff s.newpos := by rw [isOff_iff]; omega
  by_cases hs : t.c0 < 0 ∨ t.c0 > INT_MAX ∨ t.c1 < 0 ∨ t.c1 > INT_MAX
  · exact ⟨s, applyCtrl_insane B newsize t s hs⟩
  · by_cases hov : newsize < s.newpos + t.c0
    · exact ⟨s, applyCtrl_add_overshoot B newsize t s hn hc0 hov⟩
    · have hs' : sanityFails t = false := by
        rw [Bool.eq_false_iff, ne_eq, sanityFails_iff]; exact hs
      have h1 : sanityCheck t s = .next s := by simp [sanityCheck, hs']
      have h2 : checkFits newsize t.c0 s = .next s :=
        checkFits_ok newsize t.c0 s w0 (by omega) (by omega) hsize
      obtain ⟨st, h3⟩ := readDiff_failed t s w0 (by omega) (by omega)
        ((readFailed_iff s.dpf t.c0).2 (Or.inr hshort))
      refine ⟨st, ?_⟩
      unfold applyCtrl addStage
      rw [h1, Res.bind_next, h2, Res.bind_next, h3]
      rfl

theorem copyStage_extra_short (newsize : Int) (t : Ctrl) (s : LoopState)
    (hsize : newsize ≤ OFF_MAX) (h0 : 0 ≤ s.newpos) (h1 : s.newpos ≤ newsize)
    (hlen : (s.new.length : Int) = newsize) (hc : 0 ≤ t.c1) (hc1 : IsOff t.c1)
    (hshort : (s.epf.data.length : Int) < t.c1) :
    ∃ st, copyStage newsize t s = .corrupt st := by
  have hsz := hsize
  rw [OFF_MAX_eq] at hsz
  have hn : IsOff s.newpos := by rw [isOff_iff]; omega
  by_cases hov : newsize < s.newpos + t.c1
  · refine ⟨s, ?_⟩
    unfold copyStage
    rw [checkFits_fail newsize t.c1 s hn hc1 hov]
    rfl
  · have h2 : checkFits newsize t.c1 s = .next s :=
      checkFits_ok newsize t.c1 s h0 hc (by omega) hsize
    obtain ⟨st, h3⟩ := readExtra_failed t s h0 (by omega) (by omega)
      ((readFailed_iff s.epf t.c1).2 (Or.inr hshort))
    refine ⟨st, ?_⟩
    unfold copyStage
    rw [h2, Res.bind_next, h3]
    rfl

/-! ## What a completed pass leaves in the target -/

theorem split_four (l : List UChar) (a b c : Nat) :
    l = l.take a ++ (l.drop a).take b ++ (l.drop (a + b)).take c ++ l.drop (a + b + c) := by
  have h1 : (l.drop a).drop b = l.drop (a + b) := by
    rw [List.drop_drop]
  have h2 : (l.drop (a + b)).drop c = l.drop (a + b + c) := by
    rw [List.drop_drop]
  rw [List.append_assoc, List.append_assoc, ← h2, List.take_append_drop, ← h1,
    List.take_append_drop, List.take_append_drop]

theorem iteration_next_content {B : List UChar} {newsize : Int} {s s2 : LoopState}
    (hsize : newsize ≤ OFF_MAX) (hw : WellFormed newsize s)
    (h : iteration B newsize s = .next s2) :
    (offtin (s.cpf.data.take 8)).toNat ≤ s.dpf.data.length ∧
    (offtin ((s.cpf.data.drop 8).take 8)).toNat ≤ s.epf.data.length ∧
    s2.new = s.new.take s.newpos.toNat ++
      (addRegion B s.oldpos (s.dpf.data.take (offtin (s.cpf.data.take 8)).toNat) ++
        s.epf.data.take (offtin ((s.cpf.data.drop 8).take 8)).toNat) ++
      s.new.drop (s.newpos + offtin (s.cpf.data.take 8) +
        offtin ((s.cpf.data.drop 8).take 8)).toNat := by
  obtain ⟨w0, w1, w2, w3⟩ := hw
  have h24 := iteration_next_len h
  rw [iteration_eq_applyCtrl B newsize s h24] at h
  have hsz := hsize
  rw [OFF_MAX_eq] at hsz
  have hn : IsOff s.newpos := by rw [isOff_iff]; omega
  obtain ⟨a0, a1, a2, a3, a4, a5, a6, a7, a8, a9, a10, a11, sA, hA, _, _⟩ :=
    applyCtrl_next (by exact hn) (by exact w2) (offtin_isOff _) (offtin_isOff _)
      (offtin_isOff _) h
  simp only at a0 a1 a2 a3 a4 a5 a6 a7 a8 a9 a10 a11 hA
  generalize hc0 : offtin (s.cpf.data.take 8) = c0 at *
  generalize hc1 : offtin ((s.cpf.data.drop 8).take 8) = c1 at *
  generalize hc2 : offtin ((s.cpf.data.drop 16).take 8) = c2 at *
  have hneg : 0 < c0.toNat → 0 ≤ s.oldpos := by
    intro hpos
    by_contra hc
    obtain ⟨k, hk⟩ : ∃ k, c0.toNat = k + 1 := ⟨c0.toNat - 1, by omega⟩
    unfold addOld at hA
    simp only at hA
    rw [hk, addOldFrom_below_zero B k 0 _ (by exact w2) (by rw [isOff_iff]; omega)
      (by simp only; have := w2.1; omega) (by simp only; omega)] at hA
    cases hA
  have e0 : c0 = (c0.toNat : Int) := (Int.toNat_of_nonneg a0).symm
  have e1 : c1 = (c1.toNat : Int) := (Int.toNat_of_nonneg a2).symm
  have hlen : s.newpos.toNat + c0.toNat + c1.toNat ≤ s.new.length := by omega
  have hok := applyCtrl_ok B newsize
    ({ s with cpf := ⟨s.cpf.data.drop 24, s.cpf.damaged⟩ } : LoopState) ⟨c0, c1, c2⟩
    (s.new.take s.newpos.toNat) ((s.new.drop s.newpos.toNat).take c0.toNat)
    ((s.new.drop (s.newpos.toNat + c0.toNat)).take c1.toNat)
    (s.new.drop (s.newpos.toNat + c0.toNat + c1.toNat)) c0.toNat c1.toNat e0 e1
    (by omega) (by omega) (by rw [← hc2]; exact offtin_isOff _)
    (split_four s.new s.newpos.toNat c0.toNat c1.toNat)
    (by simp only [List.length_take]; omega)
    (by simp only [List.length_take, List.length_drop]; omega)
    (by simp only [List.length_take, List.length_drop]; omega)
    (by simp only; omega) hsize (by simp only; omega) (by simp only; omega) w2
    (by simp only; omega) (by simp only; rw [OFF_MAX_eq]; have := a9.2; rw [OFF_MAX_eq] at this; omega)
    (by simp only; rw [← e0]; exact a10)
  rw [hok] at h
  injection h with h
  refine ⟨by omega, by omega, ?_⟩
  rw [← h]
  simp only [List.append_assoc]
  congr 3
  congr 1
  omega

/-! ## The loop on an empty base -/

theorem addRegion_empty_base (ds : List UChar) : ∀ p : Int, addRegion [] p ds = ds := by
  induction ds with
  | nil => intro p; rfl
  | cons d ds ih =>
    intro p
    have hg : getByte [] p = none := by
      unfold getByte
      split_ifs <;> simp
    simp only [addRegion, hg, combine, ih]

theorem empty_base_single_triple (n : Nat) (ctrl diff extra : List UChar) (dc dd de : Bool)
    (hn : (n : Int) ≤ INT_MAX) (henc : Encodes ctrl [⟨n, 0, 0⟩]) (hd : n ≤ diff.length) :
    ∃ s, loop [] n (initState n ⟨ctrl, dc⟩ ⟨diff, dd⟩ ⟨extra, de⟩) = .done s ∧
      s.new = diff.take n := by
  have hlen := encodes_length henc
  have hI : INT_MAX = 2147483647 := rfl
  have hT : specTarget [] 0 [⟨n, 0, 0⟩] diff extra = some (diff.take n) := by
    simp [specTarget, addRegion_empty_base, hd]
  have hadm : Admissible 0 (n : Int) [⟨n, 0, 0⟩] := by
    show (n : Int) ≤ 0 ∨ (0 ≤ (n : Int) ∧ (n : Int) ≤ INT_MAX ∧ 0 ≤ (0 : Int) ∧
      (0 : Int) ≤ INT_MAX ∧ (0 < (n : Int) → 0 ≤ (0 : Int)) ∧ 0 + (n : Int) ≤ OFF_MAX ∧
      OFF_MIN ≤ 0 + (n : Int) + 0 ∧ 0 + (n : Int) + 0 ≤ OFF_MAX ∧ True)
    rw [OFF_MAX_eq, OFF_MIN_eq, hI]
    rw [hI] at hn
    right
    refine ⟨by omega, by omega, by omega, by omega, fun _ => le_refl _, by omega, by omega,
      by omega, trivial⟩
  have h := loopFuel_roundtrip [] n (by rw [OFF_MAX_eq]; omega) [⟨n, 0, 0⟩]
    (ctrl.length / 24 + 1) (initState n ⟨ctrl, dc⟩ ⟨diff, dd⟩ ⟨extra, de⟩) (diff.take n) []
    (List.replicate n 0) (by simp only [List.length_singleton] at hlen ⊢; omega) henc
    (by simpa [initState] using hadm) hT (by rw [isOff_iff]; simp [initState])
    (by simp [initState]) (by simp [initState]) (by simp [hd]) (by simp [initState, hd])
  simpa [loop, initState] using h

/-! ## The claims -/

/-- C1 (amended): for every base `B`, every target `T` whose length fits an `off_t`, and every
sequence of control triples `ts` encoded by the control stream, with decompressed diff and
extra bytes, such that (1) for every triple applied before the target is complete, `add_len`
and `copy_len` lie in `[0, INT_MAX]`, a non-empty add region starts at a base position that is
not negative, and the base position stays an `off_t` after each of its two advances
(`Admissible`), and (2) `T` is the concatenation, over the triples in order, of the add region
(diff byte plus base byte at the running base position, modulo 256, and the raw diff byte
where that position is at or beyond the end of the base) followed by `copy_len` extra bytes:
the reconstruction loop with `target_size = |T|` ends normally and the target buffer equals
`T`. -/
theorem roundtrip_admissible (B ctrl diff extra T : List UChar) (ts : List Ctrl)
    (dc dd de : Bool) (hsize : (T.length : Int) ≤ OFF_MAX) (henc : Encodes ctrl ts)
    (hadm : Admissible 0 T.length ts) (hT : specTarget B 0 ts diff extra = some T) :
    ∃ s, loop B T.length (initState T.length ⟨ctrl, dc⟩ ⟨diff, dd⟩ ⟨extra, de⟩) = .done s ∧
      s.new = T := by
  have hlen := encodes_length henc
  have h := loopFuel_roundtrip B T.length hsize ts (ctrl.length / 24 + 1)
    (initState T.length ⟨ctrl, dc⟩ ⟨diff, dd⟩ ⟨extra, de⟩) T [] (List.replicate T.length 0)
    (by omega) henc (by simpa [initState] using hadm) hT (by rw [isOff_iff]; simp [initState])
    (by simp [initState])
    (by simp [initState]) (by simp) (by simp [initState])
  simpa [loop, initState] using h

theorem roundtrip_admissible_witness :
    ∃ s, loop [250, 1, 2] ([4, 2, 77, 252, 4] : List UChar).length
        (initState ([4, 2, 77, 252, 4] : List UChar).length
          ⟨[2, 0, 0, 0, 0, 0, 0, 0, 1, 0, 0, 0, 0, 0, 0, 0, 2, 0, 0, 0, 0, 0, 0, 128,
            2, 0, 0, 0, 0, 0, 0, 0, 0, 0, 0, 0, 0, 0, 0, 0, 0, 0, 0, 0, 0, 0, 0, 0], false⟩
          ⟨[10, 1, 2, 3], false⟩ ⟨[77], false⟩) = .done s ∧
      s.new = [4, 2, 77, 252, 4] :=
  roundtrip_admissible [250, 1, 2] _ [10, 1, 2, 3] [77] [4, 2, 77, 252, 4]
    [⟨2, 1, -2⟩, ⟨2, 0, 0⟩] false false false (by decide) (by decide) (by decide) (by decide)

/-- C1 as stated fails: base `[7]`, target `[12]` of size 1, the single triple
`(1, 0, 2^63 - 1)`, diff `[5]`, extra empty.  The target is the concatenation described
(`5 + 7 = 12`), yet the loop ends with "Corrupt patch": the last statement of the pass,
`oldpos = add_off_t(oldpos, ctrl[2])`, overflows. -/
theorem roundtrip_counterexample :
    Encodes [1, 0, 0, 0, 0, 0, 0, 0, 0, 0, 0, 0, 0, 0, 0, 0,
        255, 255, 255, 255, 255, 255, 255, 127] [⟨1, 0, 9223372036854775807⟩] ∧
    specTarget [7] 0 [⟨1, 0, 9223372036854775807⟩] [5] [] = some [12] ∧
    loop [7] 1 (initState 1
        ⟨[1, 0, 0, 0, 0, 0, 0, 0, 0, 0, 0, 0, 0, 0, 0, 0,
          255, 255, 255, 255, 255, 255, 255, 127], false⟩ ⟨[5], false⟩ ⟨[], false⟩) =
      .corrupt ⟨1, 1, [12], ⟨[], false⟩, ⟨[], false⟩, ⟨[], false⟩⟩ := by
  decide

/-- C2: for all signed 64-bit offsets `a` and `b`, `add_off_t a b` is the exact sum `a + b`
when that sum lies in `[OFF_MIN, OFF_MAX]` and is the "Corrupt patch" failure otherwise, so it
fails exactly on overflow or underflow and never returns a wrapped value; this holds for the
portable branch and for the branch built on `__builtin_add_overflow`. -/
theorem add_off_t_checked_sum (a b : Int) (ha : OFF_MIN ≤ a ∧ a ≤ OFF_MAX)
    (hb : OFF_MIN ≤ b ∧ b ≤ OFF_MAX) :
    (OFF_MIN ≤ a + b ∧ a + b ≤ OFF_MAX → add_off_t a b = some (a + b)) ∧
    (add_off_t a b = none ↔ a + b < OFF_MIN ∨ OFF_MAX < a + b) ∧
    (∀ r, add_off_t a b = some r → r = a + b) ∧
    add_off_t_builtin a b = add_off_t a b := by
  have h1 := add_off_t_spec a b ha hb
  have h2 := add_off_t_builtin_spec a b
  rw [h2, h1]
  unfold IsOff
  refine ⟨fun h => by simp [h], ?_, ?_, rfl⟩
  · split_ifs with h
    · simp; omega
    · simp; omega
  · intro r
    split_ifs with h
    · intro e; exact (Option.some.inj e).symm
    · intro e; cases e

/-- The sum `(OFF_MAX - 1) + 1` is returned exactly, and `OFF_MAX + 1` is refused. -/
theorem add_off_t_checked_sum_witness :
    add_off_t (OFF_MAX - 1) 1 = some OFF_MAX ∧ add_off_t OFF_MAX 1 = none :=
  ⟨(add_off_t_checked_sum (OFF_MAX - 1) 1 (by decide) (by decide)).1 (by decide),
   (add_off_t_checked_sum OFF_MAX 1 (by decide) (by decide)).2.1.2 (by decide)⟩

/-- C3: `offtin` decodes every 8-byte buffer as a sign-magnitude integer: the result is
`s * (b0 + b1*256 + ... + b6*256^6 + (b7 mod 128)*256^7)` with `s = -1` when the high bit of
`b7` is set and `s = 1` otherwise; it lies in `[-(2^63 - 1), 2^63 - 1]`; no operation of the
computation overflows a signed 64-bit integer (the checked computation yields the same value);
and this is not two's complement: the bytes `01 00 00 00 00 00 00 80` decode to `-1`. -/
theorem offtin_sign_magnitude (b0 b1 b2 b3 b4 b5 b6 b7 : UChar) :
    offtin [b0, b1, b2, b3, b4, b5, b6, b7] =
      (if 128 ≤ b7.val then -1 else 1) *
        ((b0.val : Int) + b1.val * 256 + b2.val * 256 ^ 2 + b3.val * 256 ^ 3 + b4.val * 256 ^ 4 +
          b5.val * 256 ^ 5 + b6.val * 256 ^ 6 + (b7.val % 128 : Nat) * 256 ^ 7) ∧
    -(2 ^ 63 - 1) ≤ offtin [b0, b1, b2, b3, b4, b5, b6, b7] ∧
    offtin [b0, b1, b2, b3, b4, b5, b6, b7] ≤ 2 ^ 63 - 1 ∧
    offtin_checked [b0, b1, b2, b3, b4, b5, b6, b7] =
      some (offtin [b0, b1, b2, b3, b4, b5, b6, b7]) ∧
    offtin [1, 0, 0, 0, 0, 0, 0, 128] = -1 := by
  refine ⟨offtin_eq .., (offtin_range _).1, (offtin_range _).2, ?_, by decide⟩
  rw [offtin_checked_eq, offtin_eq]

/-- C4: for every 32-byte header with the correct magic, with `c`, `d`, `t` the decoded
`ctrl_length`, `diff_length`, `target_size`: the condition of lines 205-207 evaluates without
overflow in any subexpression, and it rejects exactly when `c < 0`, `d < 0`, `t < 0`,
`c + 32 > OFF_MAX`, `c + d + 32 > OFF_MAX` or `t > SSIZE_MAX`.  When it rejects, `main` ends
with "Corrupt patch" and no destination, whatever follows the header in the patch file,
whatever the codec (no reader is consulted) and whatever the base file; otherwise the header
is accepted and `main` goes on with the three lengths. -/
theorem header_validation (SSIZE_MAX : Int) (header rest : List UChar)
    (hlen : header.length = 32) (hmagic : header.take 8 = MAGIC) :
    let c := offtin (header.drop 8)
    let d := offtin (header.drop 16)
    let t := offtin (header.drop 24)
    let bad := c < 0 ∨ d < 0 ∨ t < 0 ∨ c + 32 > OFF_MAX ∨ c + d + 32 > OFF_MAX ∨ t > SSIZE_MAX
    headerRejected SSIZE_MAX c d t = some (decide bad) ∧
    (bad → ∀ codec dest0 oldfile,
      main SSIZE_MAX codec 4 dest0 oldfile (header ++ rest) = ⟨.corruptPatch, none⟩) ∧
    (¬ bad → readHeader SSIZE_MAX (header ++ rest) = some ⟨c, d, t⟩ ∧
      ∀ codec dest0 oldfile, main SSIZE_MAX codec 4 dest0 oldfile (header ++ rest) =
        runPatch codec ⟨true, true, true, some []⟩ oldfile (header ++ rest) ⟨c, d, t⟩) := by
  intro c d t bad
  have hr := readHeader_append SSIZE_MAX header rest hlen hmagic
  refine ⟨headerRejected_eq _ _ _ _ (offtin_isOff _) (offtin_isOff _), ?_, ?_⟩
  · intro hb codec dest0 oldfile
    rw [if_pos hb] at hr
    simp [main, hr, exitWith, exit_cleanup]
  · intro hb
    rw [if_neg hb] at hr
    refine ⟨hr, ?_⟩
    intro codec dest0 oldfile
    simp [main, hr]

theorem header_validation_witness :
    readHeader 9223372036854775807
      ([66, 83, 68, 73, 70, 70, 52, 48, 48, 0, 0, 0, 0, 0, 0, 0,
        1, 0, 0, 0, 0, 0, 0, 0, 2, 0, 0, 0, 0, 0, 0, 0] ++ [0, 0, 0]) = some ⟨48, 1, 2⟩ :=
  ((header_validation 9223372036854775807
      [66, 83, 68, 73, 70, 70, 52, 48, 48, 0, 0, 0, 0, 0, 0, 0,
        1, 0, 0, 0, 0, 0, 0, 0, 2, 0, 0, 0, 0, 0, 0, 0] [0, 0, 0] (by decide) (by decide)).2.2
    (by decide)).1

/-- C5: for every patch file whose first 8 bytes are not the tag `BSDIFF40` (a file shorter
than 8 bytes included), whatever the remaining bytes, the base file and the codec are, the run
ends with "Corrupt patch", exit status 1, and no destination is left on disk. -/
theorem bad_magic (SSIZE_MAX : Int) (codec : List UChar → BzStream) (dest0 : Option (List UChar))
    (oldfile patch : List UChar) (h : patch.take 8 ≠ MAGIC) :
    main SSIZE_MAX codec 4 dest0 oldfile patch = ⟨.corruptPatch, none⟩ ∧
    (main SSIZE_MAX codec 4 dest0 oldfile patch).exit.code = some 1 := by
  have hr : readHeader SSIZE_MAX patch = none := by
    unfold readHeader
    simp only
    split_ifs with h1 h2
    · rfl
    · rfl
    · exfalso
      apply h
      rw [List.take_take] at h2
      simpa using h2
  have : main SSIZE_MAX codec 4 dest0 oldfile patch = ⟨.corruptPatch, none⟩ := by
    simp [main, hr, exitWith, exit_cleanup]
  rw [this]
  exact ⟨rfl, rfl⟩

theorem bad_magic_witness :
    main 9223372036854775807 storedCodec 4 none [7] [66, 83, 68, 73, 70, 70, 52, 49, 0] =
        ⟨.corruptPatch, none⟩ ∧
      (main 9223372036854775807 storedCodec 4 none [7]
        [66, 83, 68, 73, 70, 70, 52, 49, 0]).exit.code = some 1 :=
  bad_magic 9223372036854775807 storedCodec none [7] [66, 83, 68, 73, 70, 70, 52, 49, 0]
    (by decide)

/-- C6: for every header that passed validation the three readers are opened at the offsets
`32`, `32 + ctrl_length` and `32 + ctrl_length + diff_length`, exact integers, and neither of
the two `add_off_t` calls that compute them fails. -/
theorem stream_offsets (SSIZE_MAX : Int) (patch : List UChar) (h : Header)
    (hacc : readHeader SSIZE_MAX patch = some h) :
    streamOffsets h = some (32, 32 + h.bzctrllen, 32 + h.bzctrllen + h.bzdatalen) ∧
    ∀ codec p oldfile, runPatch codec p oldfile patch h =
      runAt codec p oldfile patch h 32 (32 + h.bzctrllen) (32 + h.bzctrllen + h.bzdatalen) := by
  obtain ⟨h1, h2, h3, h4, h5, h6, h7⟩ := readHeader_some hacc
  rw [OFF_MAX_eq] at h4 h5
  have e1 : add_off_t 32 h.bzctrllen = some (32 + h.bzctrllen) := by
    rw [add_off_t_spec]
    · simp [IsOff, OFF_MAX_eq, OFF_MIN_eq]; omega
    · simp [IsOff, OFF_MAX_eq, OFF_MIN_eq]
    · simp [IsOff, OFF_MAX_eq, OFF_MIN_eq]; omega
  have e2 : add_off_t (32 + h.bzctrllen) h.bzdatalen = some (32 + h.bzctrllen + h.bzdatalen) := by
    rw [add_off_t_spec]
    · simp [IsOff, OFF_MAX_eq, OFF_MIN_eq]; omega
    · simp [IsOff, OFF_MAX_eq, OFF_MIN_eq]; omega
    · simp [IsOff, OFF_MAX_eq, OFF_MIN_eq]; omega
  have e : streamOffsets h = some (32, 32 + h.bzctrllen, 32 + h.bzctrllen + h.bzdatalen) := by
    simp [streamOffsets, HEADER_SIZE, e1, e2]
  refine ⟨e, ?_⟩
  intro codec p oldfile
  simp [runPatch, e]

theorem stream_offsets_witness :
    streamOffsets ⟨48, 1, 2⟩ = some (32, 80, 81) :=
  (stream_offsets 9223372036854775807
    [66, 83, 68, 73, 70, 70, 52, 48, 48, 0, 0, 0, 0, 0, 0, 0,
      1, 0, 0, 0, 0, 0, 0, 0, 2, 0, 0, 0, 0, 0, 0, 0] ⟨48, 1, 2⟩ (by decide)).1

/-- C7: in every pass of the loop, with `r0`, `r1`, `r2` the three 8-byte control reads and
`ctrl` the triple they decode to: if one of the reads yields fewer than 8 bytes the pass ends
with "Corrupt patch"; if `add_len < 0`, `add_len > INT_MAX`, `copy_len < 0` or
`copy_len > INT_MAX` the pass ends with "Corrupt patch"; and the sanity check is a condition
on `add_len` and `copy_len` alone, so that no `seek_delta`, of whatever sign, is rejected by
it. -/
theorem control_triple_validation (old : List UChar) (newsize : Int) (s : LoopState) :
    let r0 := BZ2_bzRead s.cpf 8
    let r1 := BZ2_bzRead r0.rest 8
    let r2 := BZ2_bzRead r1.rest 8
    let ctrl : Ctrl := ⟨offtin r0.bytes, offtin r1.bytes, offtin r2.bytes⟩
    ((r0.lenread < 8 ∨ r1.lenread < 8 ∨ r2.lenread < 8) →
      ∃ st, iteration old newsize s = .corrupt st) ∧
    ((ctrl.c0 < 0 ∨ ctrl.c0 > INT_MAX ∨ ctrl.c1 < 0 ∨ ctrl.c1 > INT_MAX) →
      ∃ st, iteration old newsize s = .corrupt st) ∧
    (∀ x y z : Int, sanityFails ⟨x, y, z⟩ = decide (x < 0 ∨ x > INT_MAX ∨ y < 0 ∨ y > INT_MAX)) := by
  intro r0 r1 r2 ctrl
  obtain ⟨b0, e0, l0⟩ := bzRead_bytes s.cpf 8 (by decide)
  obtain ⟨b1, e1, l1⟩ := bzRead_bytes r0.rest 8 (by decide)
  obtain ⟨b2, e2, l2⟩ := bzRead_bytes r1.rest 8 (by decide)
  have hshort : s.cpf.data.length < 24 → ∃ st, iteration old newsize s = .corrupt st := by
    intro h
    obtain ⟨st, hst⟩ := readCtrl_short s h
    exact ⟨st, by rw [iteration, hst, Res.bind_corrupt]⟩
  refine ⟨?_, ?_, ?_⟩
  · intro h
    apply hshort
    have d1 : r1.rest.data = s.cpf.data.drop 16 := by
      show (BZ2_bzRead r0.rest 8).rest.data = _
      rw [e1]
      show List.drop _ (BZ2_bzRead s.cpf 8).rest.data = _
      rw [e0]
      simp [List.drop_drop]
    have d0 : r0.rest.data = s.cpf.data.drop 8 := by
      show (BZ2_bzRead s.cpf 8).rest.data = _
      rw [e0]
      simp
    rw [d1] at l2
    rw [d0] at l1
    have l0' : r0.lenread < 8 ↔ (s.cpf.data.length : Int) < 8 := l0
    have l1' : r1.lenread < 8 ↔ ((s.cpf.data.drop 8).length : Int) < 8 := l1
    have l2' : r2.lenread < 8 ↔ ((s.cpf.data.drop 16).length : Int) < 8 := l2
    simp only [List.length_drop] at l1' l2'
    omega
  · intro h
    by_cases h24 : 24 ≤ s.cpf.data.length
    · rw [iteration_eq_applyCtrl old newsize s h24]
      refine ⟨_, applyCtrl_insane _ _ _ _ ?_⟩
      have c0 : ctrl.c0 = offtin (s.cpf.data.take 8) := by
        show offtin (BZ2_bzRead s.cpf 8).bytes = _
        rw [b0]; rfl
      have c1 : ctrl.c1 = offtin ((s.cpf.data.drop 8).take 8) := by
        show offtin (BZ2_bzRead (BZ2_bzRead s.cpf 8).rest 8).bytes = _
        rw [bzRead_bytes _ 8 (by decide) |>.1, e0]; rfl
      rw [c0, c1] at h
      exact h
    · exact hshort (by omega)
  · intro x y z
    simp [sanityFails, Bool.or_assoc]

theorem control_triple_validation_witness :
    ∃ st, iteration [7] 1
      (initState 1 ⟨[1, 0, 0, 0, 0, 0, 0, 0, 0, 0, 0, 0, 0, 0, 0, 0, 0, 0, 0], false⟩
        ⟨[5], false⟩ ⟨[], false⟩) = .corrupt st :=
  (control_triple_validation [7] 1
    (initState 1 ⟨[1, 0, 0, 0, 0, 0, 0, 0, 0, 0, 0, 0, 0, 0, 0, 0, 0, 0, 0], false⟩
      ⟨[5], false⟩ ⟨[], false⟩)).1 (by decide)

/-- C8, the code at a failing input: base file `[7]`; patch with `ctrl_length = 48`,
`diff_length = 1`, `target_size = 2`, the triples `(0, 0, -2^40)` and `(1, 5, 0)`, diff `[9]`,
no extra bytes.  The second triple overshoots with its `copy_len` (`1 + 5 > 2`), but the run
does not reach that check: in the add loop `add_off_t(oldpos, 0) = -2^40 < oldsize` holds and
`old[-2^40]` is read, outside the base buffer, while the destination holds `[9, 0]`. -/
theorem overshoot_after_negative_seek :
    main 9223372036854775807 storedCodec 4 none [7]
      ([66, 83, 68, 73, 70, 70, 52, 48, 48, 0, 0, 0, 0, 0, 0, 0,
        1, 0, 0, 0, 0, 0, 0, 0, 2, 0, 0, 0, 0, 0, 0, 0] ++
       [0, 0, 0, 0, 0, 0, 0, 0, 0, 0, 0, 0, 0, 0, 0, 0, 0, 0, 0, 0, 0, 1, 0, 128,
        1, 0, 0, 0, 0, 0, 0, 0, 5, 0, 0, 0, 0, 0, 0, 0, 0, 0, 0, 0, 0, 0, 0, 0] ++ [9]) =
      ⟨.outOfBounds, some [9, 0]⟩ ∧
    offtin [0, 0, 0, 0, 0, 1, 0, 128] = -1099511627776 := by
  decide

/-- C9: for a triple with `add_len = n` and `copy_len = 0` applied where the base holds the
bytes `base_pos .. base_pos + n` (`0 ≤ base_pos`, `base_pos + n ≤ base_size`): whenever the
triple is applied, each of the `n` target bytes at `target_pos + i` equals
`(base_byte[base_pos + i] + diff_byte[i]) mod 256`; the triple is applied whenever it passes
the checks of the pass (`n ≤ INT_MAX`, the region fits the target, the diff stream holds `n`
bytes, the base position stays an `off_t` after the seek); and base byte 250 with diff byte 10
gives 4. -/
theorem byte_combination (B : List UChar) (newsize : Int) (t : Ctrl) (s : LoopState) (n : Nat)
    (h0 : IsOff s.newpos) (h1 : IsOff s.oldpos) (hc2 : IsOff t.c2)
    (hB : (B.length : Int) ≤ OFF_MAX)
    (hadd : t.c0 = n) (hcopy : t.c1 = 0) (hlo : 0 ≤ s.oldpos)
    (hhi : s.oldpos + n ≤ B.length) :
    (∀ s2, applyCtrl B newsize t s = .next s2 →
      ∀ i : Nat, i < n →
        ∃ b d x, B.get? (s.oldpos.toNat + i) = some b ∧ s.dpf.data.get? i = some d ∧
          s2.new.get? (s.newpos.toNat + i) = some x ∧ x.val = (b.val + d.val) % 256) ∧
    ((n : Int) ≤ INT_MAX → 0 ≤ s.newpos → s.newpos + n ≤ newsize → newsize ≤ OFF_MAX →
      s.newpos + n ≤ s.new.length → n ≤ s.dpf.data.length → IsOff (s.oldpos + n + t.c2) →
      ∃ s2, applyCtrl B newsize t s = .next s2) ∧
    addByte 250 10 = 4 := by
  have hOM := OFF_MAX_eq
  refine ⟨?_, ?_, by decide⟩
  · intro s2 h i hi
    obtain ⟨a0, a1, a2, a3, a4, a5, a6, a7, a8, a9, a10, a11, sA, hA, hlen, hs2⟩ :=
      applyCtrl_next h0 h1 (by rw [hadd, isOff_iff]; omega) (by rw [hcopy, isOff_iff]; omega)
        hc2 h
    rw [hadd] at a5 a6 a7 a11 hA hs2
    rw [hcopy] at hs2 a11
    have a11' := (isOff_iff _).1 a11
    simp only [Int.toNat_ofNat] at hA hs2 a7
    have hn : n ≤ s.dpf.data.length := by omega
    have hnp : (s.newpos.toNat : Int) = s.newpos := Int.toNat_of_nonneg a4
    have hPl : (s.new.take s.newpos.toNat).length = s.newpos.toNat := by
      rw [List.length_take]; omega
    have hok := addOldFrom_ok B n 0
      ({ s with new := s.new.take s.newpos.toNat ++ s.dpf.data.take n ++
                  s.new.drop (s.newpos.toNat + n),
                dpf := ⟨s.dpf.data.drop n, s.dpf.damaged⟩ } : LoopState)
      (s.new.take s.newpos.toNat) (s.dpf.data.take n) (s.new.drop (s.newpos.toNat + n)) rfl
      (by simp only [hPl]; omega) (by rw [List.length_take]; omega) h1
      (by intro _; simp only; omega) (by simp only; omega) (by simp only; omega) a4
    simp only [Nat.cast_zero, add_zero] at hok
    unfold addOld at hA
    rw [hadd, Int.toNat_ofNat, hok] at hA
    injection hA with hA
    have hnew2 : s2.new = s.new.take s.newpos.toNat ++
        addRegion B s.oldpos (s.dpf.data.take n) ++ s.new.drop (s.newpos.toNat + n) := by
      rw [hs2, ← hA]
      simp
    have hid : i < (s.dpf.data.take n).length := by rw [List.length_take]; omega
    have hd : (s.dpf.data.take n).get? i = some ((s.dpf.data.take n).get ⟨i, hid⟩) :=
      List.get?_eq_get hid
    have hd' : s.dpf.data.get? i = some ((s.dpf.data.take n).get ⟨i, hid⟩) := by
      rw [← hd, List.get?_eq_getElem?, List.get?_eq_getElem?, List.getElem?_take, if_pos hi]
    have hib : s.oldpos.toNat + i < B.length := by omega
    have hb : B.get? (s.oldpos.toNat + i) = some (B.get ⟨_, hib⟩) := List.get?_eq_get hib
    have hgb : getByte B (s.oldpos + i) = some (B.get ⟨_, hib⟩) := by
      unfold getByte
      rw [if_pos (by omega), ← hb]
      congr 1
      omega
    refine ⟨B.get ⟨_, hib⟩, (s.dpf.data.take n).get ⟨i, hid⟩,
      addByte ((s.dpf.data.take n).get ⟨i, hid⟩) (B.get ⟨_, hib⟩), hb, hd', ?_, ?_⟩
    · rw [hnew2]
      have := get_mid (s.new.take s.newpos.toNat) (addRegion B s.oldpos (s.dpf.data.take n))
        (s.new.drop (s.newpos.toNat + n)) i (by rw [addRegion_length]; exact hid)
      rw [hPl] at this
      rw [this, addRegion_get B _ _ _ _ hd, hgb]
      rfl
    · simp only [addByte]
      rw [Nat.add_comm]
  · intro hn ha hfit hsz hln hd hsk
    have hnp : (s.newpos.toNat : Int) = s.newpos := Int.toNat_of_nonneg ha
    have hdec : s.new = s.new.take s.newpos.toNat ++ (s.new.drop s.newpos.toNat).take n ++ [] ++
        (s.new.drop s.newpos.toNat).drop n := by
      simp
    exact ⟨_, applyCtrl_ok B newsize s t (s.new.take s.newpos.toNat)
      ((s.new.drop s.newpos.toNat).take n) [] ((s.new.drop s.newpos.toNat).drop n) n 0 hadd
      (by simpa using hcopy) hn (by decide) hc2 hdec (by rw [List.length_take]; omega)
      (by rw [List.length_take, List.length_drop]; omega) rfl (by simpa using hfit) hsz hd
      (by simp) h1 (fun _ => hlo) (by omega) hsk⟩

theorem byte_combination_witness :
    ∃ b d x, ([250] : List UChar).get? ((0 : Int).toNat + 0) = some b ∧
      ([10] : List UChar).get? 0 = some d ∧
      ([4] : List UChar).get? ((0 : Int).toNat + 0) = some x ∧
      x.val = (b.val + d.val) % 256 :=
  (byte_combination [250] 1 ⟨1, 0, 0⟩ ⟨0, 0, [0], ⟨[], false⟩, ⟨[10], false⟩, ⟨[], false⟩⟩ 1
      (by decide) (by decide) (by decide) (by decide) (by decide) (by decide) (by decide)
      (by decide)).1
    ⟨1, 1, [4], ⟨[], false⟩, ⟨[], false⟩, ⟨[], false⟩⟩ (by decide) 0 (by decide)

/-- C10: for every pass of the loop that is applied successfully, with `add_len` and
`copy_len` the first two numbers of its triple: the `copy_len` bytes of the target at
`[target_pos + add_len, target_pos + add_len + copy_len)` are the next `copy_len` bytes of the
extra stream, unchanged, and the extra reader has moved past them; this for every base buffer
and every base position. -/
theorem verbatim_copy (B : List UChar) (newsize : Int) (s s2 : LoopState)
    (h0 : IsOff s.newpos) (h1 : IsOff s.oldpos)
    (h : iteration B newsize s = .next s2) :
    let add_len := offtin (s.cpf.data.take 8)
    let copy_len := offtin ((s.cpf.data.drop 8).take 8)
    0 ≤ add_len ∧ 0 ≤ copy_len ∧ 0 ≤ s.newpos ∧
    s2.newpos = s.newpos + add_len + copy_len ∧
    s2.epf.data = s.epf.data.drop copy_len.toNat ∧
    ∀ i : Nat, (i : Int) < copy_len →
      ∃ e, s.epf.data.get? i = some e ∧
        s2.new.get? ((s.newpos + add_len).toNat + i) = some e := by
  intro add_len copy_len
  have h24 := iteration_next_len h
  rw [iteration_eq_applyCtrl B newsize s h24] at h
  obtain ⟨a0, a1, a2, a3, a4, a5, a6, a7, a8, a9, a10, a11, sA, hA, hlen, hs2⟩ :=
    applyCtrl_next (by exact h0) (by exact h1) (offtin_isOff _) (offtin_isOff _)
      (offtin_isOff _) h
  simp only at a0 a2 a4 a5 a6 a7 a8 hlen hs2
  refine ⟨a0, a2, a4, by rw [hs2], by rw [hs2], ?_⟩
  intro i hi
  have hi' : i < (s.epf.data.take copy_len.toNat).length := by
    rw [List.length_take]
    have : (copy_len.toNat : Int) = copy_len := Int.toNat_of_nonneg a2
    omega
  have hge : s.epf.data.get? i = (s.epf.data.take copy_len.toNat).get? i := by
    rw [List.get?_eq_getElem?, List.get?_eq_getElem?, List.getElem?_take]
    have : (copy_len.toNat : Int) = copy_len := Int.toNat_of_nonneg a2
    rw [if_pos (by omega)]
  refine ⟨(s.epf.data.take copy_len.toNat).get ⟨i, hi'⟩, ?_, ?_⟩
  · rw [hge]; exact List.get?_eq_get hi'
  · rw [hs2]
    simp only
    have hPl : (sA.new.take (s.newpos + add_len).toNat).length = (s.newpos + add_len).toNat := by
      rw [List.length_take]
      have : ((s.newpos + add_len).toNat : Int) = s.newpos + add_len :=
        Int.toNat_of_nonneg (by omega)
      omega
    have := get_mid (sA.new.take (s.newpos + add_len).toNat) (s.epf.data.take copy_len.toNat)
      (sA.new.drop ((s.newpos + add_len).toNat + copy_len.toNat)) i hi'
    rw [hPl] at this
    rw [this]
    exact List.get?_eq_get hi'

theorem verbatim_copy_witness :
    ∃ e, ([77, 78, 79] : List UChar).get? 1 = some e ∧
      ([4, 77, 78] : List UChar).get? (((0 : Int) + 1).toNat + 1) = some e :=
  (verbatim_copy [250] 3
    ⟨0, 0, [0, 0, 0],
      ⟨[1, 0, 0, 0, 0, 0, 0, 0, 2, 0, 0, 0, 0, 0, 0, 0, 3, 0, 0, 0, 0, 0, 0, 128], false⟩,
      ⟨[10], false⟩, ⟨[77, 78, 79], false⟩⟩
    ⟨-2, 3, [4, 77, 78], ⟨[], false⟩, ⟨[], false⟩, ⟨[79], false⟩⟩
    (by decide) (by decide) (by decide)).2.2.2.2.2 1 (by decide)

/-- C11: the reconstruction loop ends normally only with `target_pos = target_size`.  For every
header-accepted `target_size` and all streams, when the loop ends normally in the state `s`,
`s.newpos = newsize`, and `s` is the state at the head of the loop after some number `n` of
passes, with `0 < n` unless `newsize = 0`.  On every successful run of `main` the loop has
ended normally in a state `s` that is the result of a pass (the end of its step 8) begun with
`newpos < newsize`, the final `newpos` equals the `newsize` of the header, and the destination
holds the buffer of that state. -/
theorem exact_termination (S : Int) (codec : List UChar → BzStream)
    (dest0 : Option (List UChar)) (oldfile patch : List UChar) :
    (∀ (newsize : Int) (cpf dpf epf : BzStream) (s : LoopState),
        0 ≤ newsize → newsize ≤ OFF_MAX →
        loop oldfile newsize (initState newsize cpf dpf epf) = .done s →
        s.newpos = newsize ∧
          ∃ n, afterPasses oldfile newsize n (initState newsize cpf dpf epf) = some s ∧
            (0 < newsize → 0 < n)) ∧
    ((main S codec 4 dest0 oldfile patch).exit = .success →
      ∃ h o0 o1 o2 n sp s, readHeader S patch = some h ∧
        streamOffsets h = some (o0, o1, o2) ∧
        loop oldfile h.newsize (initState h.newsize (codec (patch.drop o0.toNat))
          (codec (patch.drop o1.toNat)) (codec (patch.drop o2.toNat))) = .done s ∧
        afterPasses oldfile h.newsize n (initState h.newsize (codec (patch.drop o0.toNat))
          (codec (patch.drop o1.toNat)) (codec (patch.drop o2.toNat))) = some sp ∧
        sp.newpos < h.newsize ∧ iteration oldfile h.newsize sp = .next s ∧
        s.newpos = h.newsize ∧ (main S codec 4 dest0 oldfile patch).artifact = some s.new) := by
  constructor
  · intro newsize cpf dpf epf s h0 hsize h
    obtain ⟨_, he, n, hp, hn⟩ := loop_done_exact h0 hsize h
    exact ⟨he, n, hp, hn⟩
  · intro hs
    rcases main_cases S codec dest0 oldfile patch with hr | ⟨h, o0, o1, o2, hh, ho, hr⟩
    · rw [hr] at hs; cases hs
    · rcases hr with ⟨hr, _⟩ | ⟨_, _, hr⟩ | ⟨_, _, hr⟩ | ⟨s, hl, _, hpos, hr⟩
      · rw [hr] at hs; cases hs
      · rw [hr] at hs; cases hs
      · rw [hr] at hs; cases hs
      · obtain ⟨_, _, _, _, _, _, hsize⟩ := readHeader_some hh
        obtain ⟨_, he, n, hp, hn⟩ := loop_done_exact (le_of_lt hpos) hsize hl
        obtain ⟨m, rfl⟩ : ∃ m, n = m + 1 := ⟨n - 1, by have := hn hpos; omega⟩
        obtain ⟨sp, hsp, hlt, hit⟩ := afterPasses_last _ _ m _ _ hp
        exact ⟨h, o0, o1, o2, m, sp, s, hh, ho, hl, hsp, hlt, hit, he, by rw [hr]⟩

theorem exact_termination_witness :
    (main 9223372036854775807 storedCodec 4 none [7]
      ([66, 83, 68, 73, 70, 70, 52, 48, 24, 0, 0, 0, 0, 0, 0, 0,
        1, 0, 0, 0, 0, 0, 0, 0, 2, 0, 0, 0, 0, 0, 0, 0] ++
       [1, 0, 0, 0, 0, 0, 0, 0, 1, 0, 0, 0, 0, 0, 0, 0, 0, 0, 0, 0, 0, 0, 0, 0] ++
       [9, 5])).exit = .success ∧
    ∃ h o0 o1 o2 n sp s,
      readHeader 9223372036854775807
        ([66, 83, 68, 73, 70, 70, 52, 48, 24, 0, 0, 0, 0, 0, 0, 0,
          1, 0, 0, 0, 0, 0, 0, 0, 2, 0, 0, 0, 0, 0, 0, 0] ++
         [1, 0, 0, 0, 0, 0, 0, 0, 1, 0, 0, 0, 0, 0, 0, 0, 0, 0, 0, 0, 0, 0, 0, 0] ++
         [9, 5]) = some h ∧
      streamOffsets h = some (o0, o1, o2) ∧
      loop [7] h.newsize (initState h.newsize
        (storedCodec (List.drop o0.toNat
        ([66, 83, 68, 73, 70, 70, 52, 48, 24, 0, 0, 0, 0, 0, 0, 0,
          1, 0, 0, 0, 0, 0, 0, 0, 2, 0, 0, 0, 0, 0, 0, 0] ++
         [1, 0, 0, 0, 0, 0, 0, 0, 1, 0, 0, 0, 0, 0, 0, 0, 0, 0, 0, 0, 0, 0, 0, 0] ++
         [9, 5])))
        (storedCodec (List.drop o1.toNat
        ([66, 83, 68, 73, 70, 70, 52, 48, 24, 0, 0, 0, 0, 0, 0, 0,
          1, 0, 0, 0, 0, 0, 0, 0, 2, 0, 0, 0, 0, 0, 0, 0] ++
         [1, 0, 0, 0, 0, 0, 0, 0, 1, 0, 0, 0, 0, 0, 0, 0, 0, 0, 0, 0, 0, 0, 0, 0] ++
         [9, 5])))
        (storedCodec (List.drop o2.toNat
        ([66, 83, 68, 73, 70, 70, 52, 48, 24, 0, 0, 0, 0, 0, 0, 0,
          1, 0, 0, 0, 0, 0, 0, 0, 2, 0, 0, 0, 0, 0, 0, 0] ++
         [1, 0, 0, 0, 0, 0, 0, 0, 1, 0, 0, 0, 0, 0, 0, 0, 0, 0, 0, 0, 0, 0, 0, 0] ++
         [9, 5])))) = .done s ∧
      afterPasses [7] h.newsize n (initState h.newsize
        (storedCodec (List.drop o0.toNat
        ([66, 83, 68, 73, 70, 70, 52, 48, 24, 0, 0, 0, 0, 0, 0, 0,
          1, 0, 0, 0, 0, 0, 0, 0, 2, 0, 0, 0, 0, 0, 0, 0] ++
         [1, 0, 0, 0, 0, 0, 0, 0, 1, 0, 0, 0, 0, 0, 0, 0, 0, 0, 0, 0, 0, 0, 0, 0] ++
         [9, 5])))
        (storedCodec (List.drop o1.toNat
        ([66, 83, 68, 73, 70, 70, 52, 48, 24, 0, 0, 0, 0, 0, 0, 0,
          1, 0, 0, 0, 0, 0, 0, 0, 2, 0, 0, 0, 0, 0, 0, 0] ++
         [1, 0, 0, 0, 0, 0, 0, 0, 1, 0, 0, 0, 0, 0, 0, 0, 0, 0, 0, 0, 0, 0, 0, 0] ++
         [9, 5])))
        (storedCodec (List.drop o2.toNat
        ([66, 83, 68, 73, 70, 70, 52, 48, 24, 0, 0, 0, 0, 0, 0, 0,
          1, 0, 0, 0, 0, 0, 0, 0, 2, 0, 0, 0, 0, 0, 0, 0] ++
         [1, 0, 0, 0, 0, 0, 0, 0, 1, 0, 0, 0, 0, 0, 0, 0, 0, 0, 0, 0, 0, 0, 0, 0] ++
         [9, 5])))) = some sp ∧
      sp.newpos < h.newsize ∧ iteration [7] h.newsize sp = .next s ∧
      s.newpos = h.newsize ∧
      (main 9223372036854775807 storedCodec 4 none [7]
        ([66, 83, 68, 73, 70, 70, 52, 48, 24, 0, 0, 0, 0, 0, 0, 0,
          1, 0, 0, 0, 0, 0, 0, 0, 2, 0, 0, 0, 0, 0, 0, 0] ++
         [1, 0, 0, 0, 0, 0, 0, 0, 1, 0, 0, 0, 0, 0, 0, 0, 0, 0, 0, 0, 0, 0, 0, 0] ++
         [9, 5])).artifact = some s.new :=
  ⟨by decide, (exact_termination 9223372036854775807 storedCodec none [7] _).2 (by decide)⟩

/-- C12, the code at a failing input: base file `[7]`; patch with `ctrl_length = 48`,
`diff_length = 2`, `target_size = 4`, the triples `(1, 1, -2^40)` and `(1, 1, 0)`, diff
`[9, 4]`, extra `[5, 6]`.  The first pass writes `16 = 9 + 7` and `5` and leaves the base
position at `1 - 2^40`; in the second pass the diff byte `4` is stored, then
`add_off_t(oldpos, 0) < oldsize` holds and `old[1 - 2^40]` is read, outside the base buffer.
The run ends there without `exit_cleanup` having removed the destination, which was created
at its full size of 4 bytes and holds `[16, 5, 4, 0]`: a partly written artifact. -/
theorem fault_leaves_partial_artifact :
    main 9223372036854775807 storedCodec 4 none [7]
      ([66, 83, 68, 73, 70, 70, 52, 48, 48, 0, 0, 0, 0, 0, 0, 0,
        2, 0, 0, 0, 0, 0, 0, 0, 4, 0, 0, 0, 0, 0, 0, 0] ++
       [1, 0, 0, 0, 0, 0, 0, 0, 1, 0, 0, 0, 0, 0, 0, 0, 0, 0, 0, 0, 0, 1, 0, 128,
        1, 0, 0, 0, 0, 0, 0, 0, 1, 0, 0, 0, 0, 0, 0, 0, 0, 0, 0, 0, 0, 0, 0, 0] ++
       [9, 4] ++ [5, 6]) =
      ⟨.outOfBounds, some [16, 5, 4, 0]⟩ ∧
    offtin [0, 0, 0, 0, 0, 1, 0, 128] = -1099511627776 := by
  decide

/-- C13, the code at a failing input: base `[7]`, `target_size = 1`, the triples `(0, 0, -1)`
and `(1, 0, 0)`, diff `[9]`, no extra bytes.  After the first pass `oldpos = -1`.  In the
second pass, at `i = 0`, line 279 tests only `add_off_t(oldpos, 0) = -1 < oldsize = 1`, which
holds, and line 280 reads `old[-1]`: the base buffer is indexed below 0.  Left as the raw diff
byte, as the claim has it, the target would be `[9]` (`addRegion`). -/
theorem base_read_below_zero :
    loop [7] 1 (initState 1
        ⟨[0, 0, 0, 0, 0, 0, 0, 0, 0, 0, 0, 0, 0, 0, 0, 0, 1, 0, 0, 0, 0, 0, 0, 128,
          1, 0, 0, 0, 0, 0, 0, 0, 0, 0, 0, 0, 0, 0, 0, 0, 0, 0, 0, 0, 0, 0, 0, 0], false⟩
        ⟨[9], false⟩ ⟨[], false⟩) =
      .outOfBounds ⟨-1, 0, [9], ⟨[], false⟩, ⟨[], false⟩, ⟨[], false⟩⟩ ∧
    add_off_t (-1) 0 = some (-1) ∧ getByte [7] (-1) = none ∧
    addRegion [7] (-1) [9] = [9] := by
  decide

/-- C14: the loop invariant `0 ≤ target_pos ≤ target_size`.  For every `target_size` that the
header check accepts (`0 ≤ newsize ≤ OFF_MAX`) and all streams, the invariant holds in the
initial state, in every state at the head of the loop (after any number of passes), and, within
the pass begun there, after each step that does not fail: the read of the triple, the sanity
check, the fit check of `add_len`, the read of the diff bytes, the add loop, the advance by
`add_len`, the fit check of `copy_len`, the read of the extra bytes and the advance by
`copy_len`. -/
theorem loop_invariant (old : List UChar) (newsize : Int) (cpf dpf epf : BzStream)
    (h0 : 0 ≤ newsize) (hsize : newsize ≤ OFF_MAX) :
    (0 ≤ (initState newsize cpf dpf epf).newpos ∧
      (initState newsize cpf dpf epf).newpos ≤ newsize) ∧
    ∀ (n : Nat) (s : LoopState),
      afterPasses old newsize n (initState newsize cpf dpf epf) = some s →
      (0 ≤ s.newpos ∧ s.newpos ≤ newsize) ∧
      ∀ (ctrl : Ctrl) (s0 : LoopState), readCtrl s = .next (ctrl, s0) →
      (0 ≤ s0.newpos ∧ s0.newpos ≤ newsize) ∧
      ∀ s1, sanityCheck ctrl s0 = .next s1 → (0 ≤ s1.newpos ∧ s1.newpos ≤ newsize) ∧
      ∀ s2, checkFits newsize ctrl.c0 s1 = .next s2 → (0 ≤ s2.newpos ∧ s2.newpos ≤ newsize) ∧
      ∀ s3, readDiff ctrl s2 = .next s3 → (0 ≤ s3.newpos ∧ s3.newpos ≤ newsize) ∧
      ∀ s4, addOld old ctrl s3 = .next s4 → (0 ≤ s4.newpos ∧ s4.newpos ≤ newsize) ∧
      ∀ s5, advanceAdd ctrl s4 = .next s5 → (0 ≤ s5.newpos ∧ s5.newpos ≤ newsize) ∧
      ∀ s6, checkFits newsize ctrl.c1 s5 = .next s6 → (0 ≤ s6.newpos ∧ s6.newpos ≤ newsize) ∧
      ∀ s7, readExtra ctrl s6 = .next s7 → (0 ≤ s7.newpos ∧ s7.newpos ≤ newsize) ∧
      ∀ s8, advanceCopy ctrl s7 = .next s8 → (0 ≤ s8.newpos ∧ s8.newpos ≤ newsize) := by
  have hinit := initState_wellFormed newsize cpf dpf epf h0
  refine ⟨⟨hinit.1, hinit.2.1⟩, ?_⟩
  intro n s hp
  obtain ⟨⟨w0, w1, w2, _⟩, _, _⟩ := afterPasses_wellFormed old newsize hsize n _ _ hinit hp
  have hsz := hsize
  rw [OFF_MAX_eq] at hsz
  have hoff : ∀ x : Int, 0 ≤ x → x ≤ newsize → IsOff x := by
    intro x hx hx'
    rw [isOff_iff]; omega
  refine ⟨⟨w0, w1⟩, ?_⟩
  intro ctrl s0 hrd
  obtain ⟨hc0, hc1, hc2⟩ := readCtrl_isOff hrd
  obtain ⟨_, _, e0⟩ := readCtrl_next hrd
  have n0 : s0.newpos = s.newpos := by rw [e0]
  have o0 : s0.oldpos = s.oldpos := by rw [e0]
  refine ⟨by rw [n0]; exact ⟨w0, w1⟩, ?_⟩
  intro s1 hsan
  obtain ⟨e1, a0, _, a2, _⟩ := sanityCheck_next hsan
  subst e1
  refine ⟨by rw [n0]; exact ⟨w0, w1⟩, ?_⟩
  intro s2 hfit
  obtain ⟨e2, f1, f2⟩ := checkFits_next (hoff _ (by omega) (by omega)) hc0 hfit
  subst e2
  refine ⟨by rw [n0]; exact ⟨w0, w1⟩, ?_⟩
  intro s3 hdiff
  obtain ⟨_, _, _, e3⟩ := readDiff_next a0 hdiff
  have n3 : s3.newpos = s.newpos := by rw [e3]; exact n0
  have o3 : s3.oldpos = s.oldpos := by rw [e3]; exact o0
  refine ⟨by rw [n3]; exact ⟨w0, w1⟩, ?_⟩
  intro s4 hadd
  obtain ⟨o4, n4, _⟩ := addOldFrom_frame old _ _ _ _ hadd
  rw [n3] at n4
  rw [o3] at o4
  refine ⟨by rw [n4]; exact ⟨w0, w1⟩, ?_⟩
  intro s5 hadv
  obtain ⟨_, v2, e5⟩ := advanceAdd_next (hoff _ (by omega) (by omega)) (by rw [o4]; exact w2)
    hc0 hadv
  have n5 : s5.newpos = s.newpos + ctrl.c0 := by rw [e5]; simp only; rw [n4]
  have o5 : s5.oldpos = s.oldpos + ctrl.c0 := by rw [e5]; simp only; rw [o4]
  rw [n0] at f2
  rw [o4] at v2
  refine ⟨by rw [n5]; omega, ?_⟩
  intro s6 hfit2
  obtain ⟨e6, g1, g2⟩ := checkFits_next (hoff _ (by omega) (by omega)) hc1 hfit2
  subst e6
  refine ⟨by rw [n5]; omega, ?_⟩
  intro s7 hext
  obtain ⟨_, _, _, e7⟩ := readExtra_next a2 hext
  have n7 : s7.newpos = s.newpos + ctrl.c0 := by rw [e7]; exact n5
  have o7 : s7.oldpos = s.oldpos + ctrl.c0 := by rw [e7]; exact o5
  refine ⟨by rw [n7]; omega, ?_⟩
  intro s8 hadv2
  obtain ⟨_, _, e8⟩ := advanceCopy_next (hoff _ (by omega) (by omega)) (by rw [o7]; exact v2)
    hc1 hc2 hadv2
  rw [e8]
  simp only
  omega

theorem loop_invariant_witness :
    afterPasses [7] 2 1 (initState 2
        ⟨[1, 0, 0, 0, 0, 0, 0, 0, 1, 0, 0, 0, 0, 0, 0, 0, 0, 0, 0, 0, 0, 0, 0, 0], false⟩
        ⟨[9], false⟩ ⟨[5], false⟩) =
      some ⟨1, 2, [16, 5], ⟨[], false⟩, ⟨[], false⟩, ⟨[], false⟩⟩ ∧
    (0 ≤ (⟨1, 2, [16, 5], ⟨[], false⟩, ⟨[], false⟩, ⟨[], false⟩⟩ : LoopState).newpos ∧
      (⟨1, 2, [16, 5], ⟨[], false⟩, ⟨[], false⟩, ⟨[], false⟩⟩ : LoopState).newpos ≤ 2) :=
  ⟨by decide,
    ((loop_invariant [7] 2
      ⟨[1, 0, 0, 0, 0, 0, 0, 0, 1, 0, 0, 0, 0, 0, 0, 0, 0, 0, 0, 0, 0, 0, 0, 0], false⟩
      ⟨[9], false⟩ ⟨[5], false⟩ (by decide) (by decide)).2 1 _ (by decide)).1⟩

/-- C15, the code at the input of the example: an empty base file; patch with
`ctrl_length = 24`, `diff_length = 5`, `target_size = 5`, the single triple `(5, 0, 0)`, diff
`[1, 2, 3, 4, 5]`.  `oldsize = lseek(..) = 0`, and `mmap(NULL, 0, ..)` of line 233 fails, so
`main` ends in `err(1, "mmap() ..")` and `exit_cleanup` removes the destination.  With the
one-byte base `[0]` the same patch succeeds with `[1, 2, 3, 4, 5]`, and so does the loop when
it is given an empty base buffer. -/
theorem empty_base_example :
    main 9223372036854775807 storedCodec 4 none []
      ([66, 83, 68, 73, 70, 70, 52, 48, 24, 0, 0, 0, 0, 0, 0, 0,
        5, 0, 0, 0, 0, 0, 0, 0, 5, 0, 0, 0, 0, 0, 0, 0] ++
       [5, 0, 0, 0, 0, 0, 0, 0, 0, 0, 0, 0, 0, 0, 0, 0, 0, 0, 0, 0, 0, 0, 0, 0] ++
       [1, 2, 3, 4, 5]) = ⟨.ioError, none⟩ ∧
    mmapFails (([] : List UChar).length : Int) = true ∧
    main 9223372036854775807 storedCodec 4 none [0]
      ([66, 83, 68, 73, 70, 70, 52, 48, 24, 0, 0, 0, 0, 0, 0, 0,
        5, 0, 0, 0, 0, 0, 0, 0, 5, 0, 0, 0, 0, 0, 0, 0] ++
       [5, 0, 0, 0, 0, 0, 0, 0, 0, 0, 0, 0, 0, 0, 0, 0, 0, 0, 0, 0, 0, 0, 0, 0] ++
       [1, 2, 3, 4, 5]) = ⟨.success, some [1, 2, 3, 4, 5]⟩ ∧
    loop [] 5 (initState 5
        ⟨[5, 0, 0, 0, 0, 0, 0, 0, 0, 0, 0, 0, 0, 0, 0, 0, 0, 0, 0, 0, 0, 0, 0, 0], false⟩
        ⟨[1, 2, 3, 4, 5], false⟩ ⟨[], false⟩) =
      .done ⟨5, 5, [1, 2, 3, 4, 5], ⟨[], false⟩, ⟨[], false⟩, ⟨[], false⟩⟩ := by
  decide

/-- C16, the code at a failing input: base `[7]`, `target_size = 2`, the triples
`(0, 0, -2^40)` and `(1, 1, 0)`, diff `[9]`, an empty extra stream.  In the second pass the
extra stream holds fewer bytes than `copy_len = 1`, but the read of line 291 is not reached:
the add loop reads `old[-2^40]`, outside the base buffer, with the diff byte `9` stored in the
region.  With the seek `0` in place of `-2^40` the same pass ends in "Corrupt patch". -/
theorem short_extra_after_negative_seek :
    loop [7] 2 (initState 2
        ⟨[0, 0, 0, 0, 0, 0, 0, 0, 0, 0, 0, 0, 0, 0, 0, 0, 0, 0, 0, 0, 0, 1, 0, 128,
          1, 0, 0, 0, 0, 0, 0, 0, 1, 0, 0, 0, 0, 0, 0, 0, 0, 0, 0, 0, 0, 0, 0, 0], false⟩
        ⟨[9], false⟩ ⟨[], false⟩) =
      .outOfBounds ⟨-1099511627776, 0, [9, 0], ⟨[], false⟩, ⟨[], false⟩, ⟨[], false⟩⟩ ∧
    loop [7] 2 (initState 2
        ⟨[0, 0, 0, 0, 0, 0, 0, 0, 0, 0, 0, 0, 0, 0, 0, 0, 0, 0, 0, 0, 0, 0, 0, 0,
          1, 0, 0, 0, 0, 0, 0, 0, 1, 0, 0, 0, 0, 0, 0, 0, 0, 0, 0, 0, 0, 0, 0, 0], false⟩
        ⟨[9], false⟩ ⟨[], false⟩) =
      .corrupt ⟨1, 1, [16, 0], ⟨[], false⟩, ⟨[], false⟩, ⟨[], false⟩⟩ := by
  decide

/-- C17, the code at a failing input: a patch that is the 32-byte header alone, with
`ctrl_length = 0`, `diff_length = 0`, `target_size = 0`; the header check accepts it.  With the
base `[7]` the base is mapped, the extension of the destination is skipped (`newsize > 0` is
false), and `mmap(NULL, 0, ..)` of line 245 fails: `main` ends in `err(1, "mmap ..")` and
`exit_cleanup` removes the destination.  With an empty base the `mmap` of line 233 fails in
the same way.  No pass of the loop is run in either case. -/
theorem zero_size_target :
    readHeader 9223372036854775807
      [66, 83, 68, 73, 70, 70, 52, 48, 0, 0, 0, 0, 0, 0, 0, 0,
        0, 0, 0, 0, 0, 0, 0, 0, 0, 0, 0, 0, 0, 0, 0, 0] = some ⟨0, 0, 0⟩ ∧
    main 9223372036854775807 storedCodec 4 none [7]
      [66, 83, 68, 73, 70, 70, 52, 48, 0, 0, 0, 0, 0, 0, 0, 0,
        0, 0, 0, 0, 0, 0, 0, 0, 0, 0, 0, 0, 0, 0, 0, 0] = ⟨.ioError, none⟩ ∧
    main 9223372036854775807 storedCodec 4 none []
      [66, 83, 68, 73, 70, 70, 52, 48, 0, 0, 0, 0, 0, 0, 0, 0,
        0, 0, 0, 0, 0, 0, 0, 0, 0, 0, 0, 0, 0, 0, 0, 0] = ⟨.ioError, none⟩ ∧
    mmapFails 0 = true := by
  decide

/-- C18 (amended): the sanity ceiling against the tight bound.  The ceiling `INT_MAX` alone is
looser than the bound against the remaining `target_size - target_pos` whenever fewer than
`INT_MAX` bytes remain: the triple `(INT_MAX, 0, seek)` passes the test of lines 263-264 in
every state; but such a triple is then rejected by the fit check of line 268, the pass ending
in "Corrupt patch".  Every triple of a pass that the loop carries through satisfies
`add_len ≤ target_size - target_pos` and `copy_len ≤ target_size - target_pos - add_len` at
the moment it is checked (lines 268 and 287), so no accepted patch holds a triple above the
remaining size. -/
theorem sanity_ceiling_tight (old : List UChar) (newsize : Int) (cpf dpf epf : BzStream)
    (n : Nat) (s : LoopState) (h0 : 0 ≤ newsize) (hsize : newsize ≤ OFF_MAX)
    (hp : afterPasses old newsize n (initState newsize cpf dpf epf) = some s) :
    (∀ (ctrl : Ctrl) (s0 s2 : LoopState), readCtrl s = .next (ctrl, s0) →
      iteration old newsize s = .next s2 →
      ctrl.c0 ≤ newsize - s.newpos ∧ ctrl.c1 ≤ newsize - s.newpos - ctrl.c0) ∧
    (∀ seek : Int, sanityCheck ⟨INT_MAX, 0, seek⟩ s = .next s ∧
      (newsize - s.newpos < INT_MAX →
        applyCtrl old newsize ⟨INT_MAX, 0, seek⟩ s = .corrupt s)) := by
  constructor
  · intro ctrl s0 s2 hrd hit
    obtain ⟨_, _, a, _⟩ := accepted_triple_fits h0 hsize hp hrd hit
    omega
  · intro seek
    obtain ⟨hw, _, _⟩ := afterPasses_wellFormed old newsize hsize n _ _
      (initState_wellFormed newsize cpf dpf epf h0) hp
    have hsz := hsize
    rw [OFF_MAX_eq] at hsz
    have hI : INT_MAX = 2147483647 := rfl
    have hsan : sanityFails ⟨INT_MAX, 0, seek⟩ = false := by
      rw [Bool.eq_false_iff, ne_eq, sanityFails_iff]
      simp only [hI]
      omega
    refine ⟨by simp [sanityCheck, hsan], ?_⟩
    intro hlt
    have := hw.1
    have := hw.2.1
    exact applyCtrl_add_overshoot old newsize _ s (by rw [isOff_iff]; omega)
      (by rw [isOff_iff]; simp only [hI]; omega) (by simp only; omega)

theorem sanity_ceiling_tight_witness :
    afterPasses [7] 2 0 (initState 2
        ⟨[1, 0, 0, 0, 0, 0, 0, 0, 1, 0, 0, 0, 0, 0, 0, 0, 0, 0, 0, 0, 0, 0, 0, 0], false⟩
        ⟨[9], false⟩ ⟨[5], false⟩) =
      some (initState 2
        ⟨[1, 0, 0, 0, 0, 0, 0, 0, 1, 0, 0, 0, 0, 0, 0, 0, 0, 0, 0, 0, 0, 0, 0, 0], false⟩
        ⟨[9], false⟩ ⟨[5], false⟩) ∧
    ((⟨1, 1, 0⟩ : Ctrl).c0 ≤ 2 - (initState 2
        ⟨[1, 0, 0, 0, 0, 0, 0, 0, 1, 0, 0, 0, 0, 0, 0, 0, 0, 0, 0, 0, 0, 0, 0, 0], false⟩
        ⟨[9], false⟩ ⟨[5], false⟩).newpos ∧
      (⟨1, 1, 0⟩ : Ctrl).c1 ≤ 2 - (initState 2
        ⟨[1, 0, 0, 0, 0, 0, 0, 0, 1, 0, 0, 0, 0, 0, 0, 0, 0, 0, 0, 0, 0, 0, 0, 0], false⟩
        ⟨[9], false⟩ ⟨[5], false⟩).newpos - (⟨1, 1, 0⟩ : Ctrl).c0) :=
  ⟨by decide,
    (sanity_ceiling_tight [7] 2
      ⟨[1, 0, 0, 0, 0, 0, 0, 0, 1, 0, 0, 0, 0, 0, 0, 0, 0, 0, 0, 0, 0, 0, 0, 0], false⟩
      ⟨[9], false⟩ ⟨[5], false⟩ 0 _ (by decide) (by decide) (by decide)).1 ⟨1, 1, 0⟩
      ⟨0, 0, [0, 0], ⟨[], false⟩, ⟨[9], false⟩, ⟨[5], false⟩⟩
      ⟨1, 2, [16, 5], ⟨[], false⟩, ⟨[], false⟩, ⟨[], false⟩⟩ (by decide) (by decide)⟩

/-- C18 as stated fails: no patch has a pass carried through by the loop whose triple has
`add_len > target_size - target_pos` or `copy_len > target_size - target_pos` at the moment it
is checked, whatever the base, the header-accepted `target_size` and the three streams; hence
no patch accepted by `main` holds such a triple. -/
theorem sanity_ceiling_counterexample :
    ¬ ∃ (old : List UChar) (newsize : Int) (cpf dpf epf : BzStream) (n : Nat)
        (s s0 s2 : LoopState) (ctrl : Ctrl),
      0 ≤ newsize ∧ newsize ≤ OFF_MAX ∧
      afterPasses old newsize n (initState newsize cpf dpf epf) = some s ∧
      readCtrl s = .next (ctrl, s0) ∧ iteration old newsize s = .next s2 ∧
      (ctrl.c0 > newsize - s.newpos ∨ ctrl.c1 > newsize - s.newpos) := by
  rintro ⟨old, newsize, cpf, dpf, epf, n, s, s0, s2, ctrl, h0, hsize, hp, hrd, hit, hgt⟩
  obtain ⟨a0, a1, a, _⟩ := accepted_triple_fits h0 hsize hp hrd hit
  omega

/-- C19, the code at a failing input: base `[7, 8]`, `target_size = 3`, a control stream of 48
bytes holding the triples `(1, 0, -2^40)` and `(2, 0, 0)`, diff `[1, 2, 3]`, no extra bytes.
The bound `48 / 24 + 1 = 3` on the passes holds, but the loop ends neither normally nor in
"Corrupt patch": its second pass reads `old[1 - 2^40]`, outside the base buffer. -/
theorem loop_ends_in_fault :
    loop [7, 8] 3 (initState 3
        ⟨[1, 0, 0, 0, 0, 0, 0, 0, 0, 0, 0, 0, 0, 0, 0, 0, 0, 0, 0, 0, 0, 1, 0, 128,
          2, 0, 0, 0, 0, 0, 0, 0, 0, 0, 0, 0, 0, 0, 0, 0, 0, 0, 0, 0, 0, 0, 0, 0], false⟩
        ⟨[1, 2, 3], false⟩ ⟨[], false⟩) =
      .outOfBounds ⟨-1099511627775, 1, [8, 2, 3], ⟨[], false⟩, ⟨[], false⟩, ⟨[], false⟩⟩ ∧
    afterPasses [7, 8] 3 1 (initState 3
        ⟨[1, 0, 0, 0, 0, 0, 0, 0, 0, 0, 0, 0, 0, 0, 0, 0, 0, 0, 0, 0, 0, 1, 0, 128,
          2, 0, 0, 0, 0, 0, 0, 0, 0, 0, 0, 0, 0, 0, 0, 0, 0, 0, 0, 0, 0, 0, 0, 0], false⟩
        ⟨[1, 2, 3], false⟩ ⟨[], false⟩) =
      some ⟨-1099511627775, 1, [8, 0, 0],
        ⟨[2, 0, 0, 0, 0, 0, 0, 0, 0, 0, 0, 0, 0, 0, 0, 0, 0, 0, 0, 0, 0, 0, 0, 0], false⟩,
        ⟨[2, 3], false⟩, ⟨[], false⟩⟩ := by
  decide

/-- C20: write-once coverage.  For every header-accepted `target_size` and all streams:
(1) in every pass begun at a state `s` at the head of the loop, whichever way the pass ends,
the target buffer keeps its length `target_size`; when the control read fails nothing is
written; otherwise every index whose byte the pass changes lies in
`[target_pos, target_pos + add_len + copy_len)` and in `[0, target_size)`; and every byte
below `target_pos` is left unchanged;
(2) on a run in which the loop ends normally, every index `j` of `[0, target_size)` lies in
the region `[target_pos, target_pos + add_len + copy_len)` of exactly one pass `k`, the regions
of successive passes being adjacent (no gap, no overlap), and the byte at `j` in the final
target is the one that pass left there (no later pass overwrites it): the byte at offset
`j - target_pos` of the add region followed by the extra bytes of that triple. -/
theorem write_once_coverage (old : List UChar) (newsize : Int) (cpf dpf epf : BzStream)
    (h0 : 0 ≤ newsize) (hsize : newsize ≤ OFF_MAX) :
    (∀ (n : Nat) (s : LoopState),
      afterPasses old newsize n (initState newsize cpf dpf epf) = some s →
      (s.new.length : Int) = newsize ∧
      (iteration old newsize s).final.new.length = s.new.length ∧
      (∀ st, readCtrl s = .corrupt st → (iteration old newsize s).final.new = s.new) ∧
      (∀ ctrl s0, readCtrl s = .next (ctrl, s0) → ∀ j : Nat,
        (iteration old newsize s).final.new.get? j ≠ s.new.get? j →
        s.newpos ≤ (j : Int) ∧ (j : Int) < s.newpos + ctrl.c0 + ctrl.c1 ∧
          0 ≤ (j : Int) ∧ (j : Int) < newsize) ∧
      (∀ j : Nat, (j : Int) < s.newpos →
        (iteration old newsize s).final.new.get? j = s.new.get? j)) ∧
    (∀ sf, loop old newsize (initState newsize cpf dpf epf) = .done sf →
      ∀ j : Nat, (j : Int) < newsize →
      ∃ k sk sk' ctrl s0,
        afterPasses old newsize k (initState newsize cpf dpf epf) = some sk ∧
        readCtrl sk = .next (ctrl, s0) ∧ iteration old newsize sk = .next sk' ∧
        sk'.newpos = sk.newpos + ctrl.c0 + ctrl.c1 ∧
        sk.newpos ≤ (j : Int) ∧ (j : Int) < sk.newpos + ctrl.c0 + ctrl.c1 ∧
        sf.new.get? j = sk'.new.get? j ∧
        sf.new.get? j = (addRegion old sk.oldpos (sk.dpf.data.take ctrl.c0.toNat) ++
          sk.epf.data.take ctrl.c1.toNat).get? (j - sk.newpos.toNat) ∧
        ∀ k' s' s'', afterPasses old newsize k' (initState newsize cpf dpf epf) = some s' →
          iteration old newsize s' = .next s'' → s'.newpos ≤ (j : Int) →
          (j : Int) < s''.newpos → k' = k) := by
  have hinit := initState_wellFormed newsize cpf dpf epf h0
  constructor
  · intro n s hp
    obtain ⟨hw, _, _⟩ := afterPasses_wellFormed old newsize hsize n _ _ hinit hp
    obtain ⟨f1, f2⟩ := iteration_final old newsize s hsize hw
    refine ⟨hw.2.2.2, f2.1, ?_, ?_, fun j hj => f2.2 j (Or.inl hj)⟩
    · intro st hst
      apply f1
      by_contra hc
      rw [readCtrl_ok s (by omega)] at hst
      cases hst
    · intro ctrl s0 hrd j hne
      obtain ⟨_, e, _⟩ := readCtrl_next hrd
      subst e
      simp only
      have hin : ¬ ((j : Int) < s.newpos ∨
          s.newpos + offtin (s.cpf.data.take 8) + offtin ((s.cpf.data.drop 8).take 8) ≤
            (j : Int)) := fun hc => hne (f2.2 j hc)
      have hlt : j < s.new.length := by
        by_contra hc
        apply hne
        have a1 : (iteration old newsize s).final.new.get? j = none :=
          List.get?_eq_none.2 (by rw [f2.1]; omega)
        have a2 : s.new.get? j = none := List.get?_eq_none.2 (by omega)
        rw [a1, a2]
      have := hw.2.2.2
      omega
  · intro sf hl j hj
    obtain ⟨_, he, n, hp, _⟩ := loop_done_exact h0 hsize hl
    have hz : (initState newsize cpf dpf epf).newpos ≤ (j : Int) := by
      simp only [initState]; omega
    obtain ⟨k, sk, sk', hk, r1, r2, r3, r4⟩ :=
      afterPasses_cover old newsize n _ _ hp j hz (by omega)
    obtain ⟨sp, q1, _, q3⟩ := afterPasses_last old newsize k _ _ r2
    rw [r1] at q1
    injection q1 with q1
    subst q1
    obtain ⟨hwk, _, _⟩ := afterPasses_wellFormed old newsize hsize k _ _ hinit r1
    obtain ⟨hwk', e, _, _⟩ := iteration_next_wellFormed hsize hwk q3
    have h24 := iteration_next_len q3
    obtain ⟨d, rfl⟩ : ∃ d, n = (k + 1) + d := ⟨n - (k + 1), by omega⟩
    obtain ⟨sa, u1, u2⟩ := afterPasses_split old newsize (k + 1) d _ _ hp
    rw [r2] at u1
    injection u1 with u1
    subst u1
    have hbelow := afterPasses_below old newsize hsize d _ _ hwk' u2 j r4
    obtain ⟨b1, b2, hcont⟩ := iteration_next_content hsize hwk q3
    have hk0 := hwk.1
    have hklen := hwk.2.2.2
    refine ⟨k, sk, sk', _, _, r1, readCtrl_ok sk h24, q3, e, r3, by simp only; omega,
      hbelow, ?_, ?_⟩
    · rw [hbelow, hcont]
      simp only
      have hP : (sk.new.take sk.newpos.toNat).length = sk.newpos.toNat := by
        rw [List.length_take]; omega
      have hj : j = (sk.new.take sk.newpos.toNat).length + (j - sk.newpos.toNat) := by
        rw [hP]; omega
      have hR : j - sk.newpos.toNat <
          (addRegion old sk.oldpos (sk.dpf.data.take (offtin (sk.cpf.data.take 8)).toNat) ++
            sk.epf.data.take (offtin ((sk.cpf.data.drop 8).take 8)).toNat).length := by
        rw [List.length_append, addRegion_length, List.length_take, List.length_take]
        omega
      conv_lhs => rw [hj]
      exact get_mid _ _ _ _ hR
    intro k' s' s'' v1 v2 v3 v4
    obtain ⟨hw', _, _⟩ := afterPasses_wellFormed old newsize hsize k' _ _ hinit v1
    obtain ⟨hw'', _, _, _⟩ := iteration_next_wellFormed hsize hw' v2
    have hlt' : s'.newpos < newsize := by omega
    have v5 := afterPasses_snoc old newsize k' _ _ _ v1 hlt' v2
    rcases Nat.lt_trichotomy k' k with hlt | heq | hgt
    · have := afterPasses_mono old newsize hsize hinit (show k' + 1 ≤ k by omega) v5 r1
      omega
    · exact heq
    · have := afterPasses_mono old newsize hsize hinit (show k + 1 ≤ k' by omega) r2 v1
      omega

theorem write_once_coverage_witness :
    loop [7] 3 (initState 3
        ⟨[1, 0, 0, 0, 0, 0, 0, 0, 1, 0, 0, 0, 0, 0, 0, 0, 0, 0, 0, 0, 0, 0, 0, 0,
          1, 0, 0, 0, 0, 0, 0, 0, 0, 0, 0, 0, 0, 0, 0, 0, 0, 0, 0, 0, 0, 0, 0, 0], false⟩
        ⟨[9, 4], false⟩ ⟨[5], false⟩) =
      .done ⟨2, 3, [16, 5, 4], ⟨[], false⟩, ⟨[], false⟩, ⟨[], false⟩⟩ ∧
    ∃ k sk sk' ctrl s0,
      afterPasses [7] 3 k (initState 3
        ⟨[1, 0, 0, 0, 0, 0, 0, 0, 1, 0, 0, 0, 0, 0, 0, 0, 0, 0, 0, 0, 0, 0, 0, 0,
          1, 0, 0, 0, 0, 0, 0, 0, 0, 0, 0, 0, 0, 0, 0, 0, 0, 0, 0, 0, 0, 0, 0, 0], false⟩
        ⟨[9, 4], false⟩ ⟨[5], false⟩) = some sk ∧
      readCtrl sk = .next (ctrl, s0) ∧ iteration [7] 3 sk = .next sk' ∧
      sk'.newpos = sk.newpos + ctrl.c0 + ctrl.c1 ∧
      sk.newpos ≤ ((2 : Nat) : Int) ∧ ((2 : Nat) : Int) < sk.newpos + ctrl.c0 + ctrl.c1 ∧
      (⟨2, 3, [16, 5, 4], ⟨[], false⟩, ⟨[], false⟩, ⟨[], false⟩⟩ : LoopState).new.get? 2 =
        sk'.new.get? 2 ∧
      (⟨2, 3, [16, 5, 4], ⟨[], false⟩, ⟨[], false⟩, ⟨[], false⟩⟩ : LoopState).new.get? 2 =
        (addRegion [7] sk.oldpos (sk.dpf.data.take ctrl.c0.toNat) ++
          sk.epf.data.take ctrl.c1.toNat).get? (2 - sk.newpos.toNat) ∧
      ∀ k' s' s'', afterPasses [7] 3 k' (initState 3
          ⟨[1, 0, 0, 0, 0, 0, 0, 0, 1, 0, 0, 0, 0, 0, 0, 0, 0, 0, 0, 0, 0, 0, 0, 0,
            1, 0, 0, 0, 0, 0, 0, 0, 0, 0, 0, 0, 0, 0, 0, 0, 0, 0, 0, 0, 0, 0, 0, 0], false⟩
          ⟨[9, 4], false⟩ ⟨[5], false⟩) = some s' →
        iteration [7] 3 s' = .next s'' → s'.newpos ≤ ((2 : Nat) : Int) →
        ((2 : Nat) : Int) < s''.newpos → k' = k :=
  ⟨by decide,
    (write_once_coverage [7] 3
      ⟨[1, 0, 0, 0, 0, 0, 0, 0, 1, 0, 0, 0, 0, 0, 0, 0, 0, 0, 0, 0, 0, 0, 0, 0,
        1, 0, 0, 0, 0, 0, 0, 0, 0, 0, 0, 0, 0, 0, 0, 0, 0, 0, 0, 0, 0, 0, 0, 0], false⟩
      ⟨[9, 4], false⟩ ⟨[5], false⟩ (by decide) (by decide)).2 _ (by decide) 2 (by decide)⟩

end Bspatch
